import Mathlib

/-!
# xlang python projection helpers (`src/tool/python/helpers.h`)

A shallow embedding of the analysis helpers of the python projection tool:
the interface closure (`get_interfaces_impl`, `get_interfaces`), the method
aggregation (`get_methods`, `get_methods2`) and the parameter classifier
(`get_param_category`, `is_in_param`).

Metadata rows are addressed by their row number, as in the metadata tables.
Code that the header uses but does not define (the cache lookup
`find_required`, the writer's "%" rendering `write_temp`, `get_category`,
attribute lookup) is carried by the `database` record as data.
-/

namespace xlang

/-! ## Outcomes of a run -/

/-- Outcome of running a piece of the program: a value, an exception raised
by `throw_invalid`, a violated `XLANG_ASSERT`, or a recursion that did not
return within the call depth that was granted. -/
inductive Res (α : Type) where
  | ok (value : α)
  | throw_invalid (message : String)
  | assert_failed
  | diverge
  deriving DecidableEq, Repr

/-- Sequencing: the continuation runs on a value, every failure propagates. -/
def Res.bind {α β : Type} (r : Res α) (f : α → Res β) : Res β :=
  match r with
  | .ok a => f a
  | .throw_invalid m => .throw_invalid m
  | .assert_failed => .assert_failed
  | .diverge => .diverge

/-- Modelled from the spec: the `XLANG_ASSERT` macro, whose definition is not
in the header. Sections 4.6 and 7 of the specification treat a violated
assertion as a fatal invariant violation, so a false condition fails. -/
def XLANG_ASSERT (condition : Bool) : Res Unit :=
  if condition then .ok () else .assert_failed

/-! ## Metadata records -/

/-- Row number in the TypeDef table. -/
abbrev TypeDef := Nat

/-- Row number in the TypeRef table. -/
abbrev TypeRef := Nat

/-- Row number in the TypeSpec table. -/
abbrev TypeSpec := Nat

/-- Tagged row reference `coded_index<TypeDefOrRef>`. -/
inductive TypeDefOrRef where
  | TypeDef (row : TypeDef)
  | TypeRef (row : TypeRef)
  | TypeSpec (row : TypeSpec)
  deriving DecidableEq, Repr

/-- Primitive element types of a signature. -/
inductive ElementType where
  | Boolean | Char | I1 | U1 | I2 | U2 | I4 | U4 | I8 | U8 | R4 | R8 | String | Object
  deriving DecidableEq, Repr

/-- Type signature `TypeSig`: the array marker together with the variant
returned by `Type()`. -/
inductive TypeSig where
  | ElementType (is_szarray : Bool) (type : ElementType)
  | TypeDefOrRef (is_szarray : Bool) (type : TypeDefOrRef)
  | GenericTypeIndex (is_szarray : Bool) (index : Nat)
  | GenericTypeInstSig (is_szarray : Bool) (GenericType : TypeDefOrRef) (GenericArgs : List TypeSig)
  deriving Repr

mutual
/-- Equality of type signatures is decidable. -/
def TypeSig.decEq : (a b : TypeSig) → Decidable (a = b)
  | .ElementType a1 t1, .ElementType a2 t2 =>
    if h : a1 = a2 ∧ t1 = t2 then isTrue (by rw [h.1, h.2])
    else isFalse (fun e => h (by cases e; exact ⟨rfl, rfl⟩))
  | .TypeDefOrRef a1 t1, .TypeDefOrRef a2 t2 =>
    if h : a1 = a2 ∧ t1 = t2 then isTrue (by rw [h.1, h.2])
    else isFalse (fun e => h (by cases e; exact ⟨rfl, rfl⟩))
  | .GenericTypeIndex a1 t1, .GenericTypeIndex a2 t2 =>
    if h : a1 = a2 ∧ t1 = t2 then isTrue (by rw [h.1, h.2])
    else isFalse (fun e => h (by cases e; exact ⟨rfl, rfl⟩))
  | .GenericTypeInstSig a1 g1 l1, .GenericTypeInstSig a2 g2 l2 =>
    if h : a1 = a2 ∧ g1 = g2 then
      match TypeSig.decEqList l1 l2 with
      | isTrue hl => isTrue (by rw [h.1, h.2, hl])
      | isFalse hl => isFalse (fun e => hl (by cases e; rfl))
    else isFalse (fun e => h (by cases e; exact ⟨rfl, rfl⟩))
  | .ElementType _ _, .TypeDefOrRef _ _ => isFalse (fun e => by cases e)
  | .ElementType _ _, .GenericTypeIndex _ _ => isFalse (fun e => by cases e)
  | .ElementType _ _, .GenericTypeInstSig _ _ _ => isFalse (fun e => by cases e)
  | .TypeDefOrRef _ _, .ElementType _ _ => isFalse (fun e => by cases e)
  | .TypeDefOrRef _ _, .GenericTypeIndex _ _ => isFalse (fun e => by cases e)
  | .TypeDefOrRef _ _, .GenericTypeInstSig _ _ _ => isFalse (fun e => by cases e)
  | .GenericTypeIndex _ _, .ElementType _ _ => isFalse (fun e => by cases e)
  | .GenericTypeIndex _ _, .TypeDefOrRef _ _ => isFalse (fun e => by cases e)
  | .GenericTypeIndex _ _, .GenericTypeInstSig _ _ _ => isFalse (fun e => by cases e)
  | .GenericTypeInstSig _ _ _, .ElementType _ _ => isFalse (fun e => by cases e)
  | .GenericTypeInstSig _ _ _, .TypeDefOrRef _ _ => isFalse (fun e => by cases e)
  | .GenericTypeInstSig _ _ _, .GenericTypeIndex _ _ => isFalse (fun e => by cases e)
/-- Equality of lists of type signatures is decidable. -/
def TypeSig.decEqList : (l1 l2 : List TypeSig) → Decidable (l1 = l2)
  | [], [] => isTrue rfl
  | [], _ :: _ => isFalse (fun e => by cases e)
  | _ :: _, [] => isFalse (fun e => by cases e)
  | a :: l1, b :: l2 =>
    match TypeSig.decEq a b, TypeSig.decEqList l1 l2 with
    | isTrue h1, isTrue h2 => isTrue (by rw [h1, h2])
    | isFalse h1, _ => isFalse (fun e => h1 (by cases e; rfl))
    | _, isFalse h2 => isFalse (fun e => h2 (by cases e; rfl))
end

instance : DecidableEq TypeSig := TypeSig.decEq

/-- Accessor `TypeSig::is_szarray()`. -/
def TypeSig.is_szarray : TypeSig → Bool
  | .ElementType a _ => a
  | .TypeDefOrRef a _ => a
  | .GenericTypeIndex a _ => a
  | .GenericTypeInstSig a _ _ => a

/-- Generic instantiation `GenericTypeInstSig`: the generic type and its
arguments. -/
structure GenericTypeInstSig where
  GenericType : TypeDefOrRef
  GenericArgs : List TypeSig

/-- Flags of a parameter row. -/
structure ParamAttributes where
  In : Bool := false
  Out : Bool := false
  deriving DecidableEq, Repr

/-- Parameter row `Param`. -/
structure Param where
  Sequence : Nat := 0
  Name : String := ""
  Flags : ParamAttributes := {}
  deriving DecidableEq, Repr

/-- Parameter signature `ParamSig`. -/
structure ParamSig where
  type : TypeSig
  ByRef : Bool := false
  deriving DecidableEq, Repr

/-- Method signature `MethodDefSig`: the return type, none for a method
that returns nothing, and the signatures of the parameters. -/
structure MethodDefSig where
  ReturnType : Option TypeSig := none
  Params : List ParamSig := []
  deriving DecidableEq, Repr

/-- Flags of a method row that the helpers read. -/
structure MethodAttributes where
  RTSpecialName : Bool := false
  SpecialName : Bool := false
  Static : Bool := false
  deriving DecidableEq, Repr

/-- Method row `MethodDef`: `ParamList` lists the rows of the Param table
that belong to the method, in row order. -/
structure MethodDef where
  Name : String
  Flags : MethodAttributes := {}
  Signature : MethodDefSig := {}
  ParamList : List Param := []
  deriving DecidableEq, Repr

/-- Type categories returned by `get_category`. -/
inductive category where
  | interface_type
  | class_type
  | enum_type
  | struct_type
  | delegate_type
  deriving DecidableEq, Repr

/-- One row of the TypeDef table: the columns and child lists the helpers
read. `InterfaceImpl` lists `Interface()` of each of the type's
InterfaceImpl rows, in row order; `CustomAttribute` lists the namespace and
name of the attributes the type carries. -/
structure TypeDefRow where
  TypeNamespace : String := ""
  TypeName : String := ""
  category : category := .class_type
  MethodList : List MethodDef := []
  InterfaceImpl : List TypeDefOrRef := []
  CustomAttribute : List (String × String) := []

/-- One row of the TypeRef table: the namespace and the name of the type
referred to. -/
structure TypeRefRow where
  TypeNamespace : String := ""
  TypeName : String := ""

/-- Writer state that the rendering of a type depends on: the stack of
generic argument lists that are in scope, innermost first. -/
structure writer where
  generic_param_stack : List (List TypeSig) := []

/-- The metadata tables together with the helpers that the header calls but
does not define: `find_required` (cache lookup of a type reference, none
when the type is not found) and `write_temp` (the writer's "%" rendering of
an interface reference, which may depend on the generic arguments in
scope). -/
structure database where
  TypeDef_table : List TypeDefRow
  TypeSpec_table : List GenericTypeInstSig
  find_required : TypeRef → Option TypeDef
  write_temp : writer → TypeDefOrRef → String
  TypeRef_table : List TypeRefRow := []

/-- Child list `type.MethodList()`. -/
def database.MethodList (db : database) (type : TypeDef) : List MethodDef :=
  match db.TypeDef_table[type]? with
  | some row => row.MethodList
  | none => []

/-- Child list `type.InterfaceImpl()`, as the list of `Interface()` columns. -/
def database.InterfaceImpl (db : database) (type : TypeDef) : List TypeDefOrRef :=
  match db.TypeDef_table[type]? with
  | some row => row.InterfaceImpl
  | none => []

/-- Result of `get_category(type)`. -/
def database.get_category (db : database) (type : TypeDef) : category :=
  match db.TypeDef_table[type]? with
  | some row => row.category
  | none => .class_type

/-! ## Generic parameter scope -/

/-- Guard `writer::generic_param_guard`: it owns at most one pushed frame. -/
structure generic_param_guard where
  owner : Bool := false
  deriving DecidableEq, Repr

/-- Modelled from the spec: `writer::push_generic_params`, which is not in
the header. Section 3 describes a stack discipline binding of formal generic
parameters to the arguments of the instantiation: a frame is pushed and the
returned guard owns it. -/
def writer.push_generic_params (w : writer) (signature : GenericTypeInstSig) :
    writer × generic_param_guard :=
  ({ generic_param_stack := signature.GenericArgs :: w.generic_param_stack }, { owner := true })

/-- Modelled from the spec: the destructor of `generic_param_guard`, which
releases the frame it owns when the scope exits. -/
def generic_param_guard.release (guard : generic_param_guard) (w : writer) : writer :=
  if guard.owner then { generic_param_stack := w.generic_param_stack.tail } else w

/-! ## std::map -/

/-- Ordered map `std::map<std::string, V>`: the entries in ascending key
order, which is the iteration order. -/
abbrev std_map (V : Type) := List (String × V)

/-- Lookup `std::map::find`; none stands for `end()`. -/
def std_map.find {V : Type} : std_map V → String → Option V
  | [], _ => none
  | (k, v) :: rest, key => if key = k then some v else std_map.find rest key

/-- Store `m[key] = value`: replaces the entry of an existing key, otherwise
inserts at the position the key order gives. Keys compare as `std::string`
does, character by character. -/
def std_map.assign {V : Type} : std_map V → String → V → std_map V
  | [], key, value => [(key, value)]
  | (k, v) :: rest, key, value =>
    if key.toList < k.toList then (key, value) :: (k, v) :: rest
    else if key = k then (k, value) :: rest
    else (k, v) :: std_map.assign rest key value

/-- Keys of the map in iteration order. -/
def std_map.keys {V : Type} (m : std_map V) : List String := m.map Prod.fst

/-- Invariant of `std::map`: the keys are strictly ascending. -/
def std_map.ordered {V : Type} (m : std_map V) : Prop := (std_map.keys m).Pairwise (· < ·)

/-- Map inclusion: every entry of the first map is an entry of the second,
under the same key and with the same value. -/
def std_map.included {V : Type} (m m2 : std_map V) : Prop :=
  ∀ k v, std_map.find m k = some v → std_map.find m2 k = some v

/-! ## Interface closure -/

/-- Entry `interface_info` of the closure. -/
structure interface_info where
  type : TypeDefOrRef
  methods : List MethodDef := []
  deriving DecidableEq, Repr

/-- The switch of `get_interfaces_impl` (lines 251-271): the definition an
interface reference stands for, the writer state after the case ran and the
guard it left. A type specification pushes its generic arguments and must
name its generic type by a type reference. -/
def interface_definition (db : database) (w : writer) (type : TypeDefOrRef) :
    Res (TypeDef × writer × generic_param_guard) :=
  match type with
  | .TypeDef row => .ok (row, w, {})
  | .TypeRef row =>
    match db.find_required row with
    | some definition => .ok (definition, w, {})
    | none => .throw_invalid "type not found"
  | .TypeSpec row =>
    match db.TypeSpec_table[row]? with
    | none => .assert_failed
    | some type_signature =>
      let pushed := w.push_generic_params type_signature
      match type_signature.GenericType with
      | .TypeRef generic_type =>
        match db.find_required generic_type with
        | some definition => .ok (definition, pushed.1, pushed.2)
        | none => .throw_invalid "type not found"
      | _ => .assert_failed

/-- Body of the loop of `get_interfaces_impl` over the remaining children;
`recurse` is the nested call `get_interfaces_impl(w, result, ...)`. -/
def get_interfaces_loop (db : database)
    (recurse : writer → std_map interface_info → List TypeDefOrRef →
      Res (writer × std_map interface_info)) :
    writer → std_map interface_info → List TypeDefOrRef →
      Res (writer × std_map interface_info)
  | w, result, [] => .ok (w, result)
  | w, result, impl :: children =>
    let name := db.write_temp w impl
    match std_map.find result name with
    | some _ => get_interfaces_loop db recurse w result children
    | none =>
      match interface_definition db w impl with
      | .ok (definition, w1, guard) =>
        match recurse w1 result (db.InterfaceImpl definition) with
        | .ok (w2, result2) =>
          get_interfaces_loop db recurse (guard.release w2)
            (std_map.assign result2 name { type := impl, methods := db.MethodList definition })
            children
        | .throw_invalid m => .throw_invalid m
        | .assert_failed => .assert_failed
        | .diverge => .diverge
      | .throw_invalid m => .throw_invalid m
      | .assert_failed => .assert_failed
      | .diverge => .diverge

/-- Function `get_interfaces_impl`; the first argument bounds the depth of
nested calls, and a run that needs a deeper nesting is `diverge`. -/
def get_interfaces_impl (db : database) :
    Nat → writer → std_map interface_info → List TypeDefOrRef →
      Res (writer × std_map interface_info)
  | 0 => get_interfaces_loop db (fun _ _ _ => .diverge)
  | fuel + 1 => get_interfaces_loop db (get_interfaces_impl db fuel)

/-- Function `get_interfaces`: the closure of a type, started from the empty
map. The writer is passed by reference, so its final state is returned too. -/
def get_interfaces (db : database) (fuel : Nat) (w : writer) (type : TypeDef) :
    Res (writer × std_map interface_info) :=
  get_interfaces_impl db fuel w [] (db.InterfaceImpl type)

/-! ## Interface closure, with the steps it takes -/

/-- One step of the closure loop that touches the result map: an edge that
was skipped because its name was already a key (line 244), or the store of an
entry (line 275). `w` is the writer state in which the name of the edge was
rendered and `result` is the map as it was when the step was taken. -/
inductive closure_step where
  | skipped (w : writer) (impl : TypeDefOrRef) (name : String) (result : std_map interface_info)
  | stored (w : writer) (name : String) (info : interface_info) (result : std_map interface_info)

/-- The map a step works on. -/
def closure_step.before : closure_step → std_map interface_info
  | .skipped _ _ _ result => result
  | .stored _ _ _ result => result

/-- The map a step leaves. -/
def closure_step.after : closure_step → std_map interface_info
  | .skipped _ _ _ result => result
  | .stored _ name info result => std_map.assign result name info

/-- The loop of `get_interfaces_impl`, recording the steps it takes in the
order it takes them. -/
def get_interfaces_loop_steps (db : database)
    (recurse : writer → std_map interface_info → List TypeDefOrRef →
      Res (writer × std_map interface_info × List closure_step)) :
    writer → std_map interface_info → List TypeDefOrRef →
      Res (writer × std_map interface_info × List closure_step)
  | w, result, [] => .ok (w, result, [])
  | w, result, impl :: children =>
    let name := db.write_temp w impl
    match std_map.find result name with
    | some _ =>
      match get_interfaces_loop_steps db recurse w result children with
      | .ok (w3, result3, later) => .ok (w3, result3, .skipped w impl name result :: later)
      | .throw_invalid m => .throw_invalid m
      | .assert_failed => .assert_failed
      | .diverge => .diverge
    | none =>
      match interface_definition db w impl with
      | .ok (definition, w1, guard) =>
        match recurse w1 result (db.InterfaceImpl definition) with
        | .ok (w2, result2, nested) =>
          let info : interface_info := { type := impl, methods := db.MethodList definition }
          match get_interfaces_loop_steps db recurse (guard.release w2)
              (std_map.assign result2 name info) children with
          | .ok (w3, result3, later) =>
            .ok (w3, result3, nested ++ .stored w name info result2 :: later)
          | .throw_invalid m => .throw_invalid m
          | .assert_failed => .assert_failed
          | .diverge => .diverge
        | .throw_invalid m => .throw_invalid m
        | .assert_failed => .assert_failed
        | .diverge => .diverge
      | .throw_invalid m => .throw_invalid m
      | .assert_failed => .assert_failed
      | .diverge => .diverge

/-- Function `get_interfaces_impl` with its steps recorded. -/
def get_interfaces_impl_steps (db : database) :
    Nat → writer → std_map interface_info → List TypeDefOrRef →
      Res (writer × std_map interface_info × List closure_step)
  | 0 => get_interfaces_loop_steps db (fun _ _ _ => .diverge)
  | fuel + 1 => get_interfaces_loop_steps db (get_interfaces_impl_steps db fuel)

/-- Function `get_interfaces` with its steps recorded. -/
def get_interfaces_steps (db : database) (fuel : Nat) (w : writer) (type : TypeDef) :
    Res (writer × std_map interface_info × List closure_step) :=
  get_interfaces_impl_steps db fuel w [] (db.InterfaceImpl type)

/-! ## The interface-implementation graph -/

/-- An interface reference as the walk meets it: the writer state in which
its name is rendered, and the reference. -/
abbrev occurrence := writer × TypeDefOrRef

/-- Canonical name of an occurrence: the key `w.write_temp("%", info.type)`. -/
def canonical_name (db : database) (o : occurrence) : String := db.write_temp o.1 o.2

/-- Edge between occurrences: the definition of `o` lists the interface
`o2.2`, which the walk meets in the writer state the switch leaves. -/
def requires_interface (db : database) (o o2 : occurrence) : Prop :=
  ∃ definition guard, interface_definition db o.1 o.2 = .ok (definition, o2.1, guard) ∧
    o2.2 ∈ db.InterfaceImpl definition

/-- Occurrences reached from a type by one or more interface-implementation
edges, the walk starting in writer state `w`. -/
def reachable (db : database) (w : writer) (type : TypeDef) (o : occurrence) : Prop :=
  ∃ impl ∈ db.InterfaceImpl type, Relation.ReflTransGen (requires_interface db) (w, impl) o

/-- Edge between definitions: `d` lists an interface whose definition is `d2`. -/
def implements (db : database) (d d2 : TypeDef) : Prop :=
  ∃ impl ∈ db.InterfaceImpl d, ∃ w w1 guard, interface_definition db w impl = .ok (d2, w1, guard)

/-- The interface-implementation graph has no cycle. -/
def acyclic (db : database) : Prop :=
  ∀ d, ¬ Relation.TransGen (implements db) d d

/-- Every interface reference reached from the type resolves to a definition. -/
def resolvable (db : database) (w : writer) (type : TypeDef) : Prop :=
  ∀ o, reachable db w type o → ∃ r, interface_definition db o.1 o.2 = .ok r

/-- A canonical name identifies one interface: two occurrences reached from
the type that render to the same name have the same definition, and the
interfaces that definition lists render to the same names from either. -/
def canonical (db : database) (w : writer) (type : TypeDef) : Prop :=
  ∀ o1 o2, reachable db w type o1 → reachable db w type o2 →
    canonical_name db o1 = canonical_name db o2 →
    ∀ d1 w1 g1 d2 w2 g2,
      interface_definition db o1.1 o1.2 = .ok (d1, w1, g1) →
      interface_definition db o2.1 o2.2 = .ok (d2, w2, g2) →
      d1 = d2 ∧ ∀ impl ∈ db.InterfaceImpl d1, db.write_temp w1 impl = db.write_temp w2 impl

/-- A path of the walk from the type to an occurrence: the occurrences passed
on the way, nearest to the type first. -/
inductive walk (db : database) (w : writer) (type : TypeDef) : List occurrence → occurrence → Prop where
  | direct (impl : TypeDefOrRef) : impl ∈ db.InterfaceImpl type → walk db w type [] (w, impl)
  | step (via : List occurrence) (o o2 : occurrence) :
      walk db w type via o → requires_interface db o o2 → walk db w type (via ++ [o]) o2

/-- The key set of a map is closed under the interface-implementation edges
of the occurrences reached from the type. -/
def edge_closed (db : database) (w : writer) (type : TypeDef) (m : std_map interface_info) : Prop :=
  ∀ o o2, reachable db w type o → requires_interface db o o2 →
    canonical_name db o ∈ std_map.keys m → canonical_name db o2 ∈ std_map.keys m

/-- The recorded steps chain: the first step works on the map the run
started from, every step works on the map the step before it left, and the
run ends with the map the last step left. -/
def steps_linked : std_map interface_info → List closure_step → std_map interface_info → Prop
  | r, [], r2 => r2 = r
  | r, e :: es, r2 => e.before = r ∧ steps_linked e.after es r2

/-- What holds of a step of the closure of a type. A skipped edge had its
name among the keys. A stored entry belongs to an occurrence reached from the
type, its name was not yet a key, its method range is the method list of its
definition, every interface the occurrence requires, directly or
transitively, already had its name among the keys, and the key set is closed
under the edges before and after the store. -/
def step_sound (db : database) (w0 : writer) (type : TypeDef) : closure_step → Prop
  | .skipped w impl name result =>
    name = db.write_temp w impl ∧ reachable db w0 type (w, impl) ∧ name ∈ std_map.keys result
  | .stored w name info result =>
    name = db.write_temp w info.type ∧ reachable db w0 type (w, info.type) ∧
    std_map.find result name = none ∧
    (∃ d w1 g, interface_definition db w info.type = .ok (d, w1, g) ∧
      info.methods = db.MethodList d) ∧
    edge_closed db w0 type result ∧
    (∀ o, Relation.TransGen (requires_interface db) (w, info.type) o →
      canonical_name db o ∈ std_map.keys result) ∧
    edge_closed db w0 type (std_map.assign result name info)

/-- What a returned call `get_interfaces_impl(w, result, children)` made
during the closure of a type guarantees, `r` being the map it was given,
`r2` the map it left and `tr` the steps it took. -/
def closure_spec (db : database) (w0 : writer) (type : TypeDef) (w : writer)
    (r : std_map interface_info) (l : List TypeDefOrRef) (w2 : writer)
    (r2 : std_map interface_info) (tr : List closure_step) : Prop :=
  (∀ c ∈ l, reachable db w0 type (w, c)) → edge_closed db w0 type r →
    w2 = w ∧ steps_linked r tr r2 ∧ (∀ e ∈ tr, step_sound db w0 type e) ∧
    edge_closed db w0 type r2 ∧
    (∀ c ∈ l, db.write_temp w c ∈ std_map.keys r2) ∧
    (∀ k info, std_map.find r2 k = some info → std_map.find r k = some info ∨
      ∃ c ∈ l, ∃ o d w1 g, Relation.ReflTransGen (requires_interface db) (w, c) o ∧
        k = canonical_name db o ∧ info.type = o.2 ∧
        interface_definition db o.1 o.2 = .ok (d, w1, g) ∧ info.methods = db.MethodList d) ∧
    std_map.included r r2

/-! ## Method aggregation -/

/-- Function `is_constructor`. -/
def is_constructor (method : MethodDef) : Bool :=
  method.Flags.RTSpecialName && decide (method.Name = ".ctor")

/-- An overload with the interface it comes from. -/
abbrev overload := TypeDefOrRef × MethodDef

/-- Statement `methods[name].emplace_back(origin, method)`: `operator[]` makes
an empty vector for a new key, then the pair is appended. -/
def std_map.emplace_back {V : Type} (methods : std_map (List V)) (name : String) (entry : V) :
    std_map (List V) :=
  std_map.assign methods name ((std_map.find methods name).getD [] ++ [entry])

/-- The block of `get_methods2` compiled under `XLANG_DEBUG`: every overload
list longer than one agrees with its first entry on the static flag. -/
def check_overloads : std_map (List overload) → Res Unit
  | [] => .ok ()
  | (_, overloads) :: rest =>
    (if overloads.length > 1 then
      match overloads.head? with
      | some first =>
        XLANG_ASSERT (overloads.all fun m => m.2.Flags.Static == first.2.Flags.Static)
      | none => .ok ()
    else .ok ()).bind fun _ => check_overloads rest

/-- Function `get_methods2`. `XLANG_DEBUG` tells whether the debug block is
compiled. -/
def get_methods2 (db : database) (XLANG_DEBUG : Bool) (fuel : Nat) (w : writer) (type : TypeDef) :
    Res (std_map (List overload)) :=
  let methods : std_map (List overload) :=
    (db.MethodList type).foldl
      (fun methods method =>
        if is_constructor method then methods
        else std_map.emplace_back methods method.Name (.TypeDef type, method))
      []
  (if db.get_category type = .interface_type then
    (get_interfaces db fuel w type).bind fun closure =>
      .ok (closure.2.foldl
        (fun methods info =>
          info.2.methods.foldl
            (fun methods method =>
              std_map.emplace_back methods method.Name (info.2.type, method))
            methods)
        methods)
  else .ok methods).bind fun methods =>
    (if XLANG_DEBUG then check_overloads methods else .ok ()).bind fun _ => .ok methods

/-- Function `get_methods`. -/
def get_methods (db : database) (fuel : Nat) (w : writer) (type : TypeDef) : Res (List MethodDef) :=
  let methods : List MethodDef :=
    (db.MethodList type).foldl
      (fun methods method => if is_constructor method then methods else methods ++ [method])
      []
  if db.get_category type = .interface_type then
    (get_interfaces db fuel w type).bind fun closure =>
      .ok (closure.2.foldl
        (fun methods info => info.2.methods.foldl (fun methods method => methods ++ [method]) methods)
        methods)
  else .ok methods

/-! ## Method aggregation: the population in words -/

/-- The declared methods of a type that are not constructors, in declaration
order. -/
def own_methods (db : database) (type : TypeDef) : List MethodDef :=
  (db.MethodList type).filter (fun method => !is_constructor method)

/-- All methods of the entries of a closure, entry by entry in the iteration
order of the map. -/
def closure_methods (closure : std_map interface_info) : List MethodDef :=
  closure.flatMap (fun info => info.2.methods)

/-- The population with its origins: the own methods attributed to the type
itself, then the methods of each closure entry attributed to the interface
reference of that entry. -/
def attributed_methods (db : database) (type : TypeDef) (closure : std_map interface_info) :
    List overload :=
  (own_methods db type).map (fun method => (TypeDefOrRef.TypeDef type, method)) ++
    closure.flatMap (fun info => info.2.methods.map (fun method => (info.2.type, method)))

/-- The pairs of a list whose method has the given name, in the order of the
list. -/
def overloads_named (pairs : List overload) (name : String) : List overload :=
  pairs.filter (fun entry => decide (entry.2.Name = name))

/-- Grouping by name: each pair in turn is appended to the overloads stored
under the name of its method. -/
def group_overloads (pairs : List overload) (methods : std_map (List overload)) :
    std_map (List overload) :=
  pairs.foldl (fun methods entry => std_map.emplace_back methods entry.2.Name entry) methods

/-- Sum of the lengths of the overload lists of a mapping. -/
def overload_count (methods : std_map (List overload)) : Nat :=
  (methods.map (fun entry => entry.2.length)).sum

/-! ## Parameter classification -/

/-- Pair `method_signature::param_t` of a parameter row and its signature. -/
abbrev param_t := Param × ParamSig

/-- Enumeration `param_category`; `in_` is the enumerator `in`. -/
inductive param_category where
  | in_
  | out
  | pass_array
  | fill_array
  | receive_array
  deriving DecidableEq, Repr

/-- Function `get_param_category`. -/
def get_param_category (param : param_t) : Res param_category :=
  if param.2.type.is_szarray then
    if param.1.Flags.In then
      .ok .pass_array
    else if param.2.ByRef then
      (XLANG_ASSERT param.1.Flags.Out).bind fun _ => .ok .fill_array
    else
      (XLANG_ASSERT param.1.Flags.Out).bind fun _ => .ok .receive_array
  else
    if param.1.Flags.In then
      (XLANG_ASSERT (!param.1.Flags.Out)).bind fun _ => .ok .in_
    else
      (XLANG_ASSERT param.1.Flags.Out).bind fun _ => .ok .out

/-- Function `is_in_param`. -/
def is_in_param (param : param_t) : Res Bool :=
  (get_param_category param).bind fun category =>
    if category = .fill_array then .throw_invalid "fill aray param not impl"
    else .ok (decide (category = .in_) || decide (category = .pass_array))

/-! ## Sample metadata -/

/-- Sample metadata. Class Widget (row 0) implements IB, IC and
IVector<String>; interface ID (row 4) implements IC and IB. IB (row 1) and IC
(row 2) both implement IA (row 3), the one by a definition reference and the
other by a type reference. The generic interface IVector (row 5) implements
IIterable (row 6) at its own type parameter. -/
def sample_db : database where
  TypeDef_table := [
    { TypeName := "Widget", category := .class_type,
      MethodList := [{ Name := ".ctor", Flags := { RTSpecialName := true, SpecialName := true } },
        { Name := "Run" }],
      InterfaceImpl := [.TypeDef 1, .TypeRef 0, .TypeSpec 0] },
    { TypeName := "IB", category := .interface_type, MethodList := [{ Name := "B" }],
      InterfaceImpl := [.TypeDef 3] },
    { TypeName := "IC", category := .interface_type, MethodList := [{ Name := "C" }],
      InterfaceImpl := [.TypeRef 1] },
    { TypeName := "IA", category := .interface_type, MethodList := [{ Name := "A" }] },
    { TypeName := "ID", category := .interface_type, MethodList := [{ Name := "D" }],
      InterfaceImpl := [.TypeRef 0, .TypeDef 1] },
    { TypeName := "IVector", category := .interface_type, MethodList := [{ Name := "GetAt" }],
      InterfaceImpl := [.TypeSpec 1] },
    { TypeName := "IIterable", category := .interface_type, MethodList := [{ Name := "First" }] }]
  TypeSpec_table := [
    { GenericType := .TypeRef 2, GenericArgs := [.ElementType false .String] },
    { GenericType := .TypeRef 3, GenericArgs := [.GenericTypeIndex false 0] }]
  find_required := fun row =>
    match row with
    | 0 => some 2
    | 1 => some 3
    | 2 => some 5
    | 3 => some 6
    | _ => none
  write_temp := fun w type =>
    match type with
    | .TypeDef 1 => "IB"
    | .TypeRef 0 => "IC"
    | .TypeDef 3 => "IA"
    | .TypeRef 1 => "IA"
    | .TypeSpec 0 => "IVector<String>"
    | .TypeSpec 1 =>
      match w.generic_param_stack with
      | [.ElementType false .String] :: _ => "IIterable<String>"
      | _ => "IIterable<T>"
    | _ => "?"

/-- Writer state inside the instantiation IVector<String> of the sample. -/
def sample_inner : writer := { generic_param_stack := [[.ElementType false .String]] }

/-- Rank of the rows of the sample: every interface has a smaller rank than
the types that implement it. -/
def sample_rank (d : TypeDef) : Nat :=
  match d with
  | 0 => 2
  | 4 => 2
  | 1 => 1
  | 2 => 1
  | 5 => 1
  | _ => 0

/-- The occurrences that the closure of a row of the sample can meet when
it starts in the empty writer state. -/
def sample_occurrences : List occurrence :=
  [({}, .TypeDef 1), ({}, .TypeRef 0), ({}, .TypeDef 3), ({}, .TypeRef 1), ({}, .TypeSpec 0),
    (sample_inner, .TypeSpec 1), ({}, .TypeSpec 1)]

/-! ## Parameter counts -/

/-- Statement `count++` on an `int`: the counter is a 32-bit signed integer,
which wraps where the increment leaves its range. -/
def int_increment (count : Int) : Int :=
  if count + 1 < 2 ^ 31 then count + 1 else count + 1 - 2 ^ 32

/-- Loop of `count_in_param` over the remaining parameters. -/
def count_in_param_loop : List param_t → Int → Res Int
  | [], count => .ok count
  | param :: rest, count =>
    (is_in_param param).bind fun is_in =>
      count_in_param_loop rest (if is_in then int_increment count else count)

/-- Function `count_in_param`. -/
def count_in_param (params : List param_t) : Res Int :=
  count_in_param_loop params 0

/-- Loop of `count_out_param` over the remaining parameters. -/
def count_out_param_loop : List param_t → Int → Res Int
  | [], count => .ok count
  | param :: rest, count =>
    (is_in_param param).bind fun is_in =>
      count_out_param_loop rest (if !is_in then int_increment count else count)

/-- Function `count_out_param`. -/
def count_out_param (params : List param_t) : Res Int :=
  count_out_param_loop params 0

/-- A parameter of category in or pass_array. -/
def is_input_category (param : param_t) : Bool :=
  decide (get_param_category param = .ok .in_) ||
    decide (get_param_category param = .ok .pass_array)

/-- A parameter of category out or receive_array. -/
def is_output_category (param : param_t) : Bool :=
  decide (get_param_category param = .ok .out) ||
    decide (get_param_category param = .ok .receive_array)

/-! ## Property and event accessors -/

/-- Flags `MethodSemanticsAttributes` of a semantic-linkage record that the
helpers read. -/
structure MethodSemanticsAttributes where
  Getter : Bool := false
  Setter : Bool := false
  AddOn : Bool := false
  RemoveOn : Bool := false
  deriving DecidableEq, Repr

/-- Semantic-linkage record `MethodSemantics`: what the method is to the
property or event, and the method. -/
structure MethodSemantics where
  Semantic : MethodSemanticsAttributes := {}
  Method : MethodDef
  deriving DecidableEq, Repr

/-- Row `Property` with its semantic-linkage records, in row order. -/
structure Property where
  MethodSemantic : List MethodSemantics

/-- Row `Event` with its semantic-linkage records, in row order. -/
structure Event where
  MethodSemantic : List MethodSemantics

/-- Result `property_type`; none is the null method. -/
structure property_type where
  get : Option MethodDef
  set : Option MethodDef
  deriving DecidableEq, Repr

/-- Result `event_type`; none is the null method. -/
structure event_type where
  add : Option MethodDef
  remove : Option MethodDef
  deriving DecidableEq, Repr

/-- Loop of `get_property_methods` over the remaining records, with the
current `get_method` and `set_method`. -/
def get_property_methods_loop :
    List MethodSemantics → Option MethodDef → Option MethodDef →
      Res (Option MethodDef × Option MethodDef)
  | [], get_method, set_method => .ok (get_method, set_method)
  | method_semantic :: rest, get_method, set_method =>
    if method_semantic.Semantic.Getter then
      get_property_methods_loop rest (some method_semantic.Method) set_method
    else if method_semantic.Semantic.Setter then
      get_property_methods_loop rest get_method (some method_semantic.Method)
    else .throw_invalid "Properties can only have get and set methods"

/-- Function `get_property_methods`. The static flags are compared only
when `set_method` is not null; the flags of a null `get_method` are never
read, because the assertion before them has failed. -/
def get_property_methods (prop : Property) : Res property_type :=
  (get_property_methods_loop prop.MethodSemantic none none).bind fun methods =>
    (XLANG_ASSERT methods.1.isSome).bind fun _ =>
      (match methods.1, methods.2 with
        | some get_method, some set_method =>
          XLANG_ASSERT (get_method.Flags.Static == set_method.Flags.Static)
        | _, none => .ok ()
        | none, some _ => .assert_failed).bind fun _ =>
          .ok { get := methods.1, set := methods.2 }

/-- Loop of `get_event_methods` over the remaining records, with the current
`add_method` and `remove_method`. -/
def get_event_methods_loop :
    List MethodSemantics → Option MethodDef → Option MethodDef →
      Res (Option MethodDef × Option MethodDef)
  | [], add_method, remove_method => .ok (add_method, remove_method)
  | method_semantic :: rest, add_method, remove_method =>
    if method_semantic.Semantic.AddOn then
      get_event_methods_loop rest (some method_semantic.Method) remove_method
    else if method_semantic.Semantic.RemoveOn then
      get_event_methods_loop rest add_method (some method_semantic.Method)
    else .throw_invalid "Events can only have add and remove methods"

/-- Function `get_event_methods`. The flags of a null method are never read,
because the assertions before them have failed. -/
def get_event_methods (evt : Event) : Res event_type :=
  (get_event_methods_loop evt.MethodSemantic none none).bind fun methods =>
    (XLANG_ASSERT methods.1.isSome).bind fun _ =>
      (XLANG_ASSERT methods.2.isSome).bind fun _ =>
        (match methods.1, methods.2 with
          | some add_method, some remove_method =>
            XLANG_ASSERT (add_method.Flags.Static == remove_method.Flags.Static)
          | _, _ => .assert_failed).bind fun _ =>
            .ok { add := methods.1, remove := methods.2 }

/-- A record the scan of a property takes for a getter. -/
def is_getter (record : MethodSemantics) : Bool := record.Semantic.Getter

/-- A record the scan of a property takes for a setter: it is not a getter
and has the setter flag. -/
def is_setter (record : MethodSemantics) : Bool :=
  !record.Semantic.Getter && record.Semantic.Setter

/-- A record the scan of an event takes for an add record. -/
def is_add (record : MethodSemantics) : Bool := record.Semantic.AddOn

/-- A record the scan of an event takes for a remove record: it is not an
add record and has the remove flag. -/
def is_remove (record : MethodSemantics) : Bool :=
  !record.Semantic.AddOn && record.Semantic.RemoveOn

/-- The method of the last record of a kind, none when there is no record of
the kind: the accessor the scan ends with. -/
def last_method (kind : MethodSemantics → Bool) (records : List MethodSemantics) :
    Option MethodDef :=
  ((records.filter kind).getLast?).map (fun record => record.Method)

/-- Sample parameter list without a fill_array parameter: an input value, a
received array and a passed array. -/
def sample_params : List param_t :=
  [({ Sequence := 1, Name := "value", Flags := { In := true } },
      { type := .ElementType false .I4 }),
    ({ Sequence := 2, Name := "result", Flags := { Out := true } },
      { type := .ElementType true .I4 }),
    ({ Sequence := 3, Name := "items", Flags := { In := true } },
      { type := .ElementType true .String })]

/-- Sample parameter list with a fill_array parameter in second place. -/
def sample_params_fill : List param_t :=
  [({ Sequence := 1, Name := "value", Flags := { In := true } },
      { type := .ElementType false .I4 }),
    ({ Sequence := 2, Name := "buffer", Flags := { Out := true } },
      { type := .ElementType true .U1, ByRef := true })]

/-- Sample getter record of a property. -/
def sample_getter : MethodSemantics :=
  { Semantic := { Getter := true }, Method := { Name := "get_Value", Flags := { SpecialName := true } } }

/-- Sample setter record of the same property. -/
def sample_setter : MethodSemantics :=
  { Semantic := { Setter := true }, Method := { Name := "put_Value", Flags := { SpecialName := true } } }

/-! ## Method signatures -/

/-- Class `method_signature`; none for `m_return` is the null row. -/
structure method_signature where
  m_method : MethodDefSig
  m_params : List param_t
  m_return : Option Param
  deriving DecidableEq, Repr

/-- Loop of the constructor: entry `i` pairs the row `params.first + i` with
the signature `Params().data() + i`. The rows are those from `params.first`
to the end of the parameter list of the method; a row past that end belongs
to another method or to none, which is outside this model, and the
construction then fails. -/
def method_signature.emplace_params (params : List Param) (signatures : List ParamSig) :
    Nat → Nat → List param_t → Res (List param_t)
  | 0, _, m_params => .ok m_params
  | remaining + 1, i, m_params =>
    match params[i]?, signatures[i]? with
    | some row, some signature =>
      method_signature.emplace_params params signatures remaining (i + 1)
        (m_params ++ [(row, signature)])
    | _, _ => .assert_failed

/-- Constructor `method_signature::method_signature(MethodDef const&)`. The loop index is a
`uint32_t` compared with the size for inequality, so a signature of 2^32
parameters or more never leaves the loop. -/
def method_signature.ctor (method : MethodDef) : Res method_signature :=
  let m_method := method.Signature
  let start : Option Param × List Param :=
    match m_method.ReturnType, method.ParamList with
    | some _, first :: rest =>
      if first.Sequence = 0 then (some first, rest) else (none, first :: rest)
    | _, params => (none, params)
  if m_method.Params.length < 2 ^ 32 then
    (method_signature.emplace_params start.2 m_method.Params m_method.Params.length 0 []).bind
      fun m_params => .ok { m_method := m_method, m_params := m_params, m_return := start.1 }
  else .diverge

/-- Accessor `method_signature::params`. -/
def method_signature.params (signature : method_signature) : List param_t := signature.m_params

/-- Function `method_signature::return_param_name`. -/
def method_signature.return_param_name (signature : method_signature) : String :=
  match signature.m_return with
  | some row => row.Name
  | none => "winrt_impl_return_value"

/-- Function `method_signature::has_params`. -/
def method_signature.has_params (signature : method_signature) : Bool :=
  !signature.m_params.isEmpty

/-- Number of rows that carry the return value: one when the signature has a
return type and the parameter list is not empty and its first row has
sequence number 0, none otherwise. -/
def return_rows (method : MethodDef) : Nat :=
  if method.Signature.ReturnType.isSome ∧ method.ParamList ≠ [] ∧
      method.ParamList.head?.map (fun row => row.Sequence) = some 0 then 1
  else 0

/-- Sample method with a return type, a row for the return value and two
parameters. -/
def sample_method : MethodDef :=
  { Name := "Lookup",
    Signature := {
      ReturnType := some (.ElementType false .Boolean),
      Params := [{ type := .ElementType false .String },
        { type := .ElementType false .I4, ByRef := true }] },
    ParamList := [{ Sequence := 0, Name := "found" },
      { Sequence := 1, Name := "key", Flags := { In := true } },
      { Sequence := 2, Name := "value", Flags := { Out := true } }] }

/-! ## Signature handler -/

/-- Modelled from the spec: `get_attribute(type, namespace, name)`, which is
not in the header: whether the type carries the attribute, read from the
custom attributes of its row. -/
def database.get_attribute (db : database) (type : TypeDef) (type_namespace name : String) :
    Bool :=
  match db.TypeDef_table[type]? with
  | some row => decide ((type_namespace, name) ∈ row.CustomAttribute)
  | none => false

/-- Function `is_flags_enum`. -/
def is_flags_enum (db : database) (type : TypeDef) : Bool :=
  decide (db.get_category type = .enum_type) && db.get_attribute type "System" "FlagsAttribute"

/-- Function `is_exclusive_to`. -/
def is_exclusive_to (db : database) (type : TypeDef) : Bool :=
  decide (db.get_category type = .interface_type) &&
    db.get_attribute type "Windows.Foundation.Metadata" "ExclusiveToAttribute"

/-- Column `TypeNamespace()` of a TypeRef row. -/
def database.TypeRef_TypeNamespace (db : database) (type : TypeRef) : String :=
  match db.TypeRef_table[type]? with
  | some row => row.TypeNamespace
  | none => ""

/-- Column `TypeName()` of a TypeRef row. -/
def database.TypeRef_TypeName (db : database) (type : TypeRef) : String :=
  match db.TypeRef_table[type]? with
  | some row => row.TypeName
  | none => ""

/-- A handler derived from `signature_handler_base<T>`, given by the
capabilities it supplies; none leaves the default of the base in place. The
handler works on a state of its own. The routing members of the base
(`handle_enum` and the `handle` overloads for type definitions, type
references, coded indices, generic instantiations and type signatures) are
the ones of the base. -/
structure signature_handler (σ : Type) where
  handle_class : Option (TypeDef → σ → Res σ) := none
  handle_delegate : Option (TypeDef → σ → Res σ) := none
  handle_guid : Option (TypeRef → σ → Res σ) := none
  handle_interface : Option (TypeDef → σ → Res σ) := none
  handle_struct : Option (TypeDef → σ → Res σ) := none
  handle_start_generic : Option (σ → Res σ) := none
  handle_end_generic : Option (σ → Res σ) := none
  handle_ElementType : Option (ElementType → σ → Res σ) := none
  handle_GenericTypeIndex : Option (Nat → σ → Res σ) := none

/-- The handler that supplies nothing: the base defaults only. -/
def signature_handler_base (σ : Type) : signature_handler σ := {}

/-- Call `static_cast<T*>(this)->handle_class(type)`. -/
def signature_handler.call_class {σ : Type} (h : signature_handler σ) (type : TypeDef) (s : σ) :
    Res σ :=
  match h.handle_class with
  | some f => f type s
  | none => .throw_invalid "handle_class not implemented"

/-- Call `static_cast<T*>(this)->handle_delegate(type)`. -/
def signature_handler.call_delegate {σ : Type} (h : signature_handler σ) (type : TypeDef)
    (s : σ) : Res σ :=
  match h.handle_delegate with
  | some f => f type s
  | none => .throw_invalid "handle_delegate not implemented"

/-- Call `static_cast<T*>(this)->handle_guid(type)`. -/
def signature_handler.call_guid {σ : Type} (h : signature_handler σ) (type : TypeRef) (s : σ) :
    Res σ :=
  match h.handle_guid with
  | some f => f type s
  | none => .throw_invalid "handle_guid not implemented"

/-- Call `static_cast<T*>(this)->handle_interface(type)`. -/
def signature_handler.call_interface {σ : Type} (h : signature_handler σ) (type : TypeDef)
    (s : σ) : Res σ :=
  match h.handle_interface with
  | some f => f type s
  | none => .throw_invalid "handle_interface not implemented"

/-- Call `static_cast<T*>(this)->handle_struct(type)`. -/
def signature_handler.call_struct {σ : Type} (h : signature_handler σ) (type : TypeDef) (s : σ) :
    Res σ :=
  match h.handle_struct with
  | some f => f type s
  | none => .throw_invalid "handle_struct not implemented"

/-- Call `static_cast<T*>(this)->handle_start_generic()`. -/
def signature_handler.call_start_generic {σ : Type} (h : signature_handler σ) (s : σ) : Res σ :=
  match h.handle_start_generic with
  | some f => f s
  | none => .throw_invalid "handle_start_generic not implemented"

/-- Call `static_cast<T*>(this)->handle_end_generic()`. -/
def signature_handler.call_end_generic {σ : Type} (h : signature_handler σ) (s : σ) : Res σ :=
  match h.handle_end_generic with
  | some f => f s
  | none => .throw_invalid "handle_end_generic not implemented"

/-- Call `static_cast<T*>(this)->handle(ElementType)`. -/
def signature_handler.call_ElementType {σ : Type} (h : signature_handler σ) (type : ElementType)
    (s : σ) : Res σ :=
  match h.handle_ElementType with
  | some f => f type s
  | none => .throw_invalid "handle(ElementType) not implemented"

/-- Call `static_cast<T*>(this)->handle(GenericTypeIndex)`. -/
def signature_handler.call_GenericTypeIndex {σ : Type} (h : signature_handler σ) (var : Nat)
    (s : σ) : Res σ :=
  match h.handle_GenericTypeIndex with
  | some f => f var s
  | none => .throw_invalid "handle(GenericTypeIndex) not implemented"

/-- Member `handle_enum` of the base. -/
def handle_enum {σ : Type} (h : signature_handler σ) (db : database) (type : TypeDef) (s : σ) :
    Res σ :=
  if is_flags_enum db type then h.call_ElementType .U4 s
  else h.call_ElementType .I4 s

/-- Member `handle(TypeDef const&)` of the base. -/
def handle_TypeDef {σ : Type} (h : signature_handler σ) (db : database) (type : TypeDef)
    (s : σ) : Res σ :=
  match db.get_category type with
  | .class_type => h.call_class type s
  | .delegate_type => h.call_delegate type s
  | .interface_type => h.call_interface type s
  | .enum_type => handle_enum h db type s
  | .struct_type => h.call_struct type s

/-- Member `handle(TypeRef const&)` of the base. -/
def handle_TypeRef {σ : Type} (h : signature_handler σ) (db : database) (type : TypeRef)
    (s : σ) : Res σ :=
  let ns := db.TypeRef_TypeNamespace type
  let name := db.TypeRef_TypeName type
  if name = "Guid" ∧ ns = "System" then h.call_guid type s
  else
    match db.find_required type with
    | some definition => handle_TypeDef h db definition s
    | none => .throw_invalid "type not found"

/-- Member `handle(coded_index<TypeDefOrRef> const&)` of the base, with the
handling of generic instantiations passed in. -/
def handle_coded_index_with {σ : Type} (h : signature_handler σ) (db : database)
    (handle_inst : GenericTypeInstSig → σ → Res σ) (type : TypeDefOrRef) (s : σ) : Res σ :=
  match type with
  | .TypeDef row => handle_TypeDef h db row s
  | .TypeRef row => handle_TypeRef h db row s
  | .TypeSpec row =>
    match db.TypeSpec_table[row]? with
    | some signature => handle_inst signature s
    | none => .assert_failed

/-- Member `handle(TypeSig const&)` of the base, with the handling of generic
instantiations passed in: the visit of the variant `signature.Type()`. -/
def handle_TypeSig_with {σ : Type} (h : signature_handler σ) (db : database)
    (handle_inst : GenericTypeInstSig → σ → Res σ) (signature : TypeSig) (s : σ) : Res σ :=
  match signature with
  | .ElementType _ type => h.call_ElementType type s
  | .TypeDefOrRef _ type => handle_coded_index_with h db handle_inst type s
  | .GenericTypeIndex _ var => h.call_GenericTypeIndex var s
  | .GenericTypeInstSig _ generic_type args =>
    handle_inst { GenericType := generic_type, GenericArgs := args } s

/-- Loop `for (auto&& arg : type.GenericArgs()) handle(arg)`. -/
def handle_GenericArgs {σ : Type} (handle_sig : TypeSig → σ → Res σ) :
    List TypeSig → σ → Res σ
  | [], s => .ok s
  | arg :: args, s => (handle_sig arg s).bind fun s1 => handle_GenericArgs handle_sig args s1

/-- Member `handle(GenericTypeInstSig const&)` of the base; the first
argument bounds the nesting of generic instantiations, and a run that needs
a deeper nesting is `diverge`. -/
def handle_GenericTypeInstSig {σ : Type} (h : signature_handler σ) (db : database) :
    Nat → GenericTypeInstSig → σ → Res σ
  | 0 => fun _ _ => .diverge
  | fuel + 1 => fun type s =>
    (handle_coded_index_with h db (handle_GenericTypeInstSig h db fuel) type.GenericType s).bind
      fun s1 => (h.call_start_generic s1).bind
        fun s2 =>
          (handle_GenericArgs (handle_TypeSig_with h db (handle_GenericTypeInstSig h db fuel))
            type.GenericArgs s2).bind
            fun s3 => h.call_end_generic s3

/-- Member `handle(coded_index<TypeDefOrRef> const&)` of the base. -/
def handle_coded_index {σ : Type} (h : signature_handler σ) (db : database) (fuel : Nat)
    (type : TypeDefOrRef) (s : σ) : Res σ :=
  handle_coded_index_with h db (handle_GenericTypeInstSig h db fuel) type s

/-- Member `handle(TypeSig const&)` of the base. -/
def handle_TypeSig {σ : Type} (h : signature_handler σ) (db : database) (fuel : Nat)
    (signature : TypeSig) (s : σ) : Res σ :=
  handle_TypeSig_with h db (handle_GenericTypeInstSig h db fuel) signature s

/-- A call that a handler receives. -/
inductive handler_event where
  | handle_class (type : TypeDef)
  | handle_delegate (type : TypeDef)
  | handle_guid (type : TypeRef)
  | handle_interface (type : TypeDef)
  | handle_struct (type : TypeDef)
  | handle_start_generic
  | handle_end_generic
  | handle_ElementType (type : ElementType)
  | handle_GenericTypeIndex (var : Nat)
  deriving DecidableEq, Repr

/-- The handler that supplies every capability and does nothing but record
the calls it receives, in order. -/
def recording_handler : signature_handler (List handler_event) where
  handle_class := some fun type s => .ok (s ++ [.handle_class type])
  handle_delegate := some fun type s => .ok (s ++ [.handle_delegate type])
  handle_guid := some fun type s => .ok (s ++ [.handle_guid type])
  handle_interface := some fun type s => .ok (s ++ [.handle_interface type])
  handle_struct := some fun type s => .ok (s ++ [.handle_struct type])
  handle_start_generic := some fun s => .ok (s ++ [.handle_start_generic])
  handle_end_generic := some fun s => .ok (s ++ [.handle_end_generic])
  handle_ElementType := some fun type s => .ok (s ++ [.handle_ElementType type])
  handle_GenericTypeIndex := some fun var s => .ok (s ++ [.handle_GenericTypeIndex var])

/-! ## Handler events of a signature -/

/-- The events that handling a generic instantiation produces, on the
recording handler started with an empty record, at some nesting bound. -/
def events_of_GenericTypeInstSig (db : database) (type : GenericTypeInstSig)
    (events : List handler_event) : Prop :=
  ∃ fuel, handle_GenericTypeInstSig recording_handler db fuel type [] = .ok events

/-- The events that handling a coded index produces. -/
def events_of_coded_index (db : database) (type : TypeDefOrRef) (events : List handler_event) :
    Prop :=
  ∃ fuel, handle_coded_index recording_handler db fuel type [] = .ok events

/-- The events that handling a type signature produces. -/
def events_of_TypeSig (db : database) (signature : TypeSig) (events : List handler_event) :
    Prop :=
  ∃ fuel, handle_TypeSig recording_handler db fuel signature [] = .ok events

/-- Running depth of the generic brackets: a start-generic event opens one
level, an end-generic event closes one and is refused when no level is open;
the result is the depth after the last event. -/
def generic_balance : List handler_event → Nat → Option Nat
  | [], depth => some depth
  | .handle_start_generic :: rest, depth => generic_balance rest (depth + 1)
  | .handle_end_generic :: rest, depth =>
    match depth with
    | 0 => none
    | d + 1 => generic_balance rest d
  | _ :: rest, depth => generic_balance rest depth

/-- Greatest running depth of the generic brackets that an event sequence
reaches when it starts at the given depth. -/
def generic_depth : List handler_event → Nat → Nat
  | [], depth => depth
  | .handle_start_generic :: rest, depth => max depth (generic_depth rest (depth + 1))
  | .handle_end_generic :: rest, depth => max depth (generic_depth rest (depth - 1))
  | _ :: rest, depth => generic_depth rest depth

/-- Nesting depth of the generic instantiations in a coded index: a type
specification has the depth of its instantiation, a definition or reference
has none. -/
def nesting_coded_index_with (db : database) (nesting_inst : GenericTypeInstSig → Option Nat) :
    TypeDefOrRef → Option Nat
  | .TypeSpec row =>
    match db.TypeSpec_table[row]? with
    | some signature => nesting_inst signature
    | none => none
  | _ => some 0

/-- Nesting depth of the generic instantiations in a type signature. -/
def nesting_TypeSig_with (db : database) (nesting_inst : GenericTypeInstSig → Option Nat) :
    TypeSig → Option Nat
  | .TypeDefOrRef _ type => nesting_coded_index_with db nesting_inst type
  | .GenericTypeInstSig _ generic_type args =>
    nesting_inst { GenericType := generic_type, GenericArgs := args }
  | _ => some 0

/-- Greatest nesting depth among the arguments of an instantiation. -/
def nesting_GenericArgs (nesting_sig : TypeSig → Option Nat) : List TypeSig → Option Nat
  | [] => some 0
  | arg :: args =>
    match nesting_sig arg, nesting_GenericArgs nesting_sig args with
    | some a, some b => some (max a b)
    | _, _ => none

/-- Nesting depth of a generic instantiation: one more than the deepest of
its arguments, or the depth of its generic type if that is greater; the
first argument bounds the nesting that is followed. -/
def nesting_GenericTypeInstSig (db : database) : Nat → GenericTypeInstSig → Option Nat
  | 0 => fun _ => none
  | fuel + 1 => fun type =>
    match nesting_coded_index_with db (nesting_GenericTypeInstSig db fuel) type.GenericType,
      nesting_GenericArgs (nesting_TypeSig_with db (nesting_GenericTypeInstSig db fuel))
        type.GenericArgs with
    | some g, some a => some (max g (a + 1))
    | _, _ => none

/-- Nesting depth of the generic instantiations in a type signature, at a
given bound. -/
def nesting_TypeSig (db : database) (fuel : Nat) (signature : TypeSig) : Option Nat :=
  nesting_TypeSig_with db (nesting_GenericTypeInstSig db fuel) signature

/-- Sample metadata for the handler: a plain enum (row 0), a flags enum (row
1) that differs from it in the attribute only, a class (row 2), an interface
(row 3), a struct (row 4) and a delegate (row 5); type reference 0 is
System.Guid, type reference 1 resolves to the interface and type reference 2
to the class; type specification 0 instantiates type reference 1 at Int32. -/
def handler_db : database where
  TypeDef_table := [
    { TypeName := "Color", category := .enum_type },
    { TypeName := "Color", category := .enum_type,
      CustomAttribute := [("System", "FlagsAttribute")] },
    { TypeName := "Widget", category := .class_type },
    { TypeName := "IVector", category := .interface_type },
    { TypeName := "Point", category := .struct_type },
    { TypeName := "Handler", category := .delegate_type }]
  TypeSpec_table := [{ GenericType := .TypeRef 1, GenericArgs := [.ElementType false .I4] }]
  find_required := fun row =>
    match row with
    | 1 => some 3
    | 2 => some 2
    | _ => none
  write_temp := fun _ _ => ""
  TypeRef_table := [
    { TypeNamespace := "System", TypeName := "Guid" },
    { TypeNamespace := "Windows.Foundation.Collections", TypeName := "IVector" },
    { TypeNamespace := "Sample", TypeName := "Widget" }]

/-- Sample instantiation IVector<IVector<Int32>, Guid>: the first argument
is type specification 0. -/
def sample_inst : GenericTypeInstSig :=
  { GenericType := .TypeRef 1,
    GenericArgs := [.TypeDefOrRef false (.TypeSpec 0), .TypeDefOrRef false (.TypeRef 0)] }

/-- A step of the recording handler that, whenever it returns, has appended
events to the record that do not depend on the record it started from. -/
def appends_events (f : List handler_event → Res (List handler_event)) : Prop :=
  ∀ s s2, f s = .ok s2 → ∃ events, s2 = s ++ events ∧ ∀ s0, f s0 = .ok (s0 ++ events)

/-- The generic brackets of an event sequence are balanced and properly
nested and reach the depth `k`: from any depth the sequence comes back to the
depth it started at, never closes a level it did not open, and rises `k`
levels above the start at most and at some point. -/
def nested_to (events : List handler_event) (k : Nat) : Prop :=
  (∀ depth, generic_balance events depth = some depth) ∧
  (∀ depth, generic_depth events depth = depth + k)

/-! ## Termination of the closure -/

/-- The interface-implementation graph reached from a type has no cycle: no
definition that the type reaches by zero or more edges reaches itself by one
or more. -/
def acyclic_from (db : database) (type : TypeDef) : Prop :=
  ∀ d, Relation.ReflTransGen (implements db) type d → ¬ Relation.TransGen (implements db) d d

/-- A definition from which a cycle of the interface-implementation graph is
reached. -/
def reaches_cycle (db : database) (d : TypeDef) : Prop :=
  ∃ d2, Relation.ReflTransGen (implements db) d d2 ∧ Relation.TransGen (implements db) d2 d2

/-- An occurrence whose definition reaches a cycle. -/
def cyclic_occurrence (db : database) (o : occurrence) : Prop :=
  ∃ d w1 g, interface_definition db o.1 o.2 = .ok (d, w1, g) ∧ reaches_cycle db d

/-- A map that holds no key of an occurrence, reached from the type, whose
definition reaches a cycle. -/
def cycle_free_keys (db : database) (w0 : writer) (type : TypeDef)
    (m : std_map interface_info) : Prop :=
  ∀ o, reachable db w0 type o → cyclic_occurrence db o →
    std_map.find m (canonical_name db o) = none

/-- Sample metadata with a cycle: the class Widget (row 0) implements ILeft
(row 1), which requires IRight (row 2), which requires ILeft. -/
def cycle_db : database where
  TypeDef_table := [
    { TypeName := "Widget", category := .class_type, InterfaceImpl := [.TypeDef 1] },
    { TypeName := "ILeft", category := .interface_type, InterfaceImpl := [.TypeDef 2] },
    { TypeName := "IRight", category := .interface_type, InterfaceImpl := [.TypeDef 1] }]
  TypeSpec_table := []
  find_required := fun _ => none
  write_temp := fun _ type =>
    match type with
    | .TypeDef 1 => "ILeft"
    | .TypeDef 2 => "IRight"
    | _ => "?"

/-! ## Iteration order of the closure -/

/-- The metadata `db2` declares the interface-implementation edges of `db`,
possibly in another order: every definition lists the same interface
references up to a permutation and has the same methods, and type
specifications, type references and rendering are the same. -/
def edges_permuted (db db2 : database) : Prop :=
  db2.TypeSpec_table = db.TypeSpec_table ∧ db2.find_required = db.find_required ∧
  db2.write_temp = db.write_temp ∧ (∀ d, db2.MethodList d = db.MethodList d) ∧
  ∀ d, (db2.InterfaceImpl d).Perm (db.InterfaceImpl d)

/-- The key-to-method-range mapping of a closure, in iteration order. -/
def method_ranges (closure : std_map interface_info) : std_map (List MethodDef) :=
  closure.map fun e => (e.1, e.2.methods)

/-- Sample metadata for the iteration order: the interface ITop (row 0)
declares IZeta (row 2) and then IAlpha (row 1), and IAlpha requires IZeta. -/
def order_db : database where
  TypeDef_table := [
    { TypeName := "ITop", category := .interface_type, MethodList := [{ Name := "Top" }],
      InterfaceImpl := [.TypeDef 2, .TypeDef 1] },
    { TypeName := "IAlpha", category := .interface_type, MethodList := [{ Name := "Alpha" }],
      InterfaceImpl := [.TypeDef 2] },
    { TypeName := "IZeta", category := .interface_type, MethodList := [{ Name := "Zeta" }] }]
  TypeSpec_table := []
  find_required := fun _ => none
  write_temp := fun _ type =>
    match type with
    | .TypeDef 1 => "IAlpha"
    | .TypeDef 2 => "IZeta"
    | _ => "?"

/-- The sample for the iteration order with the two edges of ITop declared
in the other order: IAlpha first, then IZeta. -/
def order_db_swapped : database where
  TypeDef_table := [
    { TypeName := "ITop", category := .interface_type, MethodList := [{ Name := "Top" }],
      InterfaceImpl := [.TypeDef 1, .TypeDef 2] },
    { TypeName := "IAlpha", category := .interface_type, MethodList := [{ Name := "Alpha" }],
      InterfaceImpl := [.TypeDef 2] },
    { TypeName := "IZeta", category := .interface_type, MethodList := [{ Name := "Zeta" }] }]
  TypeSpec_table := []
  find_required := fun _ => none
  write_temp := fun _ type =>
    match type with
    | .TypeDef 1 => "IAlpha"
    | .TypeDef 2 => "IZeta"
    | _ => "?"

/-- Sample metadata for the aggregation on an interface type: the interface
IShape (row 0) declares a constructor and the method Area and requires IBase
(row 1), whose method range holds a method with the marks of a constructor
and the method Name. -/
def shape_db : database where
  TypeDef_table := [
    { TypeName := "IShape", category := .interface_type,
      MethodList := [{ Name := ".ctor", Flags := { RTSpecialName := true, SpecialName := true } },
        { Name := "Area" }],
      InterfaceImpl := [.TypeDef 1] },
    { TypeName := "IBase", category := .interface_type,
      MethodList := [{ Name := ".ctor", Flags := { RTSpecialName := true, SpecialName := true } },
        { Name := "Name" }] }]
  TypeSpec_table := []
  find_required := fun _ => none
  write_temp := fun _ type =>
    match type with
    | .TypeDef 1 => "IBase"
    | _ => "?"

/-! ## Facts about std::map -/

theorem std_map.find_assign_self {V : Type} (m : std_map V) (k : String) (v : V) :
    std_map.find (std_map.assign m k v) k = some v := by
  induction m with
  | nil => simp [std_map.assign, std_map.find]
  | cons e rest ih =>
    obtain ⟨k2, v2⟩ := e
    simp only [std_map.assign]
    split_ifs with h1 h2
    · simp [std_map.find]
    · subst h2; simp [std_map.find]
    · simp [std_map.find, h2, ih]

theorem std_map.find_assign_ne {V : Type} (m : std_map V) (k k2 : String) (v : V) (h : k2 ≠ k) :
    std_map.find (std_map.assign m k v) k2 = std_map.find m k2 := by
  induction m with
  | nil => simp [std_map.assign, std_map.find, h]
  | cons e rest ih =>
    obtain ⟨k3, v3⟩ := e
    simp only [std_map.assign]
    split_ifs with h1 h2
    · simp [std_map.find, h]
    · subst h2; simp [std_map.find, h]
    · simp [std_map.find, ih]

theorem std_map.mem_keys_iff {V : Type} (m : std_map V) (k : String) :
    k ∈ std_map.keys m ↔ ∃ v, std_map.find m k = some v := by
  induction m with
  | nil => simp [std_map.keys, std_map.find]
  | cons e rest ih =>
    obtain ⟨k2, v2⟩ := e
    by_cases h : k = k2
    · subst h; simp [std_map.keys, std_map.find]
    · have ih2 : k ∈ List.map Prod.fst rest ↔ ∃ v, std_map.find rest k = some v := ih
      simp [std_map.keys, std_map.find, h, ih2]

theorem std_map.not_mem_keys_iff {V : Type} (m : std_map V) (k : String) :
    k ∉ std_map.keys m ↔ std_map.find m k = none := by
  rw [std_map.mem_keys_iff]
  cases std_map.find m k <;> simp

theorem std_map.mem_keys_assign {V : Type} (m : std_map V) (k k2 : String) (v : V) :
    k2 ∈ std_map.keys (std_map.assign m k v) ↔ k2 = k ∨ k2 ∈ std_map.keys m := by
  by_cases h : k2 = k
  · subst h
    simp [std_map.mem_keys_iff, std_map.find_assign_self]
  · simp [std_map.mem_keys_iff, std_map.find_assign_ne _ _ _ _ h, h]

theorem std_map.ordered_assign {V : Type} (m : std_map V) (k : String) (v : V)
    (h : std_map.ordered m) : std_map.ordered (std_map.assign m k v) := by
  induction m with
  | nil => simp [std_map.assign, std_map.ordered, std_map.keys]
  | cons e rest ih =>
    obtain ⟨k2, v2⟩ := e
    have hh : (∀ a ∈ std_map.keys rest, k2 < a) ∧ std_map.ordered rest := by
      simpa [std_map.ordered, std_map.keys] using h
    simp only [std_map.assign]
    split_ifs with h1 h2
    · have h1s : k < k2 := String.lt_iff_toList_lt.mpr h1
      have : ∀ a ∈ std_map.keys rest, k < a := fun a ha => lt_trans h1s (hh.1 a ha)
      simp only [std_map.ordered, std_map.keys, List.map_cons, List.pairwise_cons]
      refine ⟨?_, ?_, hh.2⟩
      · intro a ha
        rcases List.mem_cons.mp ha with rfl | ha
        · exact h1s
        · exact this a ha
      · exact hh.1
    · simpa [std_map.ordered, std_map.keys] using h
    · have h3 : k2 < k := by
        rcases lt_trichotomy k k2 with h4 | h4 | h4
        · exact absurd (String.lt_iff_toList_lt.mp h4) h1
        · exact absurd h4 h2
        · exact h4
      simp only [std_map.ordered, std_map.keys, List.map_cons, List.pairwise_cons]
      refine ⟨?_, ih hh.2⟩
      intro a ha
      rcases (std_map.mem_keys_assign rest k a v).mp ha with rfl | ha
      · exact h3
      · exact hh.1 a ha

theorem std_map.mem_iff_find {V : Type} (m : std_map V) (h : std_map.ordered m) (k : String) (v : V) :
    (k, v) ∈ m ↔ std_map.find m k = some v := by
  induction m with
  | nil => simp [std_map.find]
  | cons e rest ih =>
    obtain ⟨k2, v2⟩ := e
    have hh : (∀ a ∈ std_map.keys rest, k2 < a) ∧ std_map.ordered rest := by
      simpa [std_map.ordered, std_map.keys] using h
    by_cases hk : k = k2
    · subst hk
      have : ∀ x, (k, x) ∉ rest := by
        intro x hx
        have : k ∈ std_map.keys rest := List.mem_map.mpr ⟨(k, x), hx, rfl⟩
        exact lt_irrefl _ (hh.1 k this)
      simp [std_map.find, this]
      exact eq_comm
    · simp [std_map.find, hk, ih hh.2]

theorem std_map.filter_key {V : Type} (m : std_map V) (h : std_map.ordered m) (k : String) (v : V)
    (hf : std_map.find m k = some v) : m.filter (fun e => decide (e.1 = k)) = [(k, v)] := by
  induction m with
  | nil => simp [std_map.find] at hf
  | cons e rest ih =>
    obtain ⟨k2, v2⟩ := e
    have hh : (∀ a ∈ std_map.keys rest, k2 < a) ∧ std_map.ordered rest := by
      simpa [std_map.ordered, std_map.keys] using h
    by_cases hk : k = k2
    · subst hk
      have hv : v2 = v := by simpa [std_map.find] using hf
      subst hv
      have : rest.filter (fun e => decide (e.1 = k)) = [] := by
        rw [List.filter_eq_nil_iff]
        intro a ha
        have hak : a.1 ∈ std_map.keys rest := List.mem_map.mpr ⟨a, ha, rfl⟩
        have := hh.1 a.1 hak
        simp [ne_of_gt this]
      simp [List.filter_cons, this]
    · have hf2 : std_map.find rest k = some v := by simpa [std_map.find, hk] using hf
      have hk2 : ¬ k2 = k := fun h => hk h.symm
      simp [List.filter_cons, hk2, ih hh.2 hf2]

theorem std_map.included_refl {V : Type} (m : std_map V) : std_map.included m m :=
  fun _ _ h => h

theorem std_map.included_trans {V : Type} {a b c : std_map V}
    (h1 : std_map.included a b) (h2 : std_map.included b c) : std_map.included a c :=
  fun k v h => h2 k v (h1 k v h)

theorem std_map.included_assign {V : Type} (m : std_map V) (k : String) (v : V)
    (h : std_map.find m k = none) : std_map.included m (std_map.assign m k v) := by
  intro k2 v2 h2
  have : k2 ≠ k := by
    rintro rfl
    rw [h] at h2
    cases h2
  rw [std_map.find_assign_ne _ _ _ _ this]
  exact h2

/-! ## Facts about the switch -/

theorem interface_definition_release (db : database) (w w1 : writer) (impl : TypeDefOrRef)
    (d : TypeDef) (guard : generic_param_guard)
    (h : interface_definition db w impl = .ok (d, w1, guard)) : guard.release w1 = w := by
  unfold interface_definition at h
  split at h
  · cases h; rfl
  · split at h
    · cases h; rfl
    · cases h
  · split at h
    · cases h
    · split at h
      · split at h
        · cases h; rfl
        · cases h
      · cases h

theorem interface_definition_writer (db : database) (w w1 v : writer) (impl : TypeDefOrRef)
    (d : TypeDef) (guard : generic_param_guard)
    (h : interface_definition db w impl = .ok (d, w1, guard)) :
    ∃ v1 guard2, interface_definition db v impl = .ok (d, v1, guard2) := by
  unfold interface_definition at h ⊢
  split at h
  · cases h; exact ⟨_, _, rfl⟩
  · split at h
    · cases h
      rename_i h2
      simp [h2]
    · cases h
  · split at h
    · cases h
    · rename_i h2
      split at h
      · rename_i h3
        split at h
        · cases h
          rename_i h4
          simp only [h2, h3, h4]
          exact ⟨_, _, rfl⟩
        · cases h
      · cases h

theorem requires_interface_implements (db : database) (o o2 : occurrence) (d d2 : TypeDef)
    (w1 w2 : writer) (g1 g2 : generic_param_guard)
    (h : requires_interface db o o2)
    (h1 : interface_definition db o.1 o.2 = .ok (d, w1, g1))
    (h2 : interface_definition db o2.1 o2.2 = .ok (d2, w2, g2)) : implements db d d2 := by
  obtain ⟨d0, g0, h3, h4⟩ := h
  rw [h1] at h3
  cases h3
  exact ⟨o2.2, h4, o2.1, w2, g2, h2⟩

theorem requires_interface_resolves (db : database) (o o2 : occurrence)
    (h : requires_interface db o o2) : ∃ r, interface_definition db o.1 o.2 = .ok r := by
  obtain ⟨d0, g0, h3, _⟩ := h
  exact ⟨_, h3⟩

theorem requires_chain_implements (db : database) (o o2 : occurrence)
    (h : Relation.TransGen (requires_interface db) o o2) :
    ∀ (d d2 : TypeDef) (w1 w2 : writer) (g1 g2 : generic_param_guard),
      interface_definition db o.1 o.2 = .ok (d, w1, g1) →
      interface_definition db o2.1 o2.2 = .ok (d2, w2, g2) →
      Relation.TransGen (implements db) d d2 := by
  induction h with
  | single hab =>
    intro d d2 w1 w2 g1 g2 h1 h2
    exact Relation.TransGen.single (requires_interface_implements db _ _ d d2 w1 w2 g1 g2 hab h1 h2)
  | tail hab hbc ih =>
    intro d d2 w1 w2 g1 g2 h1 h2
    obtain ⟨⟨db2, wb, gb⟩, hb⟩ := requires_interface_resolves db _ _ hbc
    exact Relation.TransGen.tail (ih d db2 w1 wb g1 gb h1 hb)
      (requires_interface_implements db _ _ db2 d2 wb w2 gb g2 hbc hb h2)

theorem reachable_step (db : database) (w : writer) (type : TypeDef) (o o2 : occurrence)
    (h : reachable db w type o) (h2 : requires_interface db o o2) : reachable db w type o2 := by
  obtain ⟨impl, hi, hr⟩ := h
  exact ⟨impl, hi, Relation.ReflTransGen.tail hr h2⟩

theorem reachable_chain (db : database) (w : writer) (type : TypeDef) (o o2 : occurrence)
    (h : reachable db w type o) (h2 : Relation.ReflTransGen (requires_interface db) o o2) :
    reachable db w type o2 := by
  obtain ⟨impl, hi, hr⟩ := h
  exact ⟨impl, hi, Relation.ReflTransGen.trans hr h2⟩

theorem walk_reachable (db : database) (w : writer) (type : TypeDef) (via : List occurrence)
    (o : occurrence) (h : walk db w type via o) : reachable db w type o := by
  induction h with
  | direct impl hi => exact ⟨impl, hi, Relation.ReflTransGen.refl⟩
  | step via o o2 _ hr ih => exact reachable_step db w type o o2 ih hr

/-! ## Acyclic graphs are well founded -/

theorem implements_row (db : database) (d d2 : TypeDef) (h : implements db d d2) :
    d < db.TypeDef_table.length := by
  obtain ⟨impl, hi, _⟩ := h
  by_contra hlt
  have : db.TypeDef_table[d]? = none := List.getElem?_eq_none (not_lt.mp hlt)
  simp [database.InterfaceImpl, this] at hi

theorem acyclic_wellFounded (db : database) (h : acyclic db) :
    WellFounded (fun d2 d => implements db d d2) := by
  let r : Fin db.TypeDef_table.length → Fin db.TypeDef_table.length → Prop :=
    fun a b => Relation.TransGen (implements db) b.1 a.1
  haveI : IsTrans _ r := ⟨fun a b c hab hbc => Relation.TransGen.trans hbc hab⟩
  haveI : IsIrrefl _ r := ⟨fun a ha => h a.1 ha⟩
  have hwf : WellFounded r := Finite.wellFounded_of_trans_of_irrefl r
  have hacc : ∀ a : Fin db.TypeDef_table.length, Acc (fun d2 d => implements db d d2) a.1 := by
    intro a
    induction a using hwf.induction with
    | _ a ih =>
      refine Acc.intro _ (fun d2 hd2 => ?_)
      by_cases hlt : d2 < db.TypeDef_table.length
      · exact ih ⟨d2, hlt⟩ (Relation.TransGen.single hd2)
      · exact Acc.intro _ (fun d3 hd3 => absurd (implements_row db d2 d3 hd3) hlt)
  refine ⟨fun d => ?_⟩
  by_cases hlt : d < db.TypeDef_table.length
  · exact hacc ⟨d, hlt⟩
  · exact Acc.intro _ (fun d3 hd3 => absurd (implements_row db d d3 hd3) hlt)

/-! ## The closure: writer state, depth and recorded steps -/

theorem get_interfaces_loop_writer (db : database)
    (recurse : writer → std_map interface_info → List TypeDefOrRef →
      Res (writer × std_map interface_info))
    (hrec : ∀ w r l w2 r2, recurse w r l = .ok (w2, r2) → w2 = w) :
    ∀ l w r w2 r2, get_interfaces_loop db recurse w r l = .ok (w2, r2) → w2 = w := by
  intro l
  induction l with
  | nil =>
    intro w r w2 r2 h
    simp only [get_interfaces_loop] at h
    cases h; rfl
  | cons impl children ih =>
    intro w r w2 r2 h
    simp only [get_interfaces_loop] at h
    split at h
    · exact ih _ _ _ _ h
    · split at h
      · rename_i d w1 guard hdef
        split at h
        · rename_i w3 r3 hr
          have h3 := ih _ _ _ _ h
          have h4 := hrec _ _ _ _ _ hr
          subst h4
          rw [h3]
          exact interface_definition_release db w w3 impl d guard hdef
        all_goals cases h
      all_goals cases h

theorem get_interfaces_impl_writer (db : database) :
    ∀ fuel l w r w2 r2, get_interfaces_impl db fuel w r l = .ok (w2, r2) → w2 = w := by
  intro fuel
  induction fuel with
  | zero =>
    intro l w r w2 r2 h
    exact get_interfaces_loop_writer db _ (fun _ _ _ _ _ h => by cases h) l w r w2 r2 h
  | succ n ih =>
    intro l w r w2 r2 h
    exact get_interfaces_loop_writer db _ (fun w r l w2 r2 h => ih l w r w2 r2 h) l w r w2 r2 h

theorem get_interfaces_loop_mono (db : database)
    (rec1 rec2 : writer → std_map interface_info → List TypeDefOrRef →
      Res (writer × std_map interface_info))
    (hrec : ∀ w r l x, rec1 w r l = .ok x → rec2 w r l = .ok x) :
    ∀ l w r x, get_interfaces_loop db rec1 w r l = .ok x →
      get_interfaces_loop db rec2 w r l = .ok x := by
  intro l
  induction l with
  | nil =>
    intro w r x h
    simpa only [get_interfaces_loop] using h
  | cons impl children ih =>
    intro w r x h
    simp only [get_interfaces_loop] at h ⊢
    split at h
    · rename_i hf
      try simp only [hf]
      exact ih _ _ _ h
    · rename_i hf
      try simp only [hf]
      split at h
      · rename_i d w1 guard hdef
        try simp only [hdef]
        split at h
        · rename_i w3 r3 hr
          rw [hrec _ _ _ _ hr]
          exact ih _ _ _ h
        all_goals cases h
      all_goals cases h

theorem get_interfaces_impl_succ (db : database) :
    ∀ fuel l w r x, get_interfaces_impl db fuel w r l = .ok x →
      get_interfaces_impl db (fuel + 1) w r l = .ok x := by
  intro fuel
  induction fuel with
  | zero =>
    intro l w r x h
    exact get_interfaces_loop_mono db _ _ (fun _ _ _ _ h => by cases h) l w r x h
  | succ n ih =>
    intro l w r x h
    exact get_interfaces_loop_mono db _ _ (fun w r l x h => ih l w r x h) l w r x h

theorem get_interfaces_impl_mono (db : database) (fuel fuel2 : Nat) (hle : fuel ≤ fuel2)
    (l : List TypeDefOrRef) (w : writer) (r : std_map interface_info)
    (x : writer × std_map interface_info) (h : get_interfaces_impl db fuel w r l = .ok x) :
    get_interfaces_impl db fuel2 w r l = .ok x := by
  induction hle with
  | refl => exact h
  | step _ ih => exact get_interfaces_impl_succ db _ l w r x ih

/-- Dropping the recorded steps. -/
theorem get_interfaces_loop_steps_erase (db : database)
    (recurse : writer → std_map interface_info → List TypeDefOrRef →
      Res (writer × std_map interface_info))
    (recurse_steps : writer → std_map interface_info → List TypeDefOrRef →
      Res (writer × std_map interface_info × List closure_step))
    (hrec : ∀ w r l, (recurse_steps w r l).bind (fun x => .ok (x.1, x.2.1)) = recurse w r l) :
    ∀ l w r, (get_interfaces_loop_steps db recurse_steps w r l).bind (fun x => .ok (x.1, x.2.1))
      = get_interfaces_loop db recurse w r l := by
  intro l
  induction l with
  | nil =>
    intro w r
    simp [get_interfaces_loop, get_interfaces_loop_steps, Res.bind]
  | cons impl children ih =>
    intro w r
    simp only [get_interfaces_loop, get_interfaces_loop_steps]
    split
    · rw [← ih]
      cases get_interfaces_loop_steps db recurse_steps w r children <;> simp [Res.bind]
    · split
      · rename_i d w1 guard hdef
        rw [← hrec]
        cases hr : recurse_steps w1 r (db.InterfaceImpl d) with
        | ok x =>
          obtain ⟨w3, r3, tr⟩ := x
          simp only [Res.bind]
          rw [← ih]
          cases get_interfaces_loop_steps db recurse_steps (guard.release w3)
            (std_map.assign r3 (db.write_temp w impl)
              { type := impl, methods := db.MethodList d }) children <;> simp [Res.bind]
        | throw_invalid m => simp [Res.bind]
        | assert_failed => simp [Res.bind]
        | diverge => simp [Res.bind]
      all_goals simp [Res.bind]

theorem get_interfaces_impl_steps_erase (db : database) :
    ∀ fuel l w r, (get_interfaces_impl_steps db fuel w r l).bind (fun x => .ok (x.1, x.2.1))
      = get_interfaces_impl db fuel w r l := by
  intro fuel
  induction fuel with
  | zero =>
    intro l w r
    exact get_interfaces_loop_steps_erase db _ _ (fun _ _ _ => rfl) l w r
  | succ n ih =>
    intro l w r
    exact get_interfaces_loop_steps_erase db _ _ (fun w r l => ih l w r) l w r

theorem get_interfaces_impl_steps_of_ok (db : database) (fuel : Nat) (l : List TypeDefOrRef)
    (w w2 : writer) (r r2 : std_map interface_info)
    (h : get_interfaces_impl db fuel w r l = .ok (w2, r2)) :
    ∃ tr, get_interfaces_impl_steps db fuel w r l = .ok (w2, r2, tr) := by
  have h2 := get_interfaces_impl_steps_erase db fuel l w r
  rw [h] at h2
  cases h3 : get_interfaces_impl_steps db fuel w r l with
  | ok x =>
    obtain ⟨w3, r3, tr⟩ := x
    rw [h3] at h2
    simp only [Res.bind, Res.ok.injEq, Prod.mk.injEq] at h2
    obtain ⟨rfl, rfl⟩ := h2
    exact ⟨tr, rfl⟩
  | throw_invalid m => rw [h3] at h2; simp [Res.bind] at h2
  | assert_failed => rw [h3] at h2; simp [Res.bind] at h2
  | diverge => rw [h3] at h2; simp [Res.bind] at h2

theorem get_interfaces_impl_of_steps_ok (db : database) (fuel : Nat) (l : List TypeDefOrRef)
    (w w2 : writer) (r r2 : std_map interface_info) (tr : List closure_step)
    (h : get_interfaces_impl_steps db fuel w r l = .ok (w2, r2, tr)) :
    get_interfaces_impl db fuel w r l = .ok (w2, r2) := by
  rw [← get_interfaces_impl_steps_erase, h]
  rfl

/-! ## The closure returns on an acyclic graph -/

theorem get_interfaces_impl_returns_list (db : database) (w0 : writer) (type : TypeDef)
    (hres : resolvable db w0 type) :
    ∀ l : List TypeDefOrRef,
      (∀ c ∈ l, ∀ d w w1 g, interface_definition db w c = .ok (d, w1, g) →
        ∃ n, ∀ w r, (∀ c2 ∈ db.InterfaceImpl d, reachable db w0 type (w, c2)) →
          ∃ r2, get_interfaces_impl db n w r (db.InterfaceImpl d) = .ok (w, r2)) →
      ∃ n, ∀ w r, (∀ c ∈ l, reachable db w0 type (w, c)) →
        ∃ r2, get_interfaces_impl db n w r l = .ok (w, r2) := by
  intro l
  induction l with
  | nil =>
    intro _
    exact ⟨0, fun w r _ => ⟨r, by simp [get_interfaces_impl, get_interfaces_loop]⟩⟩
  | cons c rest ih =>
    intro hl
    obtain ⟨n1, hn1⟩ := ih (fun c2 hc2 => hl c2 (List.mem_cons_of_mem _ hc2))
    have hn2 : ∃ n2, ∀ d w w1 g, interface_definition db w c = .ok (d, w1, g) →
        ∀ w r, (∀ c2 ∈ db.InterfaceImpl d, reachable db w0 type (w, c2)) →
          ∃ r2, get_interfaces_impl db n2 w r (db.InterfaceImpl d) = .ok (w, r2) := by
      by_cases hex : ∃ d w w1 g, interface_definition db w c = .ok (d, w1, g)
      · obtain ⟨d0, v, v1, g0, h0⟩ := hex
        obtain ⟨n2, h2⟩ := hl c (List.mem_cons_self _ _) d0 v v1 g0 h0
        refine ⟨n2, fun d w w1 g hd => ?_⟩
        obtain ⟨v2, g2, h3⟩ := interface_definition_writer db w w1 v c d g hd
        rw [h0] at h3
        cases h3
        exact h2
      · exact ⟨0, fun d w w1 g hd => absurd ⟨d, w, w1, g, hd⟩ hex⟩
    obtain ⟨n2, hn2⟩ := hn2
    refine ⟨max n1 (n2 + 1), fun w r hreach => ?_⟩
    obtain ⟨m, hm, hm1, hm2⟩ : ∃ m, max n1 (n2 + 1) = m + 1 ∧ n1 ≤ m + 1 ∧ n2 ≤ m :=
      ⟨max n1 (n2 + 1) - 1, by omega, by omega, by omega⟩
    rw [hm]
    have hrest : ∀ r3, ∃ r2, get_interfaces_loop db (get_interfaces_impl db m) w r3 rest
        = .ok (w, r2) := by
      intro r3
      obtain ⟨r2, h2⟩ := hn1 w r3 (fun c2 hc2 => hreach c2 (List.mem_cons_of_mem _ hc2))
      exact ⟨r2, get_interfaces_impl_mono db n1 (m + 1) hm1 rest w r3 _ h2⟩
    simp only [get_interfaces_impl, get_interfaces_loop]
    split
    · exact hrest r
    · obtain ⟨⟨d, w1, g⟩, hd⟩ := hres (w, c) (hreach c (List.mem_cons_self _ _))
      simp only at hd
      simp only [hd]
      have hkids : ∀ c2 ∈ db.InterfaceImpl d, reachable db w0 type (w1, c2) := by
        intro c2 hc2
        exact reachable_step db w0 type (w, c) (w1, c2) (hreach c (List.mem_cons_self _ _))
          ⟨d, g, hd, hc2⟩
      obtain ⟨r2, h2⟩ := hn2 d w w1 g hd w1 r hkids
      rw [get_interfaces_impl_mono db n2 m hm2 _ w1 r _ h2]
      simp only [interface_definition_release db w w1 c d g hd]
      exact hrest _

theorem get_interfaces_impl_returns (db : database) (w0 : writer) (type : TypeDef)
    (hac : acyclic db) (hres : resolvable db w0 type) :
    ∀ d, ∃ n, ∀ w r, (∀ c ∈ db.InterfaceImpl d, reachable db w0 type (w, c)) →
      ∃ r2, get_interfaces_impl db n w r (db.InterfaceImpl d) = .ok (w, r2) := by
  intro d
  induction d using (acyclic_wellFounded db hac).induction with
  | _ d ih =>
    apply get_interfaces_impl_returns_list db w0 type hres
    intro c hc d2 w w1 g hdef
    exact ih d2 ⟨c, hc, w, w1, g, hdef⟩

theorem get_interfaces_returns (db : database) (w : writer) (type : TypeDef)
    (hac : acyclic db) (hres : resolvable db w type) :
    ∃ n r, ∀ n2, n ≤ n2 → get_interfaces db n2 w type = .ok (w, r) := by
  obtain ⟨n, hn⟩ := get_interfaces_impl_returns db w type hac hres type
  obtain ⟨r, hr⟩ := hn w [] (fun c hc => ⟨c, hc, Relation.ReflTransGen.refl⟩)
  exact ⟨n, r, fun n2 hle => get_interfaces_impl_mono db n n2 hle _ w [] _ hr⟩

/-! ## What the closure guarantees -/

theorem steps_linked_append (a b c : std_map interface_info) (xs ys : List closure_step)
    (h1 : steps_linked a xs b) (h2 : steps_linked b ys c) : steps_linked a (xs ++ ys) c := by
  induction xs generalizing a with
  | nil =>
    simp only [steps_linked] at h1
    subst h1
    simpa using h2
  | cons e es ih =>
    simp only [steps_linked] at h1
    simp only [List.cons_append, steps_linked]
    exact ⟨h1.1, ih _ h1.2⟩

theorem std_map.mem_keys_included {V : Type} (m m2 : std_map V) (k : String)
    (h : std_map.included m m2) (hk : k ∈ std_map.keys m) : k ∈ std_map.keys m2 := by
  rw [std_map.mem_keys_iff] at hk ⊢
  obtain ⟨v, hv⟩ := hk
  exact ⟨v, h k v hv⟩

theorem edge_closed_chain (db : database) (w0 : writer) (type : TypeDef)
    (m : std_map interface_info) (hm : edge_closed db w0 type m) (o o2 : occurrence)
    (ho : reachable db w0 type o) (h : Relation.ReflTransGen (requires_interface db) o o2)
    (hk : canonical_name db o ∈ std_map.keys m) : canonical_name db o2 ∈ std_map.keys m := by
  induction h with
  | refl => exact hk
  | tail hab hbc ih =>
    exact hm _ _ (reachable_chain db w0 type o _ ho hab) hbc ih

theorem get_interfaces_loop_steps_spec (db : database) (w0 : writer) (type : TypeDef)
    (hac : acyclic db) (hcan : canonical db w0 type)
    (recurse : writer → std_map interface_info → List TypeDefOrRef →
      Res (writer × std_map interface_info × List closure_step))
    (hrec : ∀ w r l w2 r2 tr, recurse w r l = .ok (w2, r2, tr) →
      closure_spec db w0 type w r l w2 r2 tr) :
    ∀ l w r w2 r2 tr, get_interfaces_loop_steps db recurse w r l = .ok (w2, r2, tr) →
      closure_spec db w0 type w r l w2 r2 tr := by
  intro l
  induction l with
  | nil =>
    intro w r w2 r2 tr h
    simp only [get_interfaces_loop_steps, Res.ok.injEq, Prod.mk.injEq] at h
    obtain ⟨rfl, rfl, rfl⟩ := h
    intro _ hclosed
    refine ⟨rfl, rfl, ?_, hclosed, ?_, ?_, std_map.included_refl _⟩
    · intro e he; cases he
    · intro c hc; cases hc
    · intro k info hk; exact Or.inl hk
  | cons c rest ih =>
    intro w r w2 r2 tr h hreach hclosed
    have hc : reachable db w0 type (w, c) := hreach c (List.mem_cons_self _ _)
    have hrestreach : ∀ c2 ∈ rest, reachable db w0 type (w, c2) :=
      fun c2 hc2 => hreach c2 (List.mem_cons_of_mem _ hc2)
    simp only [get_interfaces_loop_steps] at h
    split at h
    · -- the name is already a key: the edge is skipped
      rename_i v hfind
      split at h
      · rename_i w3 r3 later hlater
        simp only [Res.ok.injEq, Prod.mk.injEq] at h
        obtain ⟨rfl, rfl, rfl⟩ := h
        obtain ⟨hw, hlink, hsound, hcl, hkeys, hnew, hincl⟩ :=
          ih w r w3 r3 later hlater hrestreach hclosed
        have hkey : db.write_temp w c ∈ std_map.keys r :=
          (std_map.mem_keys_iff r _).mpr ⟨v, hfind⟩
        refine ⟨hw, ⟨rfl, hlink⟩, ?_, hcl, ?_, ?_, hincl⟩
        · intro e he
          rcases List.mem_cons.mp he with rfl | he
          · exact ⟨rfl, hc, hkey⟩
          · exact hsound e he
        · intro c2 hc2
          rcases List.mem_cons.mp hc2 with rfl | hc2
          · exact std_map.mem_keys_included r r3 _ hincl hkey
          · exact hkeys c2 hc2
        · intro k info hk
          rcases hnew k info hk with h1 | ⟨c2, hc2, rest2⟩
          · exact Or.inl h1
          · exact Or.inr ⟨c2, List.mem_cons_of_mem _ hc2, rest2⟩
      all_goals cases h
    · -- the name is new: descend, then store
      rename_i hfind
      split at h
      · rename_i d w1 g hdef
        split at h
        · rename_i w2n r2n nested hnested
          split at h
          · rename_i w3 r3 later hlater
            simp only [Res.ok.injEq, Prod.mk.injEq] at h
            obtain ⟨rfl, rfl, rfl⟩ := h
            have hkidsreach : ∀ c2 ∈ db.InterfaceImpl d, reachable db w0 type (w1, c2) :=
              fun c2 hc2 => reachable_step db w0 type (w, c) (w1, c2) hc ⟨d, g, hdef, hc2⟩
            obtain ⟨hw1, hlink1, hsound1, hcl1, hkeys1, hnew1, hincl1⟩ :=
              hrec _ _ _ _ _ _ hnested hkidsreach hclosed
            subst hw1
            -- the name is still not a key after the descent
            have hfresh : std_map.find r2n (db.write_temp w c) = none := by
              cases hf : std_map.find r2n (db.write_temp w c) with
              | none => rfl
              | some info =>
                exfalso
                rcases hnew1 _ info hf with h1 | ⟨c2, hc2, o, d2, v1, g2, hchain, hname, _, hdef2, _⟩
                · rw [hfind] at h1; cases h1
                · have hplus : Relation.TransGen (requires_interface db) (w, c) o :=
                    Relation.TransGen.head' (b := (w2n, c2)) ⟨d, g, hdef, hc2⟩ hchain
                  have ho : reachable db w0 type o :=
                    reachable_chain db w0 type (w, c) o hc hplus.to_reflTransGen
                  have hd := (hcan (w, c) o hc ho hname d w2n g d2 v1 g2 hdef hdef2).1
                  subst hd
                  exact hac d (requires_chain_implements db (w, c) o hplus d d w2n v1 g g2
                    hdef hdef2)
            -- everything the interface requires is already a key
            have hdesc : ∀ o, Relation.TransGen (requires_interface db) (w, c) o →
                canonical_name db o ∈ std_map.keys r2n := by
              intro o ho
              obtain ⟨o1, h1, h2⟩ := Relation.TransGen.head'_iff.mp ho
              obtain ⟨d1, g1, hdef1, hmem1⟩ := h1
              rw [hdef] at hdef1
              simp only [Res.ok.injEq, Prod.mk.injEq] at hdef1
              obtain ⟨rfl, hw1, rfl⟩ := hdef1
              have hk1 : canonical_name db o1 ∈ std_map.keys r2n := by
                have := hkeys1 o1.2 hmem1
                rw [hw1] at this
                exact this
              have ho1 : reachable db w0 type o1 := by
                have := hkidsreach o1.2 hmem1
                rw [hw1] at this
                exact this
              exact edge_closed_chain db w0 type r2n hcl1 o1 o ho1 h2 hk1
            -- the key set stays closed under the edges
            have hcl2 : edge_closed db w0 type (std_map.assign r2n (db.write_temp w c)
                { type := c, methods := db.MethodList d }) := by
              intro o o2 ho hreq hk
              rw [std_map.mem_keys_assign] at hk ⊢
              rcases hk with hk | hk
              · right
                obtain ⟨d2, g2, hdef2, hmem2⟩ := hreq
                obtain ⟨hd, hnames⟩ := hcan o (w, c) ho hc hk d2 o2.1 g2 d w2n g hdef2 hdef
                subst hd
                have := hkeys1 o2.2 hmem2
                rw [← hnames o2.2 hmem2] at this
                exact this
              · exact Or.inr (hcl1 o o2 ho hreq hk)
            have hrel : g.release w2n = w := interface_definition_release db w w2n c d g hdef
            rw [hrel] at hlater
            obtain ⟨hw, hlink, hsound, hcl, hkeys, hnew, hincl⟩ :=
              ih w _ w3 r3 later hlater hrestreach hcl2
            have hincl2 : std_map.included r2n (std_map.assign r2n (db.write_temp w c)
                { type := c, methods := db.MethodList d }) :=
              std_map.included_assign _ _ _ hfresh
            refine ⟨hw, ?_, ?_, hcl, ?_, ?_, ?_⟩
            · exact steps_linked_append r r2n r3 nested _ hlink1 ⟨rfl, hlink⟩
            · intro e he
              rcases List.mem_append.mp he with he | he
              · exact hsound1 e he
              · rcases List.mem_cons.mp he with rfl | he
                · exact ⟨rfl, hc, hfresh, ⟨d, w2n, g, hdef, rfl⟩, hcl1, hdesc, hcl2⟩
                · exact hsound e he
            · intro c2 hc2
              rcases List.mem_cons.mp hc2 with rfl | hc2
              · apply std_map.mem_keys_included _ r3 _ hincl
                rw [std_map.mem_keys_assign]
                exact Or.inl rfl
              · exact hkeys c2 hc2
            · intro k info hk
              rcases hnew k info hk with h1 | ⟨c2, hc2, rest2⟩
              · by_cases hkn : k = db.write_temp w c
                · subst hkn
                  rw [std_map.find_assign_self] at h1
                  cases h1
                  exact Or.inr ⟨c, List.mem_cons_self _ _, (w, c), d, w2n, g,
                    Relation.ReflTransGen.refl, rfl, rfl, hdef, rfl⟩
                · rw [std_map.find_assign_ne _ _ _ _ hkn] at h1
                  rcases hnew1 k info h1 with h2 | ⟨c2, hc2, o, d2, v1, g2, hchain, rest2⟩
                  · exact Or.inl h2
                  · exact Or.inr ⟨c, List.mem_cons_self _ _, o, d2, v1, g2,
                      Relation.ReflTransGen.head (b := (w2n, c2)) ⟨d, g, hdef, hc2⟩ hchain, rest2⟩
              · exact Or.inr ⟨c2, List.mem_cons_of_mem _ hc2, rest2⟩
            · exact std_map.included_trans hincl1 (std_map.included_trans hincl2 hincl)
          all_goals cases h
        all_goals cases h
      all_goals cases h

theorem get_interfaces_impl_steps_spec (db : database) (w0 : writer) (type : TypeDef)
    (hac : acyclic db) (hcan : canonical db w0 type) :
    ∀ fuel l w r w2 r2 tr, get_interfaces_impl_steps db fuel w r l = .ok (w2, r2, tr) →
      closure_spec db w0 type w r l w2 r2 tr := by
  intro fuel
  induction fuel with
  | zero =>
    intro l w r w2 r2 tr h
    exact get_interfaces_loop_steps_spec db w0 type hac hcan _
      (fun _ _ _ _ _ _ h => by cases h) l w r w2 r2 tr h
  | succ n ih =>
    intro l w r w2 r2 tr h
    exact get_interfaces_loop_steps_spec db w0 type hac hcan _
      (fun w r l w2 r2 tr h => ih l w r w2 r2 tr h) l w r w2 r2 tr h

theorem closure_step.included_of_sound (db : database) (w0 : writer) (type : TypeDef)
    (e : closure_step) (h : step_sound db w0 type e) : std_map.included e.before e.after := by
  cases e with
  | skipped w impl name result => exact std_map.included_refl _
  | stored w name info result => exact std_map.included_assign _ _ _ h.2.2.1

theorem steps_linked_ordered (r m : std_map interface_info) (tr : List closure_step)
    (hl : steps_linked r tr m) (hr : std_map.ordered r) : std_map.ordered m := by
  induction tr generalizing r with
  | nil =>
    simp only [steps_linked] at hl
    subst hl
    exact hr
  | cons e es ih =>
    simp only [steps_linked] at hl
    obtain ⟨hb, hrest⟩ := hl
    apply ih _ hrest
    cases e with
    | skipped w impl name result =>
      simp only [closure_step.before] at hb
      subst hb
      exact hr
    | stored w name info result =>
      simp only [closure_step.before] at hb
      subst hb
      exact std_map.ordered_assign _ _ _ hr

theorem steps_linked_included (r m : std_map interface_info) (tr : List closure_step)
    (hl : steps_linked r tr m) (hs : ∀ e ∈ tr, std_map.included e.before e.after) :
    std_map.included r m ∧
    ∀ pre e post, tr = pre ++ e :: post →
      std_map.included r e.before ∧
      (∀ e2 ∈ post, std_map.included e.after e2.before ∧ std_map.included e.after e2.after) ∧
      std_map.included e.after m := by
  induction tr generalizing r with
  | nil =>
    simp only [steps_linked] at hl
    subst hl
    refine ⟨std_map.included_refl _, fun pre e post h => ?_⟩
    cases pre <;> cases h
  | cons e0 es ih =>
    simp only [steps_linked] at hl
    obtain ⟨hb, hrest⟩ := hl
    subst hb
    have h0 : std_map.included e0.before e0.after := hs e0 (List.mem_cons_self _ _)
    obtain ⟨hm, hsplit⟩ := ih e0.after hrest (fun e he => hs e (List.mem_cons_of_mem _ he))
    refine ⟨std_map.included_trans h0 hm, fun pre e post h => ?_⟩
    cases pre with
    | nil =>
      simp only [List.nil_append, List.cons.injEq] at h
      obtain ⟨rfl, rfl⟩ := h
      refine ⟨std_map.included_refl _, fun e2 he2 => ?_, hm⟩
      obtain ⟨pre2, post2, hsp⟩ := List.append_of_mem he2
      have h1 := (hsplit pre2 e2 post2 hsp).1
      exact ⟨h1, std_map.included_trans h1 (hs e2 (List.mem_cons_of_mem _ he2))⟩
    | cons p pre2 =>
      simp only [List.cons_append, List.cons.injEq] at h
      obtain ⟨rfl, rfl⟩ := h
      obtain ⟨h1, h2, h3⟩ := hsplit pre2 e post rfl
      exact ⟨std_map.included_trans h0 h1, h2, h3⟩

theorem get_interfaces_steps_sound (db : database) (w : writer) (type : TypeDef)
    (hac : acyclic db) (hcan : canonical db w type) (fuel : Nat) (w2 : writer)
    (m : std_map interface_info) (tr : List closure_step)
    (h : get_interfaces_steps db fuel w type = .ok (w2, m, tr)) :
    w2 = w ∧ steps_linked [] tr m ∧ (∀ e ∈ tr, step_sound db w type e) ∧ std_map.ordered m ∧
    (∀ k, k ∈ std_map.keys m ↔ ∃ o, reachable db w type o ∧ canonical_name db o = k) ∧
    (∀ k info, std_map.find m k = some info → ∃ o d w1 g, reachable db w type o ∧
      k = canonical_name db o ∧ info.type = o.2 ∧
      interface_definition db o.1 o.2 = .ok (d, w1, g) ∧ info.methods = db.MethodList d) := by
  have hroot : ∀ c ∈ db.InterfaceImpl type, reachable db w type (w, c) :=
    fun c hc => ⟨c, hc, Relation.ReflTransGen.refl⟩
  have hempty : edge_closed db w type [] := by
    intro o o2 _ _ hk
    simp [std_map.keys] at hk
  obtain ⟨hw, hlink, hsound, hcl, hkeys, hnew, _⟩ :=
    get_interfaces_impl_steps_spec db w type hac hcan fuel _ w [] w2 m tr h hroot hempty
  have hfind : ∀ k info, std_map.find m k = some info → ∃ o d w1 g, reachable db w type o ∧
      k = canonical_name db o ∧ info.type = o.2 ∧
      interface_definition db o.1 o.2 = .ok (d, w1, g) ∧ info.methods = db.MethodList d := by
    intro k info hk
    rcases hnew k info hk with h1 | ⟨c, hc, o, d, w1, g, hchain, hname, htype, hdef, hmeth⟩
    · simp [std_map.find] at h1
    · exact ⟨o, d, w1, g, ⟨c, hc, hchain⟩, hname, htype, hdef, hmeth⟩
  refine ⟨hw, hlink, hsound, ?_, ?_, hfind⟩
  · exact steps_linked_ordered [] m tr hlink (by simp [std_map.ordered, std_map.keys])
  · intro k
    constructor
    · intro hk
      obtain ⟨info, hinfo⟩ := (std_map.mem_keys_iff m k).mp hk
      obtain ⟨o, _, _, _, ho, hname, _⟩ := hfind k info hinfo
      exact ⟨o, ho, hname.symm⟩
    · rintro ⟨o, ⟨c, hc, hchain⟩, rfl⟩
      exact edge_closed_chain db w type m hcl (w, c) o (hroot c hc) hchain (hkeys c hc)

theorem get_interfaces_steps_returns (db : database) (w : writer) (type : TypeDef)
    (hac : acyclic db) (hres : resolvable db w type) :
    ∃ fuel m tr, get_interfaces_steps db fuel w type = .ok (w, m, tr) ∧
      ∀ n, fuel ≤ n → get_interfaces db n w type = .ok (w, m) := by
  obtain ⟨n, m, hn⟩ := get_interfaces_returns db w type hac hres
  obtain ⟨tr, htr⟩ := get_interfaces_impl_steps_of_ok db n _ w w [] m (hn n le_rfl)
  exact ⟨n, m, tr, htr, hn⟩

/-! ## The sample satisfies the assumptions -/

theorem acyclic_of_rank (db : database) (rank : TypeDef → Nat)
    (h : ∀ d d2, implements db d d2 → rank d2 < rank d) : acyclic db := by
  have hplus : ∀ d d2, Relation.TransGen (implements db) d d2 → rank d2 < rank d := by
    intro d d2 hd
    induction hd with
    | single hab => exact h _ _ hab
    | tail _ hbc ih => exact lt_trans (h _ _ hbc) ih
  exact fun d hd => lt_irrefl _ (hplus d d hd)

theorem sample_InterfaceImpl (type : TypeDef) (impl : TypeDefOrRef)
    (h : impl ∈ sample_db.InterfaceImpl type) :
    (type = 0 ∧ (impl = .TypeDef 1 ∨ impl = .TypeRef 0 ∨ impl = .TypeSpec 0)) ∨
    (type = 1 ∧ impl = .TypeDef 3) ∨ (type = 2 ∧ impl = .TypeRef 1) ∨
    (type = 4 ∧ (impl = .TypeRef 0 ∨ impl = .TypeDef 1)) ∨ (type = 5 ∧ impl = .TypeSpec 1) := by
  rcases type with _ | _ | _ | _ | _ | _ | _ | n <;>
    simp [database.InterfaceImpl, sample_db] at h ⊢ <;> exact h

theorem sample_acyclic : acyclic sample_db := by
  apply acyclic_of_rank sample_db sample_rank
  rintro d d2 ⟨impl, hi, w, w1, g, hdef⟩
  rcases sample_InterfaceImpl d impl hi with
    ⟨rfl, rfl | rfl | rfl⟩ | ⟨rfl, rfl⟩ | ⟨rfl, rfl⟩ | ⟨rfl, rfl | rfl⟩ | ⟨rfl, rfl⟩ <;>
  · simp [interface_definition, sample_db] at hdef
    obtain ⟨rfl, _⟩ := hdef
    decide

theorem sample_reachable (type : TypeDef) (o : occurrence)
    (h : reachable sample_db {} type o) : o ∈ sample_occurrences := by
  obtain ⟨impl, hi, hchain⟩ := h
  induction hchain with
  | refl =>
    rcases sample_InterfaceImpl type impl hi with
      ⟨rfl, rfl | rfl | rfl⟩ | ⟨rfl, rfl⟩ | ⟨rfl, rfl⟩ | ⟨rfl, rfl | rfl⟩ | ⟨rfl, rfl⟩ <;>
    simp [sample_occurrences]
  | @tail b c _ hbc ih =>
    obtain ⟨cw, cc⟩ := c
    obtain ⟨d, g, hdef, hmem⟩ := hbc
    simp only [sample_occurrences, List.mem_cons, List.mem_singleton, List.not_mem_nil,
      or_false] at ih
    rcases ih with rfl | rfl | rfl | rfl | rfl | rfl | rfl <;>
    · simp [interface_definition, sample_db, writer.push_generic_params] at hdef
      obtain ⟨rfl, rfl, _⟩ := hdef
      rcases sample_InterfaceImpl _ cc hmem with
        ⟨h0, _⟩ | ⟨h0, rfl⟩ | ⟨h0, rfl⟩ | ⟨h0, _⟩ | ⟨h0, rfl⟩ <;>
      first
        | (exfalso; revert h0; decide)
        | simp [sample_occurrences, sample_inner]

theorem sample_resolvable (type : TypeDef) : resolvable sample_db {} type := by
  intro o ho
  have hmem := sample_reachable type o ho
  simp only [sample_occurrences, List.mem_cons, List.mem_singleton, List.not_mem_nil,
    or_false] at hmem
  rcases hmem with rfl | rfl | rfl | rfl | rfl | rfl | rfl <;>
    simp [interface_definition, sample_db]

theorem sample_canonical (type : TypeDef) : canonical sample_db {} type := by
  intro o1 o2 h1 h2 hname d1 w1 g1 d2 w2 g2 hd1 hd2
  have hm1 := sample_reachable type o1 h1
  have hm2 := sample_reachable type o2 h2
  simp only [sample_occurrences, List.mem_cons, List.mem_singleton, List.not_mem_nil,
    or_false] at hm1 hm2
  rcases hm1 with rfl | rfl | rfl | rfl | rfl | rfl | rfl <;>
  rcases hm2 with rfl | rfl | rfl | rfl | rfl | rfl | rfl <;>
  first
    | (exfalso; revert hname; simp [canonical_name, sample_db, sample_inner]; done)
    | (simp [interface_definition, sample_db, writer.push_generic_params] at hd1 hd2
       obtain ⟨rfl, rfl, _⟩ := hd1
       obtain ⟨rfl, rfl, _⟩ := hd2
       refine ⟨rfl, fun impl hi => ?_⟩
       rcases sample_InterfaceImpl _ impl hi with
         ⟨h0, _⟩ | ⟨h0, rfl⟩ | ⟨h0, rfl⟩ | ⟨h0, _⟩ | ⟨h0, rfl⟩ <;>
       first
         | (exfalso; revert h0; decide)
         | rfl)

/-! ## The interface closure: claims -/

/-- C1 (diamond deduplication). Over an acyclic interface-implementation
graph whose references resolve and whose canonical names identify one
interface, let an interface A be reached from the type along two distinct
walks, which both end in an occurrence with the canonical name of A. Then
`get_interfaces` returns, and the map it returns has exactly one entry under
the canonical name of A, whose method range is the method list of the
definition of A, the definition both walks end in. -/
theorem get_interfaces_diamond_once (db : database) (w : writer) (type : TypeDef)
    (hac : acyclic db) (hres : resolvable db w type) (hcan : canonical db w type)
    (via1 via2 : List occurrence) (a1 a2 : occurrence)
    (h1 : walk db w type via1 a1) (h2 : walk db w type via2 a2) (_ : via1 ≠ via2)
    (hname : canonical_name db a1 = canonical_name db a2)
    (dA : TypeDef) (w1 : writer) (g : generic_param_guard)
    (hdef : interface_definition db a1.1 a1.2 = .ok (dA, w1, g)) :
    ∃ fuel m info, (∀ n, fuel ≤ n → get_interfaces db n w type = .ok (w, m)) ∧
      m.filter (fun e => decide (e.1 = canonical_name db a1)) = [(canonical_name db a1, info)] ∧
      m.filter (fun e => decide (e.1 = canonical_name db a2)) = [(canonical_name db a2, info)] ∧
      info.methods = db.MethodList dA ∧
      ∃ v2 g2, interface_definition db a2.1 a2.2 = .ok (dA, v2, g2) := by
  obtain ⟨fuel, m, tr, hsteps, hrun⟩ := get_interfaces_steps_returns db w type hac hres
  obtain ⟨_, _, _, hord, hkeys, hfind⟩ :=
    get_interfaces_steps_sound db w type hac hcan fuel w m tr hsteps
  have ha1 : reachable db w type a1 := walk_reachable db w type via1 a1 h1
  have hk : canonical_name db a1 ∈ std_map.keys m := (hkeys _).mpr ⟨a1, ha1, rfl⟩
  obtain ⟨info, hinfo⟩ := (std_map.mem_keys_iff m _).mp hk
  obtain ⟨o, d, v1, g2, ho, hn, _, hd, hmeth⟩ := hfind _ info hinfo
  have hd2 := (hcan a1 o ha1 ho hn dA w1 g d v1 g2 hdef hd).1
  subst hd2
  have ha2 : reachable db w type a2 := walk_reachable db w type via2 a2 h2
  obtain ⟨⟨d2, v2, g3⟩, hdef2⟩ := hres a2 ha2
  have hd3 := (hcan a1 a2 ha1 ha2 hname dA w1 g d2 v2 g3 hdef hdef2).1
  subst hd3
  refine ⟨fuel, m, info, hrun, std_map.filter_key m hord _ info hinfo, ?_, hmeth, v2, g3, hdef2⟩
  rw [← hname]
  exact std_map.filter_key m hord _ info hinfo

/-- C2 (closure soundness and completeness). Over an acyclic
interface-implementation graph whose references resolve and in which a
canonical name identifies one interface, `get_interfaces` returns a map whose
key set is exactly the set of canonical names of the interfaces reached from
the type by one or more edges, every entry of which carries the method list
of the definition its interface reference resolves to; a type without edges
gets the empty map. -/
theorem get_interfaces_closure_exact (db : database) (w : writer) (type : TypeDef)
    (hac : acyclic db) (hres : resolvable db w type) (hcan : canonical db w type) :
    ∃ fuel m, (∀ n, fuel ≤ n → get_interfaces db n w type = .ok (w, m)) ∧
      (∀ k, k ∈ std_map.keys m ↔ ∃ o, reachable db w type o ∧ canonical_name db o = k) ∧
      (∀ k info, (k, info) ∈ m →
        ∃ d, (∀ v, ∃ v1 g, interface_definition db v info.type = .ok (d, v1, g)) ∧
          info.methods = db.MethodList d) ∧
      (db.InterfaceImpl type = [] → m = []) := by
  obtain ⟨fuel, m, tr, hsteps, hrun⟩ := get_interfaces_steps_returns db w type hac hres
  obtain ⟨_, _, _, hord, hkeys, hfind⟩ :=
    get_interfaces_steps_sound db w type hac hcan fuel w m tr hsteps
  refine ⟨fuel, m, hrun, hkeys, ?_, ?_⟩
  · intro k info hmem
    obtain ⟨o, d, v1, g, _, _, htype, hd, hmeth⟩ :=
      hfind k info ((std_map.mem_iff_find m hord k info).mp hmem)
    refine ⟨d, fun v => ?_, hmeth⟩
    rw [htype]
    exact interface_definition_writer db o.1 v1 v o.2 d g hd
  · intro hnil
    have h := hrun fuel le_rfl
    rw [get_interfaces, hnil] at h
    cases fuel <;>
      simp only [get_interfaces_impl, get_interfaces_loop, Res.ok.injEq, Prod.mk.injEq] at h <;>
      exact h.2.symm

/-- C3 (first insertion wins). Over an acyclic interface-implementation graph
whose references resolve and whose canonical names identify one interface,
the closure returns, and in every returned run the recorded steps chain from
the empty map to the result; a store finds its key absent, and every entry
that is in the map after a step is, under the same key and with the same
value, in the map before and after every later step and in the result.
Besides, in any call, an edge whose name is already a key is skipped: the
call continues with the remaining edges on the same map, whether or not the
edge would resolve and whatever depth is left. -/
theorem get_interfaces_first_insertion_wins (db : database) (w : writer) (type : TypeDef)
    (hac : acyclic db) (hres : resolvable db w type) (hcan : canonical db w type) :
    (∃ fuel m tr, get_interfaces_steps db fuel w type = .ok (w, m, tr) ∧
      ∀ n, fuel ≤ n → get_interfaces db n w type = .ok (w, m)) ∧
    (∀ fuel w2 m tr, get_interfaces_steps db fuel w type = .ok (w2, m, tr) →
      get_interfaces db fuel w type = .ok (w2, m) ∧ steps_linked [] tr m ∧
      ∀ pre e post, tr = pre ++ e :: post →
        (∀ ws name info result, e = .stored ws name info result →
          std_map.find result name = none ∧ std_map.find e.after name = some info) ∧
        (∀ ws impl name result, e = .skipped ws impl name result →
          name = db.write_temp ws impl ∧ name ∈ std_map.keys result ∧ e.after = result) ∧
        std_map.included e.before e.after ∧
        (∀ e2 ∈ post, std_map.included e.after e2.before ∧ std_map.included e.after e2.after) ∧
        std_map.included e.after m) ∧
    (∀ n v r impl children, db.write_temp v impl ∈ std_map.keys r →
      get_interfaces_impl db n v r (impl :: children) = get_interfaces_impl db n v r children) := by
  refine ⟨get_interfaces_steps_returns db w type hac hres, ?_, ?_⟩
  · intro fuel w2 m tr hsteps
    obtain ⟨_, hlink, hsound, _, _, _⟩ :=
      get_interfaces_steps_sound db w type hac hcan fuel w2 m tr hsteps
    refine ⟨get_interfaces_impl_of_steps_ok db fuel _ w w2 [] m tr hsteps, hlink, ?_⟩
    intro pre e post hsplit
    have he : e ∈ tr := by rw [hsplit]; simp
    have hinc := (steps_linked_included [] m tr hlink
      (fun e he => closure_step.included_of_sound db w type e (hsound e he))).2 pre e post hsplit
    refine ⟨?_, ?_, closure_step.included_of_sound db w type e (hsound e he), hinc.2.1, hinc.2.2⟩
    · rintro ws name info result rfl
      exact ⟨(hsound _ he).2.2.1, std_map.find_assign_self _ _ _⟩
    · rintro ws impl name result rfl
      exact ⟨(hsound _ he).1, (hsound _ he).2.2, rfl⟩
  · intro n v r impl children hk
    obtain ⟨info, hinfo⟩ := (std_map.mem_keys_iff r _).mp hk
    cases n <;> simp only [get_interfaces_impl, get_interfaces_loop, hinfo]

/-- C4 (ancestors are registered first). Over an acyclic
interface-implementation graph whose references resolve and whose canonical
names identify one interface, the closure returns, and in every returned run,
at each store of an entry, the map the entry is stored into already has as
keys the names of all interfaces that the stored interface implements
directly or transitively, and the key set of the map after the store is
closed under the interface-implementation edges. -/
theorem get_interfaces_ancestors_first (db : database) (w : writer) (type : TypeDef)
    (hac : acyclic db) (hres : resolvable db w type) (hcan : canonical db w type) :
    (∃ fuel m tr, get_interfaces_steps db fuel w type = .ok (w, m, tr) ∧
      ∀ n, fuel ≤ n → get_interfaces db n w type = .ok (w, m)) ∧
    (∀ fuel w2 m tr, get_interfaces_steps db fuel w type = .ok (w2, m, tr) →
      get_interfaces db fuel w type = .ok (w2, m) ∧ steps_linked [] tr m ∧
      ∀ ws name info result, closure_step.stored ws name info result ∈ tr →
        name = db.write_temp ws info.type ∧ reachable db w type (ws, info.type) ∧
        (∀ o, Relation.TransGen (requires_interface db) (ws, info.type) o →
          canonical_name db o ∈ std_map.keys result) ∧
        edge_closed db w type (std_map.assign result name info)) := by
  refine ⟨get_interfaces_steps_returns db w type hac hres, ?_⟩
  intro fuel w2 m tr hsteps
  obtain ⟨_, hlink, hsound, _, _, _⟩ :=
    get_interfaces_steps_sound db w type hac hcan fuel w2 m tr hsteps
  refine ⟨get_interfaces_impl_of_steps_ok db fuel _ w w2 [] m tr hsteps, hlink, ?_⟩
  intro ws name info result he
  have := hsound _ he
  exact ⟨this.1, this.2.1, this.2.2.2.2.2.1, this.2.2.2.2.2.2⟩

theorem get_interfaces_diamond_once_witness :
    ∃ fuel m info, (∀ n, fuel ≤ n → get_interfaces sample_db n {} 0 = .ok ({}, m)) ∧
      m.filter (fun e => decide (e.1 = canonical_name sample_db ({}, .TypeDef 3)))
        = [(canonical_name sample_db ({}, .TypeDef 3), info)] ∧
      m.filter (fun e => decide (e.1 = canonical_name sample_db ({}, .TypeRef 1)))
        = [(canonical_name sample_db ({}, .TypeRef 1), info)] ∧
      info.methods = sample_db.MethodList 3 ∧
      ∃ v2 g2, interface_definition sample_db (({}, .TypeRef 1) : occurrence).1
        (({}, .TypeRef 1) : occurrence).2 = .ok (3, v2, g2) :=
  get_interfaces_diamond_once sample_db {} 0 sample_acyclic (sample_resolvable 0)
    (sample_canonical 0) [({}, .TypeDef 1)] [({}, .TypeRef 0)] ({}, .TypeDef 3) ({}, .TypeRef 1)
    (walk.step [] ({}, .TypeDef 1) ({}, .TypeDef 3) (walk.direct (.TypeDef 1) (by decide))
      ⟨1, {}, rfl, by decide⟩)
    (walk.step [] ({}, .TypeRef 0) ({}, .TypeRef 1) (walk.direct (.TypeRef 0) (by decide))
      ⟨2, {}, rfl, by decide⟩)
    (by simp) rfl 3 {} {} rfl

theorem get_interfaces_closure_exact_witness :
    ∃ fuel m, (∀ n, fuel ≤ n → get_interfaces sample_db n {} 0 = .ok ({}, m)) ∧
      (∀ k, k ∈ std_map.keys m ↔
        ∃ o, reachable sample_db {} 0 o ∧ canonical_name sample_db o = k) ∧
      (∀ k info, (k, info) ∈ m →
        ∃ d, (∀ v, ∃ v1 g, interface_definition sample_db v info.type = .ok (d, v1, g)) ∧
          info.methods = sample_db.MethodList d) ∧
      (sample_db.InterfaceImpl 0 = [] → m = []) :=
  get_interfaces_closure_exact sample_db {} 0 sample_acyclic (sample_resolvable 0)
    (sample_canonical 0)

theorem get_interfaces_first_insertion_wins_witness :
    (∃ fuel m tr, get_interfaces_steps sample_db fuel {} 0 = .ok ({}, m, tr) ∧
      ∀ n, fuel ≤ n → get_interfaces sample_db n {} 0 = .ok ({}, m)) ∧
    (∀ fuel w2 m tr, get_interfaces_steps sample_db fuel {} 0 = .ok (w2, m, tr) →
      get_interfaces sample_db fuel {} 0 = .ok (w2, m) ∧ steps_linked [] tr m ∧
      ∀ pre e post, tr = pre ++ e :: post →
        (∀ ws name info result, e = .stored ws name info result →
          std_map.find result name = none ∧ std_map.find e.after name = some info) ∧
        (∀ ws impl name result, e = .skipped ws impl name result →
          name = sample_db.write_temp ws impl ∧ name ∈ std_map.keys result ∧
            e.after = result) ∧
        std_map.included e.before e.after ∧
        (∀ e2 ∈ post, std_map.included e.after e2.before ∧ std_map.included e.after e2.after) ∧
        std_map.included e.after m) ∧
    (∀ n v r impl children, sample_db.write_temp v impl ∈ std_map.keys r →
      get_interfaces_impl sample_db n v r (impl :: children)
        = get_interfaces_impl sample_db n v r children) :=
  get_interfaces_first_insertion_wins sample_db {} 0 sample_acyclic (sample_resolvable 0)
    (sample_canonical 0)

theorem get_interfaces_ancestors_first_witness :
    (∃ fuel m tr, get_interfaces_steps sample_db fuel {} 0 = .ok ({}, m, tr) ∧
      ∀ n, fuel ≤ n → get_interfaces sample_db n {} 0 = .ok ({}, m)) ∧
    (∀ fuel w2 m tr, get_interfaces_steps sample_db fuel {} 0 = .ok (w2, m, tr) →
      get_interfaces sample_db fuel {} 0 = .ok (w2, m) ∧ steps_linked [] tr m ∧
      ∀ ws name info result, closure_step.stored ws name info result ∈ tr →
        name = sample_db.write_temp ws info.type ∧ reachable sample_db {} 0 (ws, info.type) ∧
        (∀ o, Relation.TransGen (requires_interface sample_db) (ws, info.type) o →
          canonical_name sample_db o ∈ std_map.keys result) ∧
        edge_closed sample_db {} 0 (std_map.assign result name info)) :=
  get_interfaces_ancestors_first sample_db {} 0 sample_acyclic (sample_resolvable 0)
    (sample_canonical 0)

/-- The closure of the sample class and the steps that build it: IA is stored
first, on the way through IB, and the second edge to it, from IC, is
skipped. -/
theorem sample_get_interfaces_steps :
    get_interfaces_steps sample_db 2 {} 0 = .ok ({},
      [("IA", { type := .TypeDef 3, methods := [{ Name := "A" }] }),
        ("IB", { type := .TypeDef 1, methods := [{ Name := "B" }] }),
        ("IC", { type := .TypeRef 0, methods := [{ Name := "C" }] }),
        ("IIterable<String>", { type := .TypeSpec 1, methods := [{ Name := "First" }] }),
        ("IVector<String>", { type := .TypeSpec 0, methods := [{ Name := "GetAt" }] })],
      [.stored {} "IA" { type := .TypeDef 3, methods := [{ Name := "A" }] } [],
        .stored {} "IB" { type := .TypeDef 1, methods := [{ Name := "B" }] }
          [("IA", { type := .TypeDef 3, methods := [{ Name := "A" }] })],
        .skipped {} (.TypeRef 1) "IA"
          [("IA", { type := .TypeDef 3, methods := [{ Name := "A" }] }),
            ("IB", { type := .TypeDef 1, methods := [{ Name := "B" }] })],
        .stored {} "IC" { type := .TypeRef 0, methods := [{ Name := "C" }] }
          [("IA", { type := .TypeDef 3, methods := [{ Name := "A" }] }),
            ("IB", { type := .TypeDef 1, methods := [{ Name := "B" }] })],
        .stored sample_inner "IIterable<String>"
          { type := .TypeSpec 1, methods := [{ Name := "First" }] }
          [("IA", { type := .TypeDef 3, methods := [{ Name := "A" }] }),
            ("IB", { type := .TypeDef 1, methods := [{ Name := "B" }] }),
            ("IC", { type := .TypeRef 0, methods := [{ Name := "C" }] })],
        .stored {} "IVector<String>" { type := .TypeSpec 0, methods := [{ Name := "GetAt" }] }
          [("IA", { type := .TypeDef 3, methods := [{ Name := "A" }] }),
            ("IB", { type := .TypeDef 1, methods := [{ Name := "B" }] }),
            ("IC", { type := .TypeRef 0, methods := [{ Name := "C" }] }),
            ("IIterable<String>", { type := .TypeSpec 1, methods := [{ Name := "First" }] })]]) := by
  rfl

/-! ## Facts about the overload mapping -/

theorem std_map.mem_assign {V : Type} (m : std_map V) (k : String) (v : V) (e : String × V)
    (h : e ∈ std_map.assign m k v) : e = (k, v) ∨ e ∈ m := by
  induction m with
  | nil => simpa [std_map.assign] using h
  | cons e0 rest ih =>
    obtain ⟨k2, v2⟩ := e0
    simp only [std_map.assign] at h
    split_ifs at h with h1 h2
    · rcases List.mem_cons.mp h with h | h
      · exact Or.inl h
      · exact Or.inr h
    · subst h2
      rcases List.mem_cons.mp h with h | h
      · exact Or.inl h
      · exact Or.inr (List.mem_cons_of_mem _ h)
    · rcases List.mem_cons.mp h with h | h
      · exact Or.inr (by rw [h]; exact List.mem_cons_self _ _)
      · rcases ih h with h | h
        · exact Or.inl h
        · exact Or.inr (List.mem_cons_of_mem _ h)

theorem std_map.find_emplace_back_self {V : Type} (m : std_map (List V)) (k : String) (x : V) :
    std_map.find (std_map.emplace_back m k x) k = some ((std_map.find m k).getD [] ++ [x]) :=
  std_map.find_assign_self _ _ _

theorem std_map.find_emplace_back_ne {V : Type} (m : std_map (List V)) (k k2 : String) (x : V)
    (h : k2 ≠ k) : std_map.find (std_map.emplace_back m k x) k2 = std_map.find m k2 :=
  std_map.find_assign_ne _ _ _ _ h

theorem std_map.ordered_emplace_back {V : Type} (m : std_map (List V)) (k : String) (x : V)
    (h : std_map.ordered m) : std_map.ordered (std_map.emplace_back m k x) :=
  std_map.ordered_assign _ _ _ h

theorem overload_count_emplace_back (m : std_map (List overload)) (k : String) (x : overload)
    (h : std_map.ordered m) :
    overload_count (std_map.emplace_back m k x) = overload_count m + 1 := by
  induction m with
  | nil => simp [std_map.emplace_back, std_map.assign, std_map.find, overload_count]
  | cons e rest ih =>
    obtain ⟨k2, v2⟩ := e
    have hh : (∀ a ∈ std_map.keys rest, k2 < a) ∧ std_map.ordered rest := by
      simpa [std_map.ordered, std_map.keys] using h
    have ih2 := ih hh.2
    simp only [std_map.emplace_back] at ih2 ⊢
    simp only [std_map.assign]
    split_ifs with h1 h2
    · have h1s : k < k2 := String.lt_iff_toList_lt.mpr h1
      have hnone : std_map.find ((k2, v2) :: rest) k = none := by
        rw [← std_map.not_mem_keys_iff]
        intro hk
        simp only [std_map.keys, List.map_cons, List.mem_cons] at hk
        rcases hk with hk | hk
        · exact lt_irrefl _ (hk ▸ h1s)
        · exact lt_asymm h1s (hh.1 k hk)
      simp [hnone, overload_count]
      omega
    · subst h2
      simp [std_map.find, overload_count]
      omega
    · have hf : std_map.find ((k2, v2) :: rest) k = std_map.find rest k := by
        simp [std_map.find, h2]
      rw [hf]
      simp only [overload_count, List.map_cons, List.sum_cons] at ih2 ⊢
      rw [ih2]
      omega

theorem find_group_overloads (pairs : List overload) (m : std_map (List overload))
    (name : String) :
    std_map.find (group_overloads pairs m) name =
      if overloads_named pairs name = [] then std_map.find m name
      else some ((std_map.find m name).getD [] ++ overloads_named pairs name) := by
  induction pairs generalizing m with
  | nil => simp [group_overloads, overloads_named]
  | cons p rest ih =>
    have hstep : group_overloads (p :: rest) m
        = group_overloads rest (std_map.emplace_back m p.2.Name p) := rfl
    rw [hstep, ih]
    by_cases hp : p.2.Name = name
    · subst hp
      rw [std_map.find_emplace_back_self]
      have h1 : overloads_named (p :: rest) p.2.Name = p :: overloads_named rest p.2.Name := by
        simp [overloads_named, List.filter_cons]
      rw [h1]
      by_cases hr : overloads_named rest p.2.Name = []
      · simp [hr]
      · simp [hr]
    · rw [std_map.find_emplace_back_ne _ _ _ _ (fun h => hp h.symm)]
      have h1 : overloads_named (p :: rest) name = overloads_named rest name := by
        simp [overloads_named, List.filter_cons, hp]
      rw [h1]

theorem ordered_group_overloads (pairs : List overload) (m : std_map (List overload))
    (h : std_map.ordered m) : std_map.ordered (group_overloads pairs m) := by
  induction pairs generalizing m with
  | nil => exact h
  | cons p rest ih => exact ih _ (std_map.ordered_emplace_back _ _ _ h)

theorem overload_count_group (pairs : List overload) (m : std_map (List overload))
    (h : std_map.ordered m) :
    overload_count (group_overloads pairs m) = overload_count m + pairs.length := by
  induction pairs generalizing m with
  | nil => simp [group_overloads]
  | cons p rest ih =>
    have hstep : group_overloads (p :: rest) m
        = group_overloads rest (std_map.emplace_back m p.2.Name p) := rfl
    rw [hstep, ih _ (std_map.ordered_emplace_back _ _ _ h), overload_count_emplace_back _ _ _ h]
    simp only [List.length_cons]
    omega

theorem group_overloads_ne_nil (pairs : List overload) (m : std_map (List overload))
    (h : ∀ e ∈ m, e.2 ≠ []) : ∀ e ∈ group_overloads pairs m, e.2 ≠ [] := by
  induction pairs generalizing m with
  | nil => exact h
  | cons p rest ih =>
    apply ih
    intro e he
    rcases std_map.mem_assign _ _ _ _ he with rfl | he
    · simp
    · exact h e he

theorem group_overloads_append (a b : List overload) (m : std_map (List overload)) :
    group_overloads (a ++ b) m = group_overloads b (group_overloads a m) := by
  simp [group_overloads, List.foldl_append]

/-! ## The loops of get_methods and get_methods2 -/

theorem push_back_loop (l acc : List MethodDef) :
    l.foldl (fun methods method => methods ++ [method]) acc = acc ++ l := by
  induction l generalizing acc with
  | nil => simp
  | cons a rest ih => simp [ih]

theorem own_methods_loop (l acc : List MethodDef) :
    l.foldl (fun methods method => if is_constructor method then methods else methods ++ [method])
      acc = acc ++ l.filter (fun method => !is_constructor method) := by
  induction l generalizing acc with
  | nil => simp
  | cons a rest ih =>
    by_cases ha : is_constructor a = true
    · simp [ih, ha]
    · simp [ih, ha]

theorem closure_methods_loop (closure : std_map interface_info) (acc : List MethodDef) :
    closure.foldl
      (fun methods info => info.2.methods.foldl (fun methods method => methods ++ [method]) methods)
      acc = acc ++ closure_methods closure := by
  induction closure generalizing acc with
  | nil => simp [closure_methods]
  | cons a rest ih =>
    rw [List.foldl_cons, push_back_loop, ih]
    simp [closure_methods]

theorem own_overloads_loop (type : TypeDef) (l : List MethodDef) (m : std_map (List overload)) :
    l.foldl
      (fun methods method =>
        if is_constructor method then methods
        else std_map.emplace_back methods method.Name (TypeDefOrRef.TypeDef type, method))
      m = group_overloads
        ((l.filter (fun method => !is_constructor method)).map
          (fun method => (TypeDefOrRef.TypeDef type, method))) m := by
  induction l generalizing m with
  | nil => simp [group_overloads]
  | cons a rest ih =>
    by_cases ha : is_constructor a = true
    · simp [ih, ha]
    · simp [ih, ha, group_overloads]

theorem entry_overloads_loop (origin : TypeDefOrRef) (l : List MethodDef)
    (m : std_map (List overload)) :
    l.foldl (fun methods method => std_map.emplace_back methods method.Name (origin, method)) m
      = group_overloads (l.map (fun method => (origin, method))) m := by
  induction l generalizing m with
  | nil => simp [group_overloads]
  | cons a rest ih => simp [ih, group_overloads]

theorem closure_overloads_loop (closure : std_map interface_info) (m : std_map (List overload)) :
    closure.foldl
      (fun methods info =>
        info.2.methods.foldl
          (fun methods method => std_map.emplace_back methods method.Name (info.2.type, method))
          methods)
      m = group_overloads
        (closure.flatMap (fun info => info.2.methods.map (fun method => (info.2.type, method))))
        m := by
  induction closure generalizing m with
  | nil => simp [group_overloads]
  | cons a rest ih =>
    rw [List.foldl_cons, entry_overloads_loop, ih, List.flatMap_cons, group_overloads_append]

theorem check_overloads_cases (m : std_map (List overload)) :
    check_overloads m = .ok () ∨ check_overloads m = .assert_failed := by
  induction m with
  | nil => exact Or.inl rfl
  | cons e rest ih =>
    obtain ⟨k, ovs⟩ := e
    simp only [check_overloads]
    split_ifs with h1
    · cases hh : ovs.head? with
      | none => simpa [Res.bind] using ih
      | some first =>
        simp only [XLANG_ASSERT]
        split_ifs
        · simpa [Res.bind] using ih
        · exact Or.inr rfl
    · simpa [Res.bind] using ih

theorem get_methods_eq (db : database) (fuel : Nat) (w : writer) (type : TypeDef) :
    get_methods db fuel w type =
      if db.get_category type = .interface_type then
        (get_interfaces db fuel w type).bind fun closure =>
          .ok (own_methods db type ++ closure_methods closure.2)
      else .ok (own_methods db type) := by
  simp only [get_methods, own_methods_loop, closure_methods_loop, List.nil_append, own_methods]

theorem get_methods2_eq (db : database) (XLANG_DEBUG : Bool) (fuel : Nat) (w : writer)
    (type : TypeDef) :
    get_methods2 db XLANG_DEBUG fuel w type =
      (if db.get_category type = .interface_type then
        (get_interfaces db fuel w type).bind fun closure =>
          .ok (group_overloads (attributed_methods db type closure.2) [])
      else .ok (group_overloads (attributed_methods db type []) [])).bind fun methods =>
        (if XLANG_DEBUG then check_overloads methods else .ok ()).bind fun _ => .ok methods := by
  simp only [get_methods2, own_overloads_loop, closure_overloads_loop, attributed_methods,
    group_overloads_append, own_methods, List.flatMap_nil, List.append_nil]

theorem group_overloads_spec (pairs : List overload) :
    std_map.ordered (group_overloads pairs []) ∧
    (∀ name, std_map.find (group_overloads pairs []) name =
      if overloads_named pairs name = [] then none else some (overloads_named pairs name)) ∧
    overload_count (group_overloads pairs []) = pairs.length ∧
    (∀ e ∈ group_overloads pairs [], e.2 ≠ []) := by
  have hnil : std_map.ordered ([] : std_map (List overload)) := by
    simp [std_map.ordered, std_map.keys]
  refine ⟨ordered_group_overloads pairs [] hnil, ?_, ?_, ?_⟩
  · intro name
    rw [find_group_overloads]
    simp [std_map.find]
  · rw [overload_count_group pairs [] hnil]
    simp [overload_count]
  · exact group_overloads_ne_nil pairs [] (fun e he => by cases he)

theorem overloads_named_snd (pairs : List overload) (name : String) :
    (overloads_named pairs name).map Prod.snd =
      (pairs.map Prod.snd).filter (fun method => decide (method.Name = name)) := by
  induction pairs with
  | nil => rfl
  | cons p rest ih =>
    by_cases hp : p.2.Name = name
    · simp [overloads_named, List.filter_cons, hp] at ih ⊢
      exact ih
    · simp [overloads_named, List.filter_cons, hp] at ih ⊢
      exact ih

theorem attributed_methods_snd (db : database) (type : TypeDef)
    (closure : std_map interface_info) :
    (attributed_methods db type closure).map Prod.snd =
      own_methods db type ++ closure_methods closure := by
  simp only [attributed_methods, closure_methods, List.map_append, List.map_map,
    List.map_flatMap]
  congr 1
  · simp [Function.comp_def]
  · simp [Function.comp_def]

theorem mem_attributed_methods (db : database) (type : TypeDef)
    (closure : std_map interface_info) (p : overload) :
    p ∈ attributed_methods db type closure ↔
      (p.1 = .TypeDef type ∧ p.2 ∈ own_methods db type) ∨
      ∃ e ∈ closure, p.1 = e.2.type ∧ p.2 ∈ e.2.methods := by
  obtain ⟨origin, method⟩ := p
  simp only [attributed_methods, List.mem_append, List.mem_map, List.mem_flatMap, Prod.mk.injEq]
  constructor
  · rintro (⟨m, hm, rfl, rfl⟩ | ⟨e, he, m, hm, rfl, rfl⟩)
    · exact Or.inl ⟨rfl, hm⟩
    · exact Or.inr ⟨e, he, rfl, hm⟩
  · rintro (⟨rfl, hm⟩ | ⟨e, he, rfl, hm⟩)
    · exact Or.inl ⟨method, hm, rfl, rfl⟩
    · exact Or.inr ⟨e, he, method, hm, rfl, rfl⟩

theorem mem_overloads_named (pairs : List overload) (name : String) (p : overload) :
    p ∈ overloads_named pairs name ↔ p ∈ pairs ∧ p.2.Name = name := by
  simp [overloads_named]

/-! ## Method aggregation: the sample with a constructor -/

theorem shape_InterfaceImpl (type : TypeDef) (impl : TypeDefOrRef)
    (h : impl ∈ shape_db.InterfaceImpl type) : type = 0 ∧ impl = .TypeDef 1 := by
  rcases type with _ | _ | n <;>
    simp [database.InterfaceImpl, shape_db] at h ⊢
  exact h

theorem shape_acyclic : acyclic shape_db := by
  apply acyclic_of_rank shape_db (fun d => 1 - d)
  rintro d d2 ⟨impl, hi, w, w1, g, hdef⟩
  obtain ⟨rfl, rfl⟩ := shape_InterfaceImpl d impl hi
  simp [interface_definition] at hdef
  obtain ⟨rfl, _⟩ := hdef
  decide

theorem shape_reachable (type : TypeDef) (o : occurrence)
    (h : reachable shape_db {} type o) : o = ({}, .TypeDef 1) := by
  obtain ⟨impl, hi, hchain⟩ := h
  induction hchain with
  | refl =>
    obtain ⟨_, rfl⟩ := shape_InterfaceImpl type impl hi
    rfl
  | @tail b c _ hbc ih =>
    obtain ⟨cw, cc⟩ := c
    obtain ⟨d, g, hdef, hmem⟩ := hbc
    subst ih
    simp [interface_definition] at hdef
    obtain ⟨rfl, rfl, _⟩ := hdef
    obtain ⟨h0, _⟩ := shape_InterfaceImpl _ cc hmem
    exact absurd h0 (by decide)

theorem shape_resolvable (type : TypeDef) : resolvable shape_db {} type := by
  intro o ho
  rw [shape_reachable type o ho]
  simp [interface_definition]

/-! ## Method aggregation: claims -/

/-- C5 (aggregation on an interface type). For a type of category interface,
`get_methods` is, at every call depth, what `get_interfaces` gives followed
up as: the declared methods of the type that are not constructors, in
declaration order, a constructor being a method with the
runtime-special-name flag and the name ".ctor", then all the methods of the
method range of each closure entry, in the iteration order of the map; the
methods of a closure entry are not filtered. Whenever the closure returns,
the mapping that `get_methods2` builds holds under each name the pairs of
that name in this order, the own methods with the type itself as origin and
the methods of a closure entry with the interface reference of that entry as
origin; `get_methods2` returns this mapping unless the block compiled under
`XLANG_DEBUG` fails its assertion. Over an acyclic interface-implementation
graph whose references resolve the closure does return. -/
theorem get_methods_interface (db : database) (XLANG_DEBUG : Bool) (w : writer) (type : TypeDef)
    (hcat : db.get_category type = .interface_type) :
    (∀ n, get_methods db n w type =
      (get_interfaces db n w type).bind fun closure =>
        .ok ((db.MethodList type).filter
            (fun method => !(method.Flags.RTSpecialName && decide (method.Name = ".ctor"))) ++
          closure.2.flatMap (fun info => info.2.methods))) ∧
    own_methods db type = (db.MethodList type).filter
      (fun method => !(method.Flags.RTSpecialName && decide (method.Name = ".ctor"))) ∧
    (∀ closure, closure_methods closure = closure.flatMap (fun info => info.2.methods)) ∧
    (∀ closure, attributed_methods db type closure =
      ((db.MethodList type).filter
        (fun method => !(method.Flags.RTSpecialName && decide (method.Name = ".ctor")))).map
          (fun method => (TypeDefOrRef.TypeDef type, method)) ++
        closure.flatMap (fun info => info.2.methods.map (fun method => (info.2.type, method)))) ∧
    (∀ n w2 closure, get_interfaces db n w type = .ok (w2, closure) →
      get_methods db n w type = .ok (own_methods db type ++ closure_methods closure) ∧
      ∃ methods,
        get_methods2 db XLANG_DEBUG n w type =
          ((if XLANG_DEBUG then check_overloads methods else .ok ()).bind
            fun _ => .ok methods) ∧
        (∀ name, std_map.find methods name =
          if overloads_named (attributed_methods db type closure) name = [] then none
          else some (overloads_named (attributed_methods db type closure) name)) ∧
        (∀ name overloads, std_map.find methods name = some overloads → ∀ p ∈ overloads,
          (p.1 = .TypeDef type ∧ p.2 ∈ own_methods db type) ∨
          ∃ e ∈ closure, p.1 = e.2.type ∧ p.2 ∈ e.2.methods) ∧
        (∀ method ∈ own_methods db type, ∃ overloads,
          std_map.find methods method.Name = some overloads ∧
            (TypeDefOrRef.TypeDef type, method) ∈ overloads) ∧
        (∀ e ∈ closure, ∀ method ∈ e.2.methods, ∃ overloads,
          std_map.find methods method.Name = some overloads ∧
            (e.2.type, method) ∈ overloads)) ∧
    (acyclic db → resolvable db w type →
      ∃ fuel closure, ∀ n, fuel ≤ n → get_interfaces db n w type = .ok (w, closure)) := by
  refine ⟨fun n => ?_, rfl, fun _ => rfl, fun _ => rfl, fun n w2 closure hrun => ?_,
    fun hac hres => get_interfaces_returns db w type hac hres⟩
  · rw [get_methods_eq, if_pos hcat]
    rfl
  obtain ⟨_, hfind, _, _⟩ := group_overloads_spec (attributed_methods db type closure)
  have hmem : ∀ p ∈ attributed_methods db type closure, ∃ overloads,
      std_map.find (group_overloads (attributed_methods db type closure) []) p.2.Name
        = some overloads ∧ p ∈ overloads := by
    intro p hp
    have hin : p ∈ overloads_named (attributed_methods db type closure) p.2.Name :=
      (mem_overloads_named _ _ _).mpr ⟨hp, rfl⟩
    refine ⟨_, ?_, hin⟩
    rw [hfind, if_neg (List.ne_nil_of_mem hin)]
  refine ⟨?_, group_overloads (attributed_methods db type closure) [], ?_, hfind, ?_, ?_, ?_⟩
  · rw [get_methods_eq, if_pos hcat, hrun]
    rfl
  · rw [get_methods2_eq, if_pos hcat, hrun]
    rfl
  · intro name overloads hov p hp
    rw [hfind] at hov
    split_ifs at hov with h1
    cases hov
    exact (mem_attributed_methods db type closure p).mp ((mem_overloads_named _ _ _).mp hp).1
  · intro method hm
    exact hmem (.TypeDef type, method)
      ((mem_attributed_methods db type closure _).mpr (Or.inl ⟨rfl, hm⟩))
  · intro e he method hm
    exact hmem (e.2.type, method)
      ((mem_attributed_methods db type closure _).mpr (Or.inr ⟨e, he, rfl, hm⟩))

/-- C6 (aggregation on a non-interface type). For a type of category class,
delegate, enum or struct, whatever interfaces it implements and whatever
depth is granted, `get_methods` is exactly the declared methods that are not
constructors, in declaration order, a constructor being a method with the
runtime-special-name flag and the name ".ctor"; the mapping that
`get_methods2` builds holds exactly these methods, each under its name and
with the type itself as origin. `get_methods2` returns this mapping unless
the block compiled under `XLANG_DEBUG` fails its assertion. -/
theorem get_methods_non_interface (db : database) (XLANG_DEBUG : Bool) (fuel : Nat) (w : writer)
    (type : TypeDef)
    (hcat : db.get_category type = .class_type ∨ db.get_category type = .delegate_type ∨
      db.get_category type = .enum_type ∨ db.get_category type = .struct_type) :
    get_methods db fuel w type = .ok (own_methods db type) ∧
    own_methods db type = (db.MethodList type).filter
      (fun method => !(method.Flags.RTSpecialName && decide (method.Name = ".ctor"))) ∧
    ∃ methods,
      get_methods2 db XLANG_DEBUG fuel w type =
        ((if XLANG_DEBUG then check_overloads methods else .ok ()).bind fun _ => .ok methods) ∧
      (∀ name, std_map.find methods name =
        if (own_methods db type).filter (fun method => decide (method.Name = name)) = [] then none
        else some (((own_methods db type).filter (fun method => decide (method.Name = name))).map
          (fun method => (TypeDefOrRef.TypeDef type, method)))) ∧
      overload_count methods = (own_methods db type).length := by
  have hne : ¬ db.get_category type = .interface_type := by
    rcases hcat with h | h | h | h <;> rw [h] <;> decide
  obtain ⟨_, hfind, hcount, _⟩ := group_overloads_spec (attributed_methods db type [])
  have hnamed : ∀ name, overloads_named (attributed_methods db type []) name =
      ((own_methods db type).filter (fun method => decide (method.Name = name))).map
        (fun method => (TypeDefOrRef.TypeDef type, method)) := by
    intro name
    simp only [overloads_named, attributed_methods, List.flatMap_nil, List.append_nil,
      List.filter_map]
    rfl
  refine ⟨?_, rfl, group_overloads (attributed_methods db type []) [], ?_, ?_, ?_⟩
  · rw [get_methods_eq, if_neg hne]
  · rw [get_methods2_eq, if_neg hne]
    rfl
  · intro name
    rw [hfind, hnamed]
    simp
  · rw [hcount]
    simp [attributed_methods]

/-- C7 (the grouped and the flat aggregation describe the same population).
For every type, whenever `get_methods` returns a listing, the mapping that
`get_methods2` builds holds under every name the methods of the listing that
have this name, in the order of the listing; the lengths of its overload
lists sum to the length of the listing and none of its overload lists is
empty. `get_methods2` returns this mapping unless the block compiled under
`XLANG_DEBUG` fails its assertion, and when `get_methods` does not return,
neither does `get_methods2`. -/
theorem get_methods2_groups_get_methods (db : database) (XLANG_DEBUG : Bool) (fuel : Nat)
    (w : writer) (type : TypeDef) :
    (∀ listing, get_methods db fuel w type = .ok listing →
      ∃ methods,
        get_methods2 db XLANG_DEBUG fuel w type =
          ((if XLANG_DEBUG then check_overloads methods else .ok ()).bind fun _ => .ok methods) ∧
        (∀ name, ((std_map.find methods name).getD []).map Prod.snd =
          listing.filter (fun method => decide (method.Name = name))) ∧
        (∀ name, std_map.find methods name = none ↔
          listing.filter (fun method => decide (method.Name = name)) = []) ∧
        overload_count methods = listing.length ∧
        (∀ e ∈ methods, e.2 ≠ [])) ∧
    ((∀ listing, get_methods db fuel w type ≠ .ok listing) →
      ∀ methods, get_methods2 db XLANG_DEBUG fuel w type ≠ .ok methods) := by
  have key : ∀ closure : std_map interface_info,
      (∀ name, ((std_map.find (group_overloads (attributed_methods db type closure) []) name).getD
          []).map Prod.snd =
        (own_methods db type ++ closure_methods closure).filter
          (fun method => decide (method.Name = name))) ∧
      (∀ name, std_map.find (group_overloads (attributed_methods db type closure) []) name = none ↔
        (own_methods db type ++ closure_methods closure).filter
          (fun method => decide (method.Name = name)) = []) ∧
      overload_count (group_overloads (attributed_methods db type closure) []) =
        (own_methods db type ++ closure_methods closure).length ∧
      (∀ e ∈ group_overloads (attributed_methods db type closure) [], e.2 ≠ []) := by
    intro closure
    obtain ⟨_, hfind, hcount, hne⟩ := group_overloads_spec (attributed_methods db type closure)
    have hsnd := attributed_methods_snd db type closure
    have hnamed := overloads_named_snd (attributed_methods db type closure)
    refine ⟨?_, ?_, ?_, hne⟩
    · intro name
      rw [hfind, ← hsnd, ← hnamed]
      split_ifs with h1
      · simp [h1]
      · simp
    · intro name
      rw [hfind, ← hsnd, ← hnamed]
      split_ifs with h1
      · simp [h1]
      · simp [h1]
    · rw [hcount, ← hsnd]
      simp
  rw [get_methods_eq, get_methods2_eq]
  by_cases hcat : db.get_category type = .interface_type
  · simp only [if_pos hcat]
    cases hrun : get_interfaces db fuel w type with
    | ok closure =>
      refine ⟨fun listing h => ?_, fun h => absurd rfl (h _)⟩
      simp only [Res.bind, Res.ok.injEq] at h
      subst h
      exact ⟨_, rfl, key closure.2⟩
    | throw_invalid m =>
      exact ⟨fun listing h => by simp [Res.bind] at h, fun _ methods => by simp [Res.bind]⟩
    | assert_failed =>
      exact ⟨fun listing h => by simp [Res.bind] at h, fun _ methods => by simp [Res.bind]⟩
    | diverge =>
      exact ⟨fun listing h => by simp [Res.bind] at h, fun _ methods => by simp [Res.bind]⟩
  · simp only [if_neg hcat]
    refine ⟨fun listing h => ?_, fun h => absurd rfl (h _)⟩
    simp only [Res.ok.injEq] at h
    subst h
    have := key []
    simp only [closure_methods, List.flatMap_nil, List.append_nil] at this
    exact ⟨_, rfl, this⟩

/-- On the sample, the interface IShape declares a constructor and Area and
requires IBase: the listing drops the constructor of IShape, keeps Area, and
takes the whole method range of IBase, and the mapping attributes Area to
IShape itself and the methods of IBase to the reference to IBase. -/
theorem get_methods_interface_witness :
    shape_db.MethodList 0 =
      [{ Name := ".ctor", Flags := { RTSpecialName := true, SpecialName := true } },
        { Name := "Area" }] ∧
    own_methods shape_db 0 = [{ Name := "Area" }] ∧
    get_methods shape_db 1 {} 0 =
      .ok [{ Name := "Area" },
        { Name := ".ctor", Flags := { RTSpecialName := true, SpecialName := true } },
        { Name := "Name" }] ∧
    (∀ closure, attributed_methods shape_db 0 closure =
      [(TypeDefOrRef.TypeDef 0, { Name := "Area" })] ++
        closure.flatMap (fun info => info.2.methods.map (fun method => (info.2.type, method)))) ∧
    (∀ n w2 closure, get_interfaces shape_db n {} 0 = .ok (w2, closure) →
      get_methods shape_db n {} 0 = .ok (own_methods shape_db 0 ++ closure_methods closure) ∧
      ∃ methods,
        get_methods2 shape_db true n {} 0 =
          ((if true then check_overloads methods else .ok ()).bind fun _ => .ok methods) ∧
        (∀ name, std_map.find methods name =
          if overloads_named (attributed_methods shape_db 0 closure) name = [] then none
          else some (overloads_named (attributed_methods shape_db 0 closure) name)) ∧
        (∀ name overloads, std_map.find methods name = some overloads → ∀ p ∈ overloads,
          (p.1 = .TypeDef 0 ∧ p.2 ∈ own_methods shape_db 0) ∨
          ∃ e ∈ closure, p.1 = e.2.type ∧ p.2 ∈ e.2.methods) ∧
        (∀ method ∈ own_methods shape_db 0, ∃ overloads,
          std_map.find methods method.Name = some overloads ∧
            (TypeDefOrRef.TypeDef 0, method) ∈ overloads) ∧
        (∀ e ∈ closure, ∀ method ∈ e.2.methods, ∃ overloads,
          std_map.find methods method.Name = some overloads ∧
            (e.2.type, method) ∈ overloads)) ∧
    (∃ fuel closure, ∀ n, fuel ≤ n → get_interfaces shape_db n {} 0 = .ok ({}, closure)) :=
  have h := get_methods_interface shape_db true {} 0 rfl
  ⟨rfl, h.2.1.trans (by decide), (h.1 1).trans (by decide),
    fun closure => (h.2.2.2.1 closure).trans rfl, h.2.2.2.2.1,
    h.2.2.2.2.2 shape_acyclic (shape_resolvable 0)⟩

theorem get_methods_non_interface_witness :
    get_methods sample_db 0 {} 0 = .ok [{ Name := "Run" }] ∧
    own_methods sample_db 0 = (sample_db.MethodList 0).filter
      (fun method => !(method.Flags.RTSpecialName && decide (method.Name = ".ctor"))) ∧
    ∃ methods,
      get_methods2 sample_db true 0 {} 0 =
        ((if true then check_overloads methods else .ok ()).bind fun _ => .ok methods) ∧
      (∀ name, std_map.find methods name =
        if (own_methods sample_db 0).filter (fun method => decide (method.Name = name)) = []
        then none
        else some (((own_methods sample_db 0).filter
          (fun method => decide (method.Name = name))).map
            (fun method => (TypeDefOrRef.TypeDef 0, method)))) ∧
      overload_count methods = (own_methods sample_db 0).length :=
  get_methods_non_interface sample_db true 0 {} 0 (Or.inl rfl)

theorem get_methods2_groups_get_methods_witness :
    ∃ methods,
      get_methods2 sample_db true 3 {} 4 =
        ((if true then check_overloads methods else .ok ()).bind fun _ => .ok methods) ∧
      (∀ name, ((std_map.find methods name).getD []).map Prod.snd =
        [{ Name := "D" }, { Name := "A" }, { Name := "B" }, ({ Name := "C" } : MethodDef)].filter
          (fun method => decide (method.Name = name))) ∧
      (∀ name, std_map.find methods name = none ↔
        [{ Name := "D" }, { Name := "A" }, { Name := "B" }, ({ Name := "C" } : MethodDef)].filter
          (fun method => decide (method.Name = name)) = []) ∧
      overload_count methods = 4 ∧
      (∀ e ∈ methods, e.2 ≠ []) :=
  (get_methods2_groups_get_methods sample_db true 3 {} 4).1
    [{ Name := "D" }, { Name := "A" }, { Name := "B" }, { Name := "C" }] rfl

/-- The aggregation of the sample interface ID: its own method D, then the
methods of its closure in key order, grouped by name with their origins. -/
theorem sample_get_methods :
    get_methods sample_db 3 {} 4
      = .ok [{ Name := "D" }, { Name := "A" }, { Name := "B" }, { Name := "C" }] ∧
    get_methods2 sample_db true 3 {} 4
      = .ok [("A", [(.TypeRef 1, { Name := "A" })]), ("B", [(.TypeDef 1, { Name := "B" })]),
          ("C", [(.TypeRef 0, { Name := "C" })]), ("D", [(.TypeDef 4, { Name := "D" })])] := by
  decide

/-! ## Parameter classification: claims -/

/-- C8 (decision table). `get_param_category` depends on the four flags
(array, in, out, by-ref) only. It returns pass_array for an array with the in
flag, whatever out and by-ref are; fill_array for an array without in, with
out, by reference; receive_array for an array without in, with out, not by
reference; in for a non-array with in and without out; out for a non-array
without in and with out, the last two whatever by-ref is. Each of the five
categories is returned for some parameter. -/
theorem get_param_category_table (param : param_t) :
    (param.2.type.is_szarray = true → param.1.Flags.In = true →
      get_param_category param = .ok .pass_array) ∧
    (param.2.type.is_szarray = true → param.1.Flags.In = false → param.1.Flags.Out = true →
      param.2.ByRef = true → get_param_category param = .ok .fill_array) ∧
    (param.2.type.is_szarray = true → param.1.Flags.In = false → param.1.Flags.Out = true →
      param.2.ByRef = false → get_param_category param = .ok .receive_array) ∧
    (param.2.type.is_szarray = false → param.1.Flags.In = true → param.1.Flags.Out = false →
      get_param_category param = .ok .in_) ∧
    (param.2.type.is_szarray = false → param.1.Flags.In = false → param.1.Flags.Out = true →
      get_param_category param = .ok .out) ∧
    (∀ other : param_t, other.2.type.is_szarray = param.2.type.is_szarray →
      other.1.Flags.In = param.1.Flags.In → other.1.Flags.Out = param.1.Flags.Out →
      other.2.ByRef = param.2.ByRef → get_param_category other = get_param_category param) ∧
    (∀ c : param_category, ∃ p : param_t, get_param_category p = .ok c) := by
  refine ⟨?_, ?_, ?_, ?_, ?_, ?_, ?_⟩
  · intro h1 h2; simp [get_param_category, h1, h2]
  · intro h1 h2 h3 h4; simp [get_param_category, XLANG_ASSERT, Res.bind, h1, h2, h3, h4]
  · intro h1 h2 h3 h4; simp [get_param_category, XLANG_ASSERT, Res.bind, h1, h2, h3, h4]
  · intro h1 h2 h3; simp [get_param_category, XLANG_ASSERT, Res.bind, h1, h2, h3]
  · intro h1 h2 h3; simp [get_param_category, XLANG_ASSERT, Res.bind, h1, h2, h3]
  · intro other h1 h2 h3 h4
    simp only [get_param_category, h1, h2, h3, h4]
  · intro c
    cases c
    · exact ⟨({ Flags := { In := true } }, { type := .ElementType false .I4 }), rfl⟩
    · exact ⟨({ Flags := { Out := true } }, { type := .ElementType false .I4 }), rfl⟩
    · exact ⟨({ Flags := { In := true } }, { type := .ElementType true .I4 }), rfl⟩
    · exact ⟨({ Flags := { Out := true } }, { type := .ElementType true .I4, ByRef := true }), rfl⟩
    · exact ⟨({ Flags := { Out := true } }, { type := .ElementType true .I4 }), rfl⟩

/-- C9 (failure outside the table). `XLANG_ASSERT` being checked,
`get_param_category` fails, with a violated assertion, exactly on an array
with neither in nor out, on a non-array with both in and out, and on a
non-array with neither in nor out, whatever by-ref is; on every other
combination of the four flags it returns a category. -/
theorem get_param_category_fails_iff (param : param_t) :
    (get_param_category param = .assert_failed ↔
      (param.2.type.is_szarray = true ∧ param.1.Flags.In = false ∧ param.1.Flags.Out = false) ∨
      (param.2.type.is_szarray = false ∧ param.1.Flags.In = true ∧ param.1.Flags.Out = true) ∨
      (param.2.type.is_szarray = false ∧ param.1.Flags.In = false ∧
        param.1.Flags.Out = false)) ∧
    ((∃ c, get_param_category param = .ok c) ↔
      ¬ ((param.2.type.is_szarray = true ∧ param.1.Flags.In = false ∧
          param.1.Flags.Out = false) ∨
        (param.2.type.is_szarray = false ∧ param.1.Flags.In = true ∧
          param.1.Flags.Out = true) ∨
        (param.2.type.is_szarray = false ∧ param.1.Flags.In = false ∧
          param.1.Flags.Out = false))) := by
  obtain ⟨⟨sequence, name, ⟨flag_in, flag_out⟩⟩, ⟨type, by_ref⟩⟩ := param
  cases h : type.is_szarray <;> cases flag_in <;> cases flag_out <;> cases by_ref <;>
    simp [get_param_category, XLANG_ASSERT, Res.bind, h]

/-- C10 (is_in_param). For a parameter whose flags lie inside the decision
table, so that `get_param_category` returns a category, `is_in_param` fails,
with the error of `throw_invalid`, exactly when the category is fill_array;
it returns true exactly when the category is in or pass_array and false
exactly when it is out or receive_array. It does not return false for a
fill_array parameter. -/
theorem is_in_param_by_category (param : param_t) (c : param_category)
    (h : get_param_category param = .ok c) :
    (is_in_param param = .throw_invalid "fill aray param not impl" ↔ c = .fill_array) ∧
    ((∀ b, is_in_param param ≠ .ok b) ↔ c = .fill_array) ∧
    (is_in_param param = .ok true ↔ c = .in_ ∨ c = .pass_array) ∧
    (is_in_param param = .ok false ↔ c = .out ∨ c = .receive_array) ∧
    (c = .fill_array → is_in_param param ≠ .ok false) := by
  simp only [is_in_param, h, Res.bind]
  cases c <;> simp

theorem is_in_param_by_category_witness :
    (is_in_param ({ Flags := { Out := true } }, { type := .ElementType true .I4, ByRef := true })
        = .throw_invalid "fill aray param not impl" ↔ param_category.fill_array = .fill_array) ∧
    ((∀ b, is_in_param
        ({ Flags := { Out := true } }, { type := .ElementType true .I4, ByRef := true })
          ≠ .ok b) ↔ param_category.fill_array = .fill_array) ∧
    (is_in_param ({ Flags := { Out := true } }, { type := .ElementType true .I4, ByRef := true })
        = .ok true ↔ param_category.fill_array = .in_ ∨ param_category.fill_array = .pass_array) ∧
    (is_in_param ({ Flags := { Out := true } }, { type := .ElementType true .I4, ByRef := true })
        = .ok false ↔
          param_category.fill_array = .out ∨ param_category.fill_array = .receive_array) ∧
    (param_category.fill_array = .fill_array →
      is_in_param ({ Flags := { Out := true } }, { type := .ElementType true .I4, ByRef := true })
        ≠ .ok false) :=
  is_in_param_by_category
    ({ Flags := { Out := true } }, { type := .ElementType true .I4, ByRef := true })
    .fill_array rfl

/-! ## Parameter counts: claims -/

theorem is_in_param_of_category (param : param_t) (c : param_category)
    (h : get_param_category param = .ok c) (hc : c ≠ .fill_array) :
    is_in_param param = .ok (is_input_category param) ∧
    (!is_input_category param) = is_output_category param := by
  simp only [is_in_param, is_input_category, is_output_category, h, Res.bind]
  cases c <;> simp at hc ⊢

theorem int_increment_small (count : Nat) (h : count + 1 < 2147483648) :
    int_increment (count : Int) = ((count + 1 : Nat) : Int) := by
  have h2 : (count : Int) + 1 < 2 ^ 31 := by
    have : ((count + 1 : Nat) : Int) < 2147483648 := by exact_mod_cast h
    norm_num
    push_cast at this
    exact this
  unfold int_increment
  rw [if_pos h2]
  push_cast
  rfl

theorem count_in_param_loop_eq (params : List param_t) (count : Nat)
    (hclass : ∀ p ∈ params, ∃ c, get_param_category p = .ok c ∧ c ≠ .fill_array)
    (hlen : count + params.length < 2 ^ 31) :
    count_in_param_loop params count = .ok ((count + params.countP is_input_category : Nat) : Int) := by
  induction params generalizing count with
  | nil => simp [count_in_param_loop]
  | cons p rest ih =>
    obtain ⟨c, hc, hne⟩ := hclass p (List.mem_cons_self _ _)
    have hrest : ∀ q ∈ rest, ∃ c, get_param_category q = .ok c ∧ c ≠ .fill_array :=
      fun q hq => hclass q (List.mem_cons_of_mem _ hq)
    have h31 : (2 : Nat) ^ 31 = 2147483648 := by norm_num
    simp only [List.length_cons, h31] at hlen
    have hlen1 : count + rest.length < 2 ^ 31 := by rw [h31]; omega
    have hlen2 : count + 1 + rest.length < 2 ^ 31 := by rw [h31]; omega
    simp only [count_in_param_loop, (is_in_param_of_category p c hc hne).1, Res.bind]
    by_cases hin : is_input_category p = true
    · have hinc := int_increment_small count (by omega)
      simp only [hin, if_true, hinc]
      rw [ih (count + 1) hrest hlen2, List.countP_cons_of_pos _ _ hin]
      have he : count + 1 + List.countP is_input_category rest
          = count + (List.countP is_input_category rest + 1) := by omega
      rw [he]
    · simp only [hin, Bool.false_eq_true, if_false]
      rw [ih count hrest hlen1, List.countP_cons_of_neg _ _ hin]

theorem count_out_param_loop_eq (params : List param_t) (count : Nat)
    (hclass : ∀ p ∈ params, ∃ c, get_param_category p = .ok c ∧ c ≠ .fill_array)
    (hlen : count + params.length < 2 ^ 31) :
    count_out_param_loop params count
      = .ok ((count + params.countP is_output_category : Nat) : Int) := by
  induction params generalizing count with
  | nil => simp [count_out_param_loop]
  | cons p rest ih =>
    obtain ⟨c, hc, hne⟩ := hclass p (List.mem_cons_self _ _)
    have hrest : ∀ q ∈ rest, ∃ c, get_param_category q = .ok c ∧ c ≠ .fill_array :=
      fun q hq => hclass q (List.mem_cons_of_mem _ hq)
    have h31 : (2 : Nat) ^ 31 = 2147483648 := by norm_num
    simp only [List.length_cons, h31] at hlen
    have hlen1 : count + rest.length < 2 ^ 31 := by rw [h31]; omega
    have hlen2 : count + 1 + rest.length < 2 ^ 31 := by rw [h31]; omega
    simp only [count_out_param_loop, (is_in_param_of_category p c hc hne).1, Res.bind,
      (is_in_param_of_category p c hc hne).2]
    by_cases hout : is_output_category p = true
    · have hinc := int_increment_small count (by omega)
      simp only [hout, if_true, hinc]
      rw [ih (count + 1) hrest hlen2, List.countP_cons_of_pos _ _ hout]
      have he : count + 1 + List.countP is_output_category rest
          = count + (List.countP is_output_category rest + 1) := by omega
      rw [he]
    · simp only [hout, Bool.false_eq_true, if_false]
      rw [ih count hrest hlen1, List.countP_cons_of_neg _ _ hout]

theorem countP_input_add_output (params : List param_t)
    (hclass : ∀ p ∈ params, ∃ c, get_param_category p = .ok c ∧ c ≠ .fill_array) :
    params.countP is_input_category + params.countP is_output_category = params.length := by
  induction params with
  | nil => rfl
  | cons p rest ih =>
    obtain ⟨c, hc, hne⟩ := hclass p (List.mem_cons_self _ _)
    have h2 := (is_in_param_of_category p c hc hne).2
    have ih2 := ih (fun q hq => hclass q (List.mem_cons_of_mem _ hq))
    by_cases hin : is_input_category p = true
    · have hout : ¬ is_output_category p = true := by rw [← h2, hin]; simp
      rw [List.countP_cons_of_pos _ _ hin, List.countP_cons_of_neg _ _ hout, List.length_cons]
      omega
    · have hout : is_output_category p = true := by
        rw [← h2]
        simpa using hin
      rw [List.countP_cons_of_neg _ _ hin, List.countP_cons_of_pos _ _ hout, List.length_cons]
      omega

theorem count_in_param_loop_fill (params : List param_t)
    (h : ∃ p ∈ params, get_param_category p = .ok .fill_array) (count : Int) (n : Int) :
    count_in_param_loop params count ≠ .ok n := by
  induction params generalizing count with
  | nil => obtain ⟨p, hp, _⟩ := h; cases hp
  | cons q rest ih =>
    simp only [count_in_param_loop]
    cases hq : is_in_param q with
    | ok b =>
      simp only [Res.bind]
      apply ih
      obtain ⟨p, hp, hfill⟩ := h
      rcases List.mem_cons.mp hp with rfl | hp
      · simp [is_in_param, hfill, Res.bind] at hq
      · exact ⟨p, hp, hfill⟩
    | throw_invalid m => simp [Res.bind]
    | assert_failed => simp [Res.bind]
    | diverge => simp [Res.bind]

theorem count_out_param_loop_fill (params : List param_t)
    (h : ∃ p ∈ params, get_param_category p = .ok .fill_array) (count : Int) (n : Int) :
    count_out_param_loop params count ≠ .ok n := by
  induction params generalizing count with
  | nil => obtain ⟨p, hp, _⟩ := h; cases hp
  | cons q rest ih =>
    simp only [count_out_param_loop]
    cases hq : is_in_param q with
    | ok b =>
      simp only [Res.bind]
      apply ih
      obtain ⟨p, hp, hfill⟩ := h
      rcases List.mem_cons.mp hp with rfl | hp
      · simp [is_in_param, hfill, Res.bind] at hq
      · exact ⟨p, hp, hfill⟩
    | throw_invalid m => simp [Res.bind]
    | assert_failed => simp [Res.bind]
    | diverge => simp [Res.bind]

/-- C11 (the counters partition the parameter list). For a parameter list,
shorter than 2^31 so that the `int` counters stay in range, in which every
parameter classifies and none is fill_array, `count_in_param` returns the
number of parameters of category in or pass_array, `count_out_param` returns
the number of category out or receive_array, and the two counts add up to
the number of parameters. If some parameter of the list is fill_array,
neither counter returns a number. -/
theorem count_param_partition (params : List param_t) :
    ((∀ p ∈ params, ∃ c, get_param_category p = .ok c ∧ c ≠ .fill_array) →
      params.length < 2 ^ 31 →
      count_in_param params = .ok (params.countP is_input_category : Nat) ∧
      count_out_param params = .ok (params.countP is_output_category : Nat) ∧
      ∃ count_in count_out : Int,
        count_in_param params = .ok count_in ∧ count_out_param params = .ok count_out ∧
          count_in + count_out = params.length) ∧
    ((∃ p ∈ params, get_param_category p = .ok .fill_array) →
      (∀ n, count_in_param params ≠ .ok n) ∧ (∀ n, count_out_param params ≠ .ok n)) := by
  refine ⟨fun hclass hlen => ?_, fun hfill => ⟨?_, ?_⟩⟩
  · have h1 := count_in_param_loop_eq params 0 hclass (by rw [Nat.zero_add]; exact hlen)
    have h2 := count_out_param_loop_eq params 0 hclass (by rw [Nat.zero_add]; exact hlen)
    simp only [Nat.zero_add] at h1 h2
    refine ⟨h1, h2, _, _, h1, h2, ?_⟩
    exact_mod_cast countP_input_add_output params hclass
  · exact count_in_param_loop_fill params hfill 0
  · exact count_out_param_loop_fill params hfill 0

theorem count_param_partition_witness :
    (count_in_param sample_params = .ok 2 ∧ count_out_param sample_params = .ok 1 ∧
      ∃ count_in count_out : Int,
        count_in_param sample_params = .ok count_in ∧
          count_out_param sample_params = .ok count_out ∧
          count_in + count_out = sample_params.length) ∧
    ((∀ n, count_in_param sample_params_fill ≠ .ok n) ∧
      (∀ n, count_out_param sample_params_fill ≠ .ok n)) :=
  ⟨(count_param_partition sample_params).1
      (by
        intro p hp
        simp only [sample_params, List.mem_cons, List.mem_singleton, List.not_mem_nil,
          or_false] at hp
        rcases hp with rfl | rfl | rfl
        · exact ⟨.in_, rfl, by decide⟩
        · exact ⟨.receive_array, rfl, by decide⟩
        · exact ⟨.pass_array, rfl, by decide⟩)
      (by norm_num [sample_params]),
    (count_param_partition sample_params_fill).2
      ⟨({ Sequence := 2, Name := "buffer", Flags := { Out := true } },
          { type := .ElementType true .U1, ByRef := true }),
        by simp [sample_params_fill], rfl⟩⟩

/-! ## Property and event accessors: the scans -/

theorem last_method_cons (kind : MethodSemantics → Bool) (r : MethodSemantics)
    (rest : List MethodSemantics) :
    last_method kind (r :: rest) =
      (last_method kind rest).or (if kind r then some r.Method else none) := by
  unfold last_method
  by_cases hk : kind r = true
  · rw [List.filter_cons_of_pos hk, List.getLast?_cons]
    cases (List.filter kind rest).getLast? <;> simp [hk]
  · rw [List.filter_cons_of_neg hk]
    cases (List.filter kind rest).getLast? <;> simp [hk]

theorem last_method_eq_none (kind : MethodSemantics → Bool) (records : List MethodSemantics) :
    last_method kind records = none ↔ ∀ r ∈ records, kind r = false := by
  unfold last_method
  rw [Option.map_eq_none', List.getLast?_eq_none_iff, List.filter_eq_nil_iff]
  simp

theorem last_method_mem (kind : MethodSemantics → Bool) (records : List MethodSemantics)
    (m : MethodDef) (h : last_method kind records = some m) :
    ∃ r ∈ records, kind r = true ∧ r.Method = m := by
  unfold last_method at h
  rw [Option.map_eq_some'] at h
  obtain ⟨r, hr, hm⟩ := h
  have hmem := List.mem_of_mem_getLast? hr
  rw [List.mem_filter] at hmem
  exact ⟨r, hmem.1, hmem.2, hm⟩

theorem last_method_single (kind : MethodSemantics → Bool) (records : List MethodSemantics)
    (r : MethodSemantics) (h : records.filter kind = [r]) :
    last_method kind records = some r.Method := by
  simp [last_method, h]

theorem get_property_methods_loop_eq (records : List MethodSemantics)
    (get_method set_method : Option MethodDef)
    (hall : ∀ r ∈ records, is_getter r = true ∨ is_setter r = true) :
    get_property_methods_loop records get_method set_method =
      .ok ((last_method is_getter records).or get_method,
        (last_method is_setter records).or set_method) := by
  induction records generalizing get_method set_method with
  | nil => simp [get_property_methods_loop, last_method]
  | cons r rest ih =>
    have hrest : ∀ q ∈ rest, is_getter q = true ∨ is_setter q = true :=
      fun q hq => hall q (List.mem_cons_of_mem _ hq)
    simp only [get_property_methods_loop, last_method_cons]
    by_cases hg : r.Semantic.Getter = true
    · have h1 : is_getter r = true := hg
      have h2 : is_setter r = false := by simp [is_setter, hg]
      simp only [hg, if_true, ih _ _ hrest, h1, h2]
      cases last_method is_getter rest <;> cases last_method is_setter rest <;> simp
    · have h1 : is_getter r = false := by simpa [is_getter] using hg
      have h2 : is_setter r = true := by
        rcases hall r (List.mem_cons_self _ _) with h | h
        · rw [h1] at h; cases h
        · exact h
      have hs : r.Semantic.Setter = true := by
        simp only [is_setter, Bool.and_eq_true] at h2
        exact h2.2
      simp only [hg, hs, if_true, ih _ _ hrest, h1, h2]
      cases last_method is_getter rest <;> cases last_method is_setter rest <;> simp

theorem get_property_methods_loop_throw (records : List MethodSemantics)
    (get_method set_method : Option MethodDef)
    (h : ∃ r ∈ records, is_getter r = false ∧ is_setter r = false) :
    get_property_methods_loop records get_method set_method =
      .throw_invalid "Properties can only have get and set methods" := by
  induction records generalizing get_method set_method with
  | nil => obtain ⟨r, hr, _⟩ := h; cases hr
  | cons q rest ih =>
    simp only [get_property_methods_loop]
    by_cases hg : q.Semantic.Getter = true
    · simp only [hg, if_true]
      apply ih
      obtain ⟨r, hr, h1, h2⟩ := h
      rcases List.mem_cons.mp hr with rfl | hr
      · simp [is_getter, hg] at h1
      · exact ⟨r, hr, h1, h2⟩
    · by_cases hs : q.Semantic.Setter = true
      · simp only [hg, hs, if_true]
        apply ih
        obtain ⟨r, hr, h1, h2⟩ := h
        rcases List.mem_cons.mp hr with rfl | hr
        · simp [is_setter, hg, hs] at h2
        · exact ⟨r, hr, h1, h2⟩
      · simp [hg, hs]

theorem get_event_methods_loop_eq (records : List MethodSemantics)
    (add_method remove_method : Option MethodDef)
    (hall : ∀ r ∈ records, is_add r = true ∨ is_remove r = true) :
    get_event_methods_loop records add_method remove_method =
      .ok ((last_method is_add records).or add_method,
        (last_method is_remove records).or remove_method) := by
  induction records generalizing add_method remove_method with
  | nil => simp [get_event_methods_loop, last_method]
  | cons r rest ih =>
    have hrest : ∀ q ∈ rest, is_add q = true ∨ is_remove q = true :=
      fun q hq => hall q (List.mem_cons_of_mem _ hq)
    simp only [get_event_methods_loop, last_method_cons]
    by_cases hg : r.Semantic.AddOn = true
    · have h1 : is_add r = true := hg
      have h2 : is_remove r = false := by simp [is_remove, hg]
      simp only [hg, if_true, ih _ _ hrest, h1, h2]
      cases last_method is_add rest <;> cases last_method is_remove rest <;> simp
    · have h1 : is_add r = false := by simpa [is_add] using hg
      have h2 : is_remove r = true := by
        rcases hall r (List.mem_cons_self _ _) with h | h
        · rw [h1] at h; cases h
        · exact h
      have hs : r.Semantic.RemoveOn = true := by
        simp only [is_remove, Bool.and_eq_true] at h2
        exact h2.2
      simp only [hg, hs, if_true, ih _ _ hrest, h1, h2]
      cases last_method is_add rest <;> cases last_method is_remove rest <;> simp

theorem get_event_methods_loop_throw (records : List MethodSemantics)
    (add_method remove_method : Option MethodDef)
    (h : ∃ r ∈ records, is_add r = false ∧ is_remove r = false) :
    get_event_methods_loop records add_method remove_method =
      .throw_invalid "Events can only have add and remove methods" := by
  induction records generalizing add_method remove_method with
  | nil => obtain ⟨r, hr, _⟩ := h; cases hr
  | cons q rest ih =>
    simp only [get_event_methods_loop]
    by_cases hg : q.Semantic.AddOn = true
    · simp only [hg, if_true]
      apply ih
      obtain ⟨r, hr, h1, h2⟩ := h
      rcases List.mem_cons.mp hr with rfl | hr
      · simp [is_add, hg] at h1
      · exact ⟨r, hr, h1, h2⟩
    · by_cases hs : q.Semantic.RemoveOn = true
      · simp only [hg, hs, if_true]
        apply ih
        obtain ⟨r, hr, h1, h2⟩ := h
        rcases List.mem_cons.mp hr with rfl | hr
        · simp [is_remove, hg, hs] at h2
        · exact ⟨r, hr, h1, h2⟩
      · simp [hg, hs]

theorem records_classified_or_not (kind1 kind2 : MethodSemantics → Bool)
    (records : List MethodSemantics) :
    (∀ r ∈ records, kind1 r = true ∨ kind2 r = true) ∨
    (∃ r ∈ records, kind1 r = false ∧ kind2 r = false) := by
  by_cases h : ∃ r ∈ records, kind1 r = false ∧ kind2 r = false
  · exact Or.inr h
  · left
    intro r hr
    by_contra hc
    push_neg at hc
    exact h ⟨r, hr, by simpa using hc.1, by simpa using hc.2⟩

/-! ## Property and event accessors: claims -/

/-- C12 (result of get_property_methods). For a property whose records are
exactly one getter record and at most one setter record, the setter, if
there is one, having the static flag of the getter, `get_property_methods`
returns the method of the getter record as get and, as set, the method of
the setter record, or the null method when there is no setter record; the
same holds for the records in any other order. -/
theorem get_property_methods_result (records : List MethodSemantics) (getter : MethodSemantics)
    (setter : Option MethodSemantics)
    (hall : ∀ r ∈ records, is_getter r = true ∨ is_setter r = true)
    (hget : records.filter is_getter = [getter])
    (hset : records.filter is_setter = setter.toList)
    (hstatic : ∀ s, setter = some s → s.Method.Flags.Static = getter.Method.Flags.Static) :
    get_property_methods { MethodSemantic := records } =
      .ok { get := some getter.Method, set := setter.map (fun s => s.Method) } ∧
    ∀ records2, records2.Perm records →
      get_property_methods { MethodSemantic := records2 } =
        .ok { get := some getter.Method, set := setter.map (fun s => s.Method) } := by
  have main : ∀ recs : List MethodSemantics,
      (∀ r ∈ recs, is_getter r = true ∨ is_setter r = true) →
      recs.filter is_getter = [getter] → recs.filter is_setter = setter.toList →
      get_property_methods { MethodSemantic := recs } =
        .ok { get := some getter.Method, set := setter.map (fun s => s.Method) } := by
    intro recs h1 h2 h3
    have hg : last_method is_getter recs = some getter.Method := last_method_single _ _ _ h2
    simp only [get_property_methods, get_property_methods_loop_eq recs none none h1, hg, Res.bind]
    cases setter with
    | none =>
      have hs : last_method is_setter recs = none := by
        simp only [Option.toList] at h3
        simp [last_method, h3]
      simp [hs, XLANG_ASSERT, Res.bind]
    | some s =>
      have hs : last_method is_setter recs = some s.Method :=
        last_method_single _ _ _ (by simpa [Option.toList] using h3)
      have hst := hstatic s rfl
      simp [hs, XLANG_ASSERT, Res.bind, hst]
  refine ⟨main records hall hget hset, fun records2 hperm => ?_⟩
  apply main records2
  · intro r hr
    exact hall r (hperm.mem_iff.mp hr)
  · have := hperm.filter is_getter
    rw [hget] at this
    exact List.perm_singleton.mp this
  · have := hperm.filter is_setter
    rw [hset] at this
    cases setter with
    | none => simpa [Option.toList] using this
    | some s =>
      simp only [Option.toList] at this ⊢
      exact List.perm_singleton.mp this

theorem get_property_methods_result_witness :
    get_property_methods { MethodSemantic := [sample_setter, sample_getter] } =
      .ok { get := some sample_getter.Method,
            set := (some sample_setter).map (fun s => s.Method) } ∧
    ∀ records2, records2.Perm [sample_setter, sample_getter] →
      get_property_methods { MethodSemantic := records2 } =
        .ok { get := some sample_getter.Method,
              set := (some sample_setter).map (fun s => s.Method) } :=
  get_property_methods_result [sample_setter, sample_getter] sample_getter (some sample_setter)
    (by decide) (by decide) (by decide) (by intro s hs; cases hs; rfl)

/-- C13 (failure of get_property_methods). `get_property_methods` fails, that
is returns no accessors, exactly when some record is neither a getter nor a
setter, or no record is a getter, or a setter is present whose static flag
differs from that of the getter; where several records are of a kind, the
getter and the setter are the methods of the last record of the kind, which
the scan ends with. A property without records fails, on the assertion that
asks for a getter. -/
theorem get_property_methods_fails_iff (prop : Property) :
    ((∀ v, get_property_methods prop ≠ .ok v) ↔
      (∃ r ∈ prop.MethodSemantic, is_getter r = false ∧ is_setter r = false) ∨
      (∀ r ∈ prop.MethodSemantic, is_getter r = false) ∨
      (∃ g s, last_method is_getter prop.MethodSemantic = some g ∧
        last_method is_setter prop.MethodSemantic = some s ∧
        g.Flags.Static ≠ s.Flags.Static)) ∧
    get_property_methods { MethodSemantic := [] } = .assert_failed := by
  refine ⟨?_, rfl⟩
  rcases records_classified_or_not is_getter is_setter prop.MethodSemantic with hall | hbad
  · have hno : ¬ ∃ r ∈ prop.MethodSemantic, is_getter r = false ∧ is_setter r = false := by
      rintro ⟨r, hr, h1, h2⟩
      rcases hall r hr with h | h
      · rw [h1] at h; cases h
      · rw [h2] at h; cases h
    simp only [get_property_methods, get_property_methods_loop_eq _ none none hall, Res.bind]
    cases hg : last_method is_getter prop.MethodSemantic with
    | none =>
      have hnone := (last_method_eq_none _ _).mp hg
      simp only [Option.or_none, Option.isSome_none, XLANG_ASSERT, Bool.false_eq_true,
        if_false, Res.bind]
      constructor
      · intro _; exact Or.inr (Or.inl hnone)
      · intro _ v hv; cases hv
    | some g =>
      have hsome : ¬ ∀ r ∈ prop.MethodSemantic, is_getter r = false := by
        intro hn
        rw [(last_method_eq_none _ _).mpr hn] at hg
        cases hg
      cases hs : last_method is_setter prop.MethodSemantic with
      | none =>
        simp only [Option.or_none, Option.isSome_some, XLANG_ASSERT, if_true, Res.bind]
        constructor
        · intro h; exact absurd rfl (h _)
        · rintro (h | h | ⟨_, _, _, h, _⟩)
          · exact absurd h hno
          · exact absurd h hsome
          · cases h
      | some s =>
        simp only [Option.or_none, Option.isSome_some, XLANG_ASSERT, if_true, Res.bind]
        by_cases hst : g.Flags.Static = s.Flags.Static
        · simp only [hst, beq_self_eq_true, if_true]
          constructor
          · intro h; exact absurd rfl (h _)
          · rintro (h | h | ⟨g2, s2, h1, h2, h3⟩)
            · exact absurd h hno
            · exact absurd h hsome
            · cases h1; cases h2; exact absurd hst h3
        · have hb : (g.Flags.Static == s.Flags.Static) = false := by simpa using hst
          simp only [hb, Bool.false_eq_true, if_false]
          constructor
          · intro _; exact Or.inr (Or.inr ⟨g, s, rfl, rfl, hst⟩)
          · intro _ v hv; cases hv
  · simp only [get_property_methods, get_property_methods_loop_throw _ none none hbad, Res.bind]
    constructor
    · intro _; exact Or.inl hbad
    · intro _ v hv; cases hv

/-- C14 (get_event_methods). `get_event_methods` succeeds exactly when every
record is an add or a remove record, there is an add record and a remove
record, and the add and remove methods the scan ends with have equal static
flags; when it succeeds, both returned methods are present, add is the
method of an add record and remove is the method of a remove record. -/
theorem get_event_methods_succeeds_iff (evt : Event) :
    ((∃ v, get_event_methods evt = .ok v) ↔
      (∀ r ∈ evt.MethodSemantic, is_add r = true ∨ is_remove r = true) ∧
      (∃ r ∈ evt.MethodSemantic, is_add r = true) ∧
      (∃ r ∈ evt.MethodSemantic, is_remove r = true) ∧
      (∀ a rm, last_method is_add evt.MethodSemantic = some a →
        last_method is_remove evt.MethodSemantic = some rm →
        a.Flags.Static = rm.Flags.Static)) ∧
    (∀ v, get_event_methods evt = .ok v →
      (∃ ra ∈ evt.MethodSemantic, is_add ra = true ∧ v.add = some ra.Method) ∧
      (∃ rr ∈ evt.MethodSemantic, is_remove rr = true ∧ v.remove = some rr.Method)) := by
  have hex : ∀ kind : MethodSemantics → Bool,
      (∃ r ∈ evt.MethodSemantic, kind r = true) ↔ last_method kind evt.MethodSemantic ≠ none := by
    intro kind
    rw [Ne, last_method_eq_none]
    constructor
    · rintro ⟨r, hr, hk⟩ hn
      rw [hn r hr] at hk; cases hk
    · intro hn
      by_contra hc
      apply hn
      intro r hr
      by_contra hk
      exact hc ⟨r, hr, by simpa using hk⟩
  rcases records_classified_or_not is_add is_remove evt.MethodSemantic with hall | hbad
  · simp only [get_event_methods, get_event_methods_loop_eq _ none none hall, Res.bind,
      Option.or_none]
    rw [hex is_add, hex is_remove]
    cases ha : last_method is_add evt.MethodSemantic with
    | none =>
      simp [XLANG_ASSERT, Res.bind]
    | some a =>
      cases hr : last_method is_remove evt.MethodSemantic with
      | none => simp [XLANG_ASSERT, Res.bind]
      | some rm =>
        obtain ⟨ra, hra, hka, hma⟩ := last_method_mem _ _ _ ha
        obtain ⟨rr, hrr, hkr, hmr⟩ := last_method_mem _ _ _ hr
        by_cases hst : a.Flags.Static = rm.Flags.Static
        · simp only [Option.isSome_some, XLANG_ASSERT, if_true, Res.bind, hst, beq_self_eq_true]
          refine ⟨⟨fun _ => ⟨hall, by simp, by simp, ?_⟩, fun _ => ⟨_, rfl⟩⟩, ?_⟩
          · intro a2 rm2 h1 h2
            cases h1; cases h2; exact hst
          · intro v hv
            cases hv
            exact ⟨⟨ra, hra, hka, by rw [hma]⟩, ⟨rr, hrr, hkr, by rw [hmr]⟩⟩
        · have hb : (a.Flags.Static == rm.Flags.Static) = false := by simpa using hst
          simp only [Option.isSome_some, XLANG_ASSERT, if_true, Res.bind, hb,
            Bool.false_eq_true, if_false]
          refine ⟨⟨fun h => ?_, fun h => absurd (h.2.2.2 a rm rfl rfl) hst⟩, ?_⟩
          · obtain ⟨v, hv⟩ := h; cases hv
          · intro v hv; cases hv
  · have hno : ¬ ∀ r ∈ evt.MethodSemantic, is_add r = true ∨ is_remove r = true := by
      intro h
      obtain ⟨r, hr, h1, h2⟩ := hbad
      rcases h r hr with h | h
      · rw [h1] at h; cases h
      · rw [h2] at h; cases h
    simp only [get_event_methods, get_event_methods_loop_throw _ none none hbad, Res.bind]
    refine ⟨⟨fun h => ?_, fun h => absurd h.1 hno⟩, ?_⟩
    · obtain ⟨v, hv⟩ := h; cases hv
    · intro v hv; cases hv

/-! ## Method signatures: claims -/

theorem method_signature.emplace_params_eq (params : List Param) (signatures : List ParamSig) :
    ∀ (remaining i : Nat) (m_params : List param_t),
      i + remaining = signatures.length → i + remaining ≤ params.length →
      method_signature.emplace_params params signatures remaining i m_params =
        .ok (m_params ++ List.zip ((params.drop i).take remaining) (signatures.drop i)) := by
  intro remaining
  induction remaining with
  | zero =>
    intro i m_params _ _
    simp [method_signature.emplace_params]
  | succ n ih =>
    intro i m_params h1 h2
    have hi1 : i < params.length := by omega
    have hi2 : i < signatures.length := by omega
    simp only [method_signature.emplace_params, List.getElem?_eq_getElem hi1,
      List.getElem?_eq_getElem hi2]
    rw [ih (i + 1) _ (by omega) (by omega)]
    rw [List.drop_eq_getElem_cons hi1, List.drop_eq_getElem_cons hi2]
    simp only [List.take_succ_cons, List.zip_cons_cons, List.append_assoc, List.singleton_append]

/-- C17 (return carrier of method_signature). Let k be 1 when the signature
has a return type and the parameter list is not empty and its first row has
sequence number 0, and 0 otherwise, and let the parameter list have at least
k rows more than the signature has parameters (fewer than 2^32). Then the
constructor returns; `params` has as many entries as the signature has
parameters; entry i pairs row k+i of the parameter list with parameter i of
the signature, so that the rows of the entries are rows k, k+1, ... and the
row consumed when k = 1 is none of them; `return_param_name` is the name of
that consumed row when k = 1 and "winrt_impl_return_value" when k = 0. -/
theorem method_signature_return_carrier (method : MethodDef)
    (hrows : return_rows method + method.Signature.Params.length ≤ method.ParamList.length)
    (hsize : method.Signature.Params.length < 2 ^ 32) :
    ∃ signature, method_signature.ctor method = .ok signature ∧
      signature.params.length = method.Signature.Params.length ∧
      signature.params = List.zip
        ((method.ParamList.drop (return_rows method)).take method.Signature.Params.length)
        method.Signature.Params ∧
      (∀ i, i < method.Signature.Params.length →
        ∃ row parameter, method.ParamList[return_rows method + i]? = some row ∧
          method.Signature.Params[i]? = some parameter ∧
          signature.params[i]? = some (row, parameter)) ∧
      (return_rows method = 1 → ∃ first, method.ParamList.head? = some first ∧
        signature.m_return = some first ∧ signature.return_param_name = first.Name) ∧
      (return_rows method = 0 → signature.m_return = none ∧
        signature.return_param_name = "winrt_impl_return_value") := by
  have hstart : ∃ m_return : Option Param,
      (match method.Signature.ReturnType, method.ParamList with
        | some _, first :: rest =>
          if first.Sequence = 0 then (some first, rest) else (none, first :: rest)
        | _, params => (none, params)) = (m_return, method.ParamList.drop (return_rows method)) ∧
      (return_rows method = 1 → ∃ first, method.ParamList.head? = some first ∧
        m_return = some first) ∧
      (return_rows method = 0 → m_return = none) := by
    cases hr : method.Signature.ReturnType with
    | none => exact ⟨none, by simp [return_rows, hr], by simp [return_rows, hr], fun _ => rfl⟩
    | some t =>
      cases hp : method.ParamList with
      | nil => exact ⟨none, by simp [return_rows, hr, hp], by simp [return_rows, hr, hp],
          fun _ => rfl⟩
      | cons first rest =>
        by_cases hs : first.Sequence = 0
        · exact ⟨some first, by simp [return_rows, hr, hp, hs], by simp [return_rows, hr, hp, hs],
            by simp [return_rows, hr, hp, hs]⟩
        · exact ⟨none, by simp [return_rows, hr, hp, hs], by simp [return_rows, hr, hp, hs],
            fun _ => rfl⟩
  obtain ⟨m_return, hmatch, hone, hzero⟩ := hstart
  have hlen : 0 + method.Signature.Params.length
      ≤ (method.ParamList.drop (return_rows method)).length := by
    rw [List.length_drop]
    omega
  have hfill := method_signature.emplace_params_eq
    (method.ParamList.drop (return_rows method)) method.Signature.Params
    method.Signature.Params.length 0 [] (by omega) hlen
  simp only [List.drop_zero, List.nil_append] at hfill
  have hz : (List.zip ((method.ParamList.drop (return_rows method)).take
      method.Signature.Params.length) method.Signature.Params).length
        = method.Signature.Params.length := by
    rw [List.length_zip, List.length_take, List.length_drop]
    omega
  refine ⟨{ m_method := method.Signature,
            m_params := List.zip ((method.ParamList.drop (return_rows method)).take
              method.Signature.Params.length) method.Signature.Params,
            m_return := m_return }, ?_, hz, rfl, ?_, ?_, ?_⟩
  · simp only [method_signature.ctor, hmatch, if_pos hsize, hfill, Res.bind]
  · intro i hi
    have h1 : return_rows method + i < method.ParamList.length := by omega
    refine ⟨method.ParamList[return_rows method + i], method.Signature.Params[i],
      List.getElem?_eq_getElem h1, List.getElem?_eq_getElem hi, ?_⟩
    simp only [method_signature.params]
    rw [List.getElem?_eq_getElem (by rw [hz]; exact hi)]
    simp [List.getElem_zip, List.getElem_take, List.getElem_drop]
  · intro h1
    obtain ⟨first, hf, hm⟩ := hone h1
    exact ⟨first, hf, hm, by simp [method_signature.return_param_name, hm]⟩
  · intro h0
    exact ⟨hzero h0, by simp [method_signature.return_param_name, hzero h0]⟩

theorem method_signature_return_carrier_witness :
    ∃ signature, method_signature.ctor sample_method = .ok signature ∧
      signature.params.length = sample_method.Signature.Params.length ∧
      signature.params = List.zip
        ((sample_method.ParamList.drop (return_rows sample_method)).take
          sample_method.Signature.Params.length)
        sample_method.Signature.Params ∧
      (∀ i, i < sample_method.Signature.Params.length →
        ∃ row parameter, sample_method.ParamList[return_rows sample_method + i]? = some row ∧
          sample_method.Signature.Params[i]? = some parameter ∧
          signature.params[i]? = some (row, parameter)) ∧
      (return_rows sample_method = 1 → ∃ first, sample_method.ParamList.head? = some first ∧
        signature.m_return = some first ∧ signature.return_param_name = first.Name) ∧
      (return_rows sample_method = 0 → signature.m_return = none ∧
        signature.return_param_name = "winrt_impl_return_value") :=
  method_signature_return_carrier sample_method (by decide) (by norm_num [sample_method])

/-- The signature of the sample method: the row with sequence number 0 names
the return value and the two parameters take the rows after it. -/
theorem sample_method_signature :
    method_signature.ctor sample_method = .ok {
      m_method := sample_method.Signature,
      m_params := [
        ({ Sequence := 1, Name := "key", Flags := { In := true } },
          { type := .ElementType false .String }),
        ({ Sequence := 2, Name := "value", Flags := { Out := true } },
          { type := .ElementType false .I4, ByRef := true })],
      m_return := some { Sequence := 0, Name := "found" } } := by
  simp only [method_signature.ctor, sample_method, List.length_cons,
    List.length_nil]
  rw [if_pos (by norm_num)]
  rfl

/-! ## Signature handler: dispatch of type definitions -/

theorem Res.bind_eq_ok {α β : Type} (r : Res α) (f : α → Res β) (b : β) :
    r.bind f = .ok b ↔ ∃ a, r = .ok a ∧ f a = .ok b := by
  cases r <;> simp [Res.bind]

theorem Res.bind_throw_invalid {α β : Type} (r : Res α) (f : α → Res β) (m : String)
    (h : r = .throw_invalid m) : r.bind f = .throw_invalid m := by
  rw [h]; rfl

/-- C15 (enum representation). Handling a type definition of category enum
is exactly one call of the primitive-element capability of the handler, with
U4 when the type carries the attribute System.FlagsAttribute and with I4
when it does not, and no other capability is called: the recording handler
records that one event and nothing else. Two enum definitions of which one
carries the attribute and the other does not are dispatched as U4 and as
I4. -/
theorem handle_enum_representation {σ : Type} (h : signature_handler σ) (db : database)
    (type : TypeDef) (s : σ) (hcat : db.get_category type = .enum_type) :
    handle_TypeDef h db type s =
      h.call_ElementType (if db.get_attribute type "System" "FlagsAttribute" then .U4 else .I4)
        s ∧
    (∀ record, handle_TypeDef recording_handler db type record =
      .ok (record ++ [.handle_ElementType
        (if db.get_attribute type "System" "FlagsAttribute" then .U4 else .I4)])) ∧
    (∀ other, db.get_category other = .enum_type →
      db.get_attribute type "System" "FlagsAttribute" = true →
      db.get_attribute other "System" "FlagsAttribute" = false →
      handle_TypeDef recording_handler db type [] = .ok [.handle_ElementType .U4] ∧
      handle_TypeDef recording_handler db other [] = .ok [.handle_ElementType .I4]) := by
  have key : ∀ (τ : Type) (g : signature_handler τ) (t : TypeDef) (x : τ),
      db.get_category t = .enum_type →
      handle_TypeDef g db t x =
        g.call_ElementType (if db.get_attribute t "System" "FlagsAttribute" then .U4 else .I4)
          x := by
    intro τ g t x ht
    simp only [handle_TypeDef, ht, handle_enum, is_flags_enum, decide_True, Bool.true_and]
    split_ifs <;> rfl
  refine ⟨key σ h type s hcat, fun record => ?_, fun other hother h1 h2 => ?_⟩
  · rw [key _ recording_handler type record hcat]
    rfl
  · rw [key _ recording_handler type [] hcat, key _ recording_handler other [] hother, h1, h2]
    exact ⟨rfl, rfl⟩

theorem handle_enum_representation_witness :
    handle_TypeDef recording_handler handler_db 1 [] =
      recording_handler.call_ElementType
        (if handler_db.get_attribute 1 "System" "FlagsAttribute" then .U4 else .I4) [] ∧
    (∀ record, handle_TypeDef recording_handler handler_db 1 record =
      .ok (record ++ [.handle_ElementType
        (if handler_db.get_attribute 1 "System" "FlagsAttribute" then .U4 else .I4)])) ∧
    (∀ other, handler_db.get_category other = .enum_type →
      handler_db.get_attribute 1 "System" "FlagsAttribute" = true →
      handler_db.get_attribute other "System" "FlagsAttribute" = false →
      handle_TypeDef recording_handler handler_db 1 [] = .ok [.handle_ElementType .U4] ∧
      handle_TypeDef recording_handler handler_db other [] = .ok [.handle_ElementType .I4]) :=
  handle_enum_representation recording_handler handler_db 1 [] (by decide)

/-- The two sample enums, which differ in the attribute only, are dispatched
as I4 and as U4. -/
theorem sample_enum_dispatch :
    handle_TypeDef recording_handler handler_db 0 [] = .ok [.handle_ElementType .I4] ∧
    handle_TypeDef recording_handler handler_db 1 [] = .ok [.handle_ElementType .U4] := by
  decide

/-! ## Signature handler: the base defaults -/

theorem handle_TypeDef_base (σ : Type) (db : database) (type : TypeDef) (s : σ) :
    handle_TypeDef (signature_handler_base σ) db type s =
      .throw_invalid
        (match db.get_category type with
          | .class_type => "handle_class not implemented"
          | .delegate_type => "handle_delegate not implemented"
          | .interface_type => "handle_interface not implemented"
          | .enum_type => "handle(ElementType) not implemented"
          | .struct_type => "handle_struct not implemented") := by
  simp only [handle_TypeDef]
  cases db.get_category type
  · rfl
  · rfl
  · simp only [handle_enum]
    split_ifs <;> rfl
  · rfl
  · rfl

theorem handle_TypeRef_base (σ : Type) (db : database) (type : TypeRef) (s : σ) :
    ∃ m, handle_TypeRef (signature_handler_base σ) db type s = .throw_invalid m := by
  simp only [handle_TypeRef]
  split_ifs
  · exact ⟨_, rfl⟩
  · cases db.find_required type with
    | none => exact ⟨_, rfl⟩
    | some d => exact ⟨_, handle_TypeDef_base σ db d s⟩

theorem handle_GenericTypeInstSig_base_ne_ok (σ : Type) (db : database) :
    ∀ fuel (type : GenericTypeInstSig) (s s2 : σ),
      handle_GenericTypeInstSig (signature_handler_base σ) db fuel type s ≠ .ok s2 := by
  intro fuel
  induction fuel with
  | zero => intro type s s2 h; cases h
  | succ n ih =>
    intro type s s2 h
    simp only [handle_GenericTypeInstSig] at h
    obtain ⟨s1, h1, _⟩ := (Res.bind_eq_ok _ _ _).mp h
    simp only [handle_coded_index_with] at h1
    split at h1
    · rw [handle_TypeDef_base] at h1; cases h1
    · obtain ⟨m, hm⟩ := handle_TypeRef_base σ db _ s
      rw [hm] at h1; cases h1
    · split at h1
      · exact ih _ _ _ h1
      · cases h1

theorem handle_GenericTypeInstSig_base_throws (σ : Type) (db : database) :
    ∀ fuel (type : GenericTypeInstSig) (k : Nat) (s : σ),
      nesting_GenericTypeInstSig db fuel type = some k →
      ∃ m, handle_GenericTypeInstSig (signature_handler_base σ) db fuel type s
        = .throw_invalid m := by
  intro fuel
  induction fuel with
  | zero => intro type k s h; cases h
  | succ n ih =>
    intro type k s h
    simp only [nesting_GenericTypeInstSig] at h
    simp only [handle_GenericTypeInstSig]
    cases hg : type.GenericType with
    | TypeDef row =>
      exact ⟨_, Res.bind_throw_invalid _ _ _ (handle_TypeDef_base σ db row s)⟩
    | TypeRef row =>
      obtain ⟨m, hm⟩ := handle_TypeRef_base σ db row s
      exact ⟨m, Res.bind_throw_invalid _ _ _ hm⟩
    | TypeSpec row =>
      rw [hg] at h
      simp only [nesting_coded_index_with, handle_coded_index_with] at h ⊢
      cases hrow : db.TypeSpec_table[row]? with
      | none => simp [hrow] at h
      | some signature =>
        simp only [hrow] at h ⊢
        cases hn : nesting_GenericTypeInstSig db n signature with
        | none => simp [hn] at h
        | some k2 =>
          obtain ⟨m, hm⟩ := ih signature k2 s hn
          exact ⟨m, Res.bind_throw_invalid _ _ _ hm⟩

/-- C18 (unimplemented capabilities fail fast). On the handler that supplies
no capability, handling a type definition throws for each of the five
categories: class, delegate, interface and struct in their own default, and
enum in the default of the primitive-element capability that its routing
reaches. Handling a reference to System.Guid, a primitive element type or a
generic parameter index throws as well. Handling a generic instantiation
never returns, at any nesting bound, and throws at every bound at which the
nesting depth of the instantiation is defined. Handling a coded index or a
type signature never returns either: nothing is accepted silently. -/
theorem unimplemented_handlers_fail (σ : Type) (db : database) (s : σ) :
    (∀ type, db.get_category type = .class_type →
      handle_TypeDef (signature_handler_base σ) db type s
        = .throw_invalid "handle_class not implemented") ∧
    (∀ type, db.get_category type = .delegate_type →
      handle_TypeDef (signature_handler_base σ) db type s
        = .throw_invalid "handle_delegate not implemented") ∧
    (∀ type, db.get_category type = .interface_type →
      handle_TypeDef (signature_handler_base σ) db type s
        = .throw_invalid "handle_interface not implemented") ∧
    (∀ type, db.get_category type = .struct_type →
      handle_TypeDef (signature_handler_base σ) db type s
        = .throw_invalid "handle_struct not implemented") ∧
    (∀ type, db.get_category type = .enum_type →
      handle_TypeDef (signature_handler_base σ) db type s
        = .throw_invalid "handle(ElementType) not implemented") ∧
    (∀ type, db.TypeRef_TypeName type = "Guid" → db.TypeRef_TypeNamespace type = "System" →
      handle_TypeRef (signature_handler_base σ) db type s
        = .throw_invalid "handle_guid not implemented") ∧
    (∀ type, ∃ m, handle_TypeRef (signature_handler_base σ) db type s = .throw_invalid m) ∧
    (∀ fuel array type,
      handle_TypeSig (signature_handler_base σ) db fuel (.ElementType array type) s
        = .throw_invalid "handle(ElementType) not implemented") ∧
    (∀ fuel array var,
      handle_TypeSig (signature_handler_base σ) db fuel (.GenericTypeIndex array var) s
        = .throw_invalid "handle(GenericTypeIndex) not implemented") ∧
    (∀ fuel type s2,
      handle_GenericTypeInstSig (signature_handler_base σ) db fuel type s ≠ .ok s2) ∧
    (∀ fuel type k, nesting_GenericTypeInstSig db fuel type = some k →
      ∃ m, handle_GenericTypeInstSig (signature_handler_base σ) db fuel type s
        = .throw_invalid m) ∧
    (∀ fuel type s2, handle_coded_index (signature_handler_base σ) db fuel type s ≠ .ok s2) ∧
    (∀ fuel signature s2,
      handle_TypeSig (signature_handler_base σ) db fuel signature s ≠ .ok s2) := by
  have hcoded : ∀ fuel type s2,
      handle_coded_index (signature_handler_base σ) db fuel type s ≠ .ok s2 := by
    intro fuel type s2 h
    simp only [handle_coded_index, handle_coded_index_with] at h
    split at h
    · rw [handle_TypeDef_base] at h; cases h
    · obtain ⟨m, hm⟩ := handle_TypeRef_base σ db _ s
      rw [hm] at h; cases h
    · split at h
      · exact handle_GenericTypeInstSig_base_ne_ok σ db _ _ _ _ h
      · cases h
  refine ⟨?_, ?_, ?_, ?_, ?_, ?_, fun type => handle_TypeRef_base σ db type s, ?_, ?_,
    fun fuel type s2 => handle_GenericTypeInstSig_base_ne_ok σ db fuel type s s2,
    fun fuel type k hk => handle_GenericTypeInstSig_base_throws σ db fuel type k s hk,
    hcoded, ?_⟩
  · intro type h; rw [handle_TypeDef_base, h]
  · intro type h; rw [handle_TypeDef_base, h]
  · intro type h; rw [handle_TypeDef_base, h]
  · intro type h; rw [handle_TypeDef_base, h]
  · intro type h; rw [handle_TypeDef_base, h]
  · intro type h1 h2
    simp only [handle_TypeRef, h1, h2, and_self, if_true]
    rfl
  · intro fuel array type; rfl
  · intro fuel array var; rfl
  · intro fuel signature s2 h
    simp only [handle_TypeSig, handle_TypeSig_with] at h
    split at h
    · cases h
    · exact hcoded fuel _ s2 h
    · cases h
    · exact handle_GenericTypeInstSig_base_ne_ok σ db _ _ _ _ h

/-! ## Signature handler: nesting bound -/

theorem handle_coded_index_with_mono {σ : Type} (h : signature_handler σ) (db : database)
    (f1 f2 : GenericTypeInstSig → σ → Res σ)
    (hf : ∀ t s s2, f1 t s = .ok s2 → f2 t s = .ok s2) (type : TypeDefOrRef) (s s2 : σ)
    (hr : handle_coded_index_with h db f1 type s = .ok s2) :
    handle_coded_index_with h db f2 type s = .ok s2 := by
  simp only [handle_coded_index_with] at hr ⊢
  split at hr
  · exact hr
  · exact hr
  · split at hr
    · exact hf _ _ _ hr
    · cases hr

theorem handle_TypeSig_with_mono {σ : Type} (h : signature_handler σ) (db : database)
    (f1 f2 : GenericTypeInstSig → σ → Res σ)
    (hf : ∀ t s s2, f1 t s = .ok s2 → f2 t s = .ok s2) (signature : TypeSig) (s s2 : σ)
    (hr : handle_TypeSig_with h db f1 signature s = .ok s2) :
    handle_TypeSig_with h db f2 signature s = .ok s2 := by
  cases signature with
  | ElementType a t => exact hr
  | TypeDefOrRef a t => exact handle_coded_index_with_mono h db f1 f2 hf t s s2 hr
  | GenericTypeIndex a i => exact hr
  | GenericTypeInstSig a g args => exact hf _ _ _ hr

theorem handle_GenericArgs_mono {σ : Type} (g1 g2 : TypeSig → σ → Res σ)
    (hg : ∀ a s s2, g1 a s = .ok s2 → g2 a s = .ok s2) (args : List TypeSig) (s s2 : σ)
    (hr : handle_GenericArgs g1 args s = .ok s2) : handle_GenericArgs g2 args s = .ok s2 := by
  induction args generalizing s with
  | nil => exact hr
  | cons a rest ih =>
    simp only [handle_GenericArgs] at hr ⊢
    obtain ⟨s1, h1, h2⟩ := (Res.bind_eq_ok _ _ _).mp hr
    exact (Res.bind_eq_ok _ _ _).mpr ⟨s1, hg _ _ _ h1, ih _ h2⟩

theorem handle_GenericTypeInstSig_succ {σ : Type} (h : signature_handler σ) (db : database) :
    ∀ fuel (type : GenericTypeInstSig) (s s2 : σ),
      handle_GenericTypeInstSig h db fuel type s = .ok s2 →
      handle_GenericTypeInstSig h db (fuel + 1) type s = .ok s2 := by
  intro fuel
  induction fuel with
  | zero => intro type s s2 hr; cases hr
  | succ n ih =>
    intro type s s2 hr
    rw [handle_GenericTypeInstSig] at hr ⊢
    obtain ⟨s1, h1, h2⟩ := (Res.bind_eq_ok _ _ _).mp hr
    obtain ⟨s3, h3, h4⟩ := (Res.bind_eq_ok _ _ _).mp h2
    obtain ⟨s5, h5, h6⟩ := (Res.bind_eq_ok _ _ _).mp h4
    refine (Res.bind_eq_ok _ _ _).mpr ⟨s1, ?_, (Res.bind_eq_ok _ _ _).mpr ⟨s3, h3,
      (Res.bind_eq_ok _ _ _).mpr ⟨s5, ?_, h6⟩⟩⟩
    · exact handle_coded_index_with_mono h db _ _ ih _ _ _ h1
    · exact handle_GenericArgs_mono _ _
        (fun a s s2 => handle_TypeSig_with_mono h db _ _ ih a s s2) _ _ _ h5

theorem handle_GenericTypeInstSig_mono {σ : Type} (h : signature_handler σ) (db : database)
    (fuel fuel2 : Nat) (hle : fuel ≤ fuel2) (type : GenericTypeInstSig) (s s2 : σ)
    (hr : handle_GenericTypeInstSig h db fuel type s = .ok s2) :
    handle_GenericTypeInstSig h db fuel2 type s = .ok s2 := by
  induction hle with
  | refl => exact hr
  | step _ ih => exact handle_GenericTypeInstSig_succ h db _ type s s2 ih

theorem handle_coded_index_mono {σ : Type} (h : signature_handler σ) (db : database)
    (fuel fuel2 : Nat) (hle : fuel ≤ fuel2) (type : TypeDefOrRef) (s s2 : σ)
    (hr : handle_coded_index h db fuel type s = .ok s2) :
    handle_coded_index h db fuel2 type s = .ok s2 :=
  handle_coded_index_with_mono h db _ _
    (fun t s s2 => handle_GenericTypeInstSig_mono h db fuel fuel2 hle t s s2) type s s2 hr

theorem handle_TypeSig_mono {σ : Type} (h : signature_handler σ) (db : database)
    (fuel fuel2 : Nat) (hle : fuel ≤ fuel2) (signature : TypeSig) (s s2 : σ)
    (hr : handle_TypeSig h db fuel signature s = .ok s2) :
    handle_TypeSig h db fuel2 signature s = .ok s2 :=
  handle_TypeSig_with_mono h db _ _
    (fun t s s2 => handle_GenericTypeInstSig_mono h db fuel fuel2 hle t s s2) signature s s2 hr

/-! ## Signature handler: the recording handler appends events -/

theorem appends_events_single (f : List handler_event → Res (List handler_event))
    (e : handler_event) (hf : ∀ s, f s = .ok (s ++ [e])) : appends_events f := by
  intro s s2 hs
  rw [hf] at hs
  cases hs
  exact ⟨[e], rfl, hf⟩

theorem appends_events_bind (f g : List handler_event → Res (List handler_event))
    (hf : appends_events f) (hg : appends_events g) :
    appends_events (fun s => (f s).bind g) := by
  intro s s2 hs
  obtain ⟨s1, h1, h2⟩ := (Res.bind_eq_ok _ _ _).mp hs
  obtain ⟨e1, rfl, hf2⟩ := hf s s1 h1
  obtain ⟨e2, rfl, hg2⟩ := hg _ s2 h2
  refine ⟨e1 ++ e2, by simp, fun s0 => ?_⟩
  simp only [hf2 s0, Res.bind, hg2, List.append_assoc]

theorem appends_events_fail (f : List handler_event → Res (List handler_event))
    (hf : ∀ s s2, f s ≠ .ok s2) : appends_events f :=
  fun s s2 hs => absurd hs (hf s s2)

theorem handle_TypeDef_recording (db : database) (type : TypeDef) :
    ∃ e, (∀ s, handle_TypeDef recording_handler db type s = .ok (s ++ [e])) ∧
      e ≠ .handle_start_generic ∧ e ≠ .handle_end_generic := by
  simp only [handle_TypeDef]
  cases db.get_category type
  · exact ⟨.handle_interface type, fun s => rfl, by simp, by simp⟩
  · exact ⟨.handle_class type, fun s => rfl, by simp, by simp⟩
  · simp only [handle_enum]
    split_ifs
    · exact ⟨.handle_ElementType .U4, fun s => rfl, by simp, by simp⟩
    · exact ⟨.handle_ElementType .I4, fun s => rfl, by simp, by simp⟩
  · exact ⟨.handle_struct type, fun s => rfl, by simp, by simp⟩
  · exact ⟨.handle_delegate type, fun s => rfl, by simp, by simp⟩

theorem handle_TypeRef_recording (db : database) (type : TypeRef) :
    (∀ s s2, handle_TypeRef recording_handler db type s ≠ .ok s2) ∨
    ∃ e, (∀ s, handle_TypeRef recording_handler db type s = .ok (s ++ [e])) ∧
      e ≠ .handle_start_generic ∧ e ≠ .handle_end_generic := by
  simp only [handle_TypeRef]
  split_ifs
  · exact Or.inr ⟨.handle_guid type, fun s => rfl, by simp, by simp⟩
  · cases db.find_required type with
    | none => exact Or.inl (fun s s2 h => by cases h)
    | some d => exact Or.inr (handle_TypeDef_recording db d)

theorem handle_coded_index_with_appends (db : database)
    (f : GenericTypeInstSig → List handler_event → Res (List handler_event))
    (hf : ∀ t, appends_events (f t)) (type : TypeDefOrRef) :
    appends_events (handle_coded_index_with recording_handler db f type) := by
  cases type with
  | TypeDef row =>
    obtain ⟨e, he, _⟩ := handle_TypeDef_recording db row
    exact appends_events_single _ e he
  | TypeRef row =>
    rcases handle_TypeRef_recording db row with h | ⟨e, he, _⟩
    · exact appends_events_fail _ h
    · exact appends_events_single _ e he
  | TypeSpec row =>
    intro s s2 hs
    simp only [handle_coded_index_with] at hs
    cases hrow : db.TypeSpec_table[row]? with
    | none => rw [hrow] at hs; cases hs
    | some signature =>
      rw [hrow] at hs
      obtain ⟨events, he, hall⟩ := hf signature s s2 hs
      refine ⟨events, he, fun s0 => ?_⟩
      simp only [handle_coded_index_with, hrow]
      exact hall s0

theorem handle_TypeSig_with_appends (db : database)
    (f : GenericTypeInstSig → List handler_event → Res (List handler_event))
    (hf : ∀ t, appends_events (f t)) (signature : TypeSig) :
    appends_events (handle_TypeSig_with recording_handler db f signature) := by
  cases signature with
  | ElementType a t => exact appends_events_single _ (.handle_ElementType t) (fun s => rfl)
  | TypeDefOrRef a t => exact handle_coded_index_with_appends db f hf t
  | GenericTypeIndex a i =>
    exact appends_events_single _ (.handle_GenericTypeIndex i) (fun s => rfl)
  | GenericTypeInstSig a g args => exact hf _

theorem handle_GenericArgs_appends (g : TypeSig → List handler_event → Res (List handler_event))
    (hg : ∀ a, appends_events (g a)) (args : List TypeSig) :
    appends_events (handle_GenericArgs g args) := by
  induction args with
  | nil =>
    intro s s2 hs
    simp only [handle_GenericArgs, Res.ok.injEq] at hs
    subst hs
    exact ⟨[], by simp, fun s0 => by simp [handle_GenericArgs]⟩
  | cons a rest ih => exact appends_events_bind _ _ (hg a) ih

theorem handle_GenericTypeInstSig_appends (db : database) :
    ∀ fuel (type : GenericTypeInstSig),
      appends_events (handle_GenericTypeInstSig recording_handler db fuel type) := by
  intro fuel
  induction fuel with
  | zero => intro type; exact appends_events_fail _ (fun s s2 h => by cases h)
  | succ n ih =>
    intro type
    have h1 := handle_coded_index_with_appends db _ ih type.GenericType
    have h2 : appends_events recording_handler.call_start_generic :=
      appends_events_single _ .handle_start_generic (fun s => rfl)
    have h3 := handle_GenericArgs_appends _
      (fun a => handle_TypeSig_with_appends db _ ih a) type.GenericArgs
    have h4 : appends_events recording_handler.call_end_generic :=
      appends_events_single _ .handle_end_generic (fun s => rfl)
    exact appends_events_bind _ _ h1 (appends_events_bind _ _ h2 (appends_events_bind _ _ h3 h4))

theorem handle_TypeSig_appends (db : database) (fuel : Nat) (signature : TypeSig) :
    appends_events (handle_TypeSig recording_handler db fuel signature) :=
  handle_TypeSig_with_appends db _ (handle_GenericTypeInstSig_appends db fuel) signature

theorem handle_coded_index_appends (db : database) (fuel : Nat) (type : TypeDefOrRef) :
    appends_events (handle_coded_index recording_handler db fuel type) :=
  handle_coded_index_with_appends db _ (handle_GenericTypeInstSig_appends db fuel) type

/-! ## Signature handler: events of a generic instantiation -/

theorem handle_GenericArgs_split (g : TypeSig → List handler_event → Res (List handler_event))
    (hg : ∀ a, appends_events (g a)) (args : List TypeSig) :
    ∀ s s2, handle_GenericArgs g args s = .ok s2 →
      ∃ eas, List.Forall₂ (fun a ea => ∀ s0, g a s0 = .ok (s0 ++ ea)) args eas ∧
        s2 = s ++ eas.flatten := by
  induction args with
  | nil =>
    intro s s2 hs
    simp only [handle_GenericArgs, Res.ok.injEq] at hs
    subst hs
    exact ⟨[], List.Forall₂.nil, by simp⟩
  | cons a rest ih =>
    intro s s2 hs
    simp only [handle_GenericArgs] at hs
    obtain ⟨s1, h1, h2⟩ := (Res.bind_eq_ok _ _ _).mp hs
    obtain ⟨ea, rfl, hea⟩ := hg a s s1 h1
    obtain ⟨eas, hall, rfl⟩ := ih _ _ h2
    exact ⟨ea :: eas, List.Forall₂.cons hea hall, by simp⟩

theorem handle_GenericArgs_join (g : TypeSig → List handler_event → Res (List handler_event))
    (args : List TypeSig) (eas : List (List handler_event))
    (h : List.Forall₂ (fun a ea => ∀ s0, g a s0 = .ok (s0 ++ ea)) args eas) :
    ∀ s, handle_GenericArgs g args s = .ok (s ++ eas.flatten) := by
  induction h with
  | nil => intro s; simp [handle_GenericArgs]
  | cons hea _ ih =>
    intro s
    simp only [handle_GenericArgs, hea s, Res.bind, ih, List.flatten_cons, List.append_assoc]

theorem events_of_TypeSig_common (db : database) (args : List TypeSig)
    (eas : List (List handler_event)) (h : List.Forall₂ (events_of_TypeSig db) args eas) :
    ∃ fuel, List.Forall₂
      (fun a ea => ∀ s0, handle_TypeSig recording_handler db fuel a s0 = .ok (s0 ++ ea))
      args eas := by
  induction h with
  | nil => exact ⟨0, List.Forall₂.nil⟩
  | @cons a ea rest eas hea _ ih =>
    obtain ⟨n1, hn1⟩ := hea
    obtain ⟨n2, hn2⟩ := ih
    refine ⟨max n1 n2, List.Forall₂.cons ?_ ?_⟩
    · have hm := handle_TypeSig_mono recording_handler db n1 (max n1 n2) (le_max_left _ _)
        a [] ea hn1
      obtain ⟨events, he, hall⟩ := handle_TypeSig_appends db (max n1 n2) a [] ea hm
      simp only [List.nil_append] at he
      subst he
      exact hall
    · refine List.Forall₂.imp ?_ hn2
      intro b eb hb s0
      exact handle_TypeSig_mono recording_handler db n2 (max n1 n2) (le_max_right _ _)
        b s0 _ (hb s0)

theorem events_of_GenericTypeInstSig_iff (db : database) (type : GenericTypeInstSig)
    (events : List handler_event) :
    events_of_GenericTypeInstSig db type events ↔
      ∃ generic_type_events argument_events,
        events_of_coded_index db type.GenericType generic_type_events ∧
        List.Forall₂ (events_of_TypeSig db) type.GenericArgs argument_events ∧
        events = generic_type_events ++ [.handle_start_generic] ++ argument_events.flatten ++
          [.handle_end_generic] := by
  constructor
  · rintro ⟨fuel, hf⟩
    cases fuel with
    | zero => cases hf
    | succ n =>
      rw [handle_GenericTypeInstSig] at hf
      obtain ⟨s1, h1, h2⟩ := (Res.bind_eq_ok _ _ _).mp hf
      obtain ⟨s3, h3, h4⟩ := (Res.bind_eq_ok _ _ _).mp h2
      obtain ⟨s5, h5, h6⟩ := (Res.bind_eq_ok _ _ _).mp h4
      have h3b : s3 = s1 ++ [.handle_start_generic] := by
        have : recording_handler.call_start_generic s1
            = .ok (s1 ++ [.handle_start_generic]) := rfl
        rw [this] at h3
        cases h3; rfl
      have h6b : events = s5 ++ [.handle_end_generic] := by
        have : recording_handler.call_end_generic s5
            = .ok (s5 ++ [.handle_end_generic]) := rfl
        rw [this] at h6
        cases h6; rfl
      obtain ⟨eas, hall, hs5⟩ := handle_GenericArgs_split _
        (fun a => handle_TypeSig_with_appends db _ (handle_GenericTypeInstSig_appends db n) a)
        type.GenericArgs s3 s5 h5
      refine ⟨s1, eas, ⟨n, h1⟩, ?_, ?_⟩
      · refine List.Forall₂.imp ?_ hall
        intro a ea hea
        exact ⟨n, by simpa using hea []⟩
      · rw [h6b, hs5, h3b]
  · rintro ⟨eg, eas, ⟨n1, hg⟩, hargs, rfl⟩
    obtain ⟨n2, hn2⟩ := events_of_TypeSig_common db _ _ hargs
    refine ⟨max n1 n2 + 1, ?_⟩
    have hg2 := handle_coded_index_mono recording_handler db n1 (max n1 n2) (le_max_left _ _)
      _ _ _ hg
    have hargs2 : List.Forall₂
        (fun a ea => ∀ s0,
          handle_TypeSig_with recording_handler db
            (handle_GenericTypeInstSig recording_handler db (max n1 n2)) a s0 = .ok (s0 ++ ea))
        type.GenericArgs eas := by
      refine List.Forall₂.imp ?_ hn2
      intro b eb hb s0
      exact handle_TypeSig_mono recording_handler db n2 (max n1 n2) (le_max_right _ _)
        b s0 _ (hb s0)
    rw [handle_GenericTypeInstSig]
    have hstart : recording_handler.call_start_generic eg
        = .ok (eg ++ [handler_event.handle_start_generic]) := rfl
    have hend : recording_handler.call_end_generic
        (eg ++ [handler_event.handle_start_generic] ++ eas.flatten)
        = .ok (eg ++ [handler_event.handle_start_generic] ++ eas.flatten
            ++ [handler_event.handle_end_generic]) := rfl
    refine (Res.bind_eq_ok _ _ _).mpr ⟨eg, hg2, (Res.bind_eq_ok _ _ _).mpr
      ⟨eg ++ [handler_event.handle_start_generic], hstart, (Res.bind_eq_ok _ _ _).mpr
        ⟨eg ++ [handler_event.handle_start_generic] ++ eas.flatten,
          handle_GenericArgs_join _ _ _ hargs2 _, hend⟩⟩⟩

theorem events_of_GenericTypeInstSig_unique (db : database) (type : GenericTypeInstSig)
    (e1 e2 : List handler_event) (h1 : events_of_GenericTypeInstSig db type e1)
    (h2 : events_of_GenericTypeInstSig db type e2) : e1 = e2 := by
  obtain ⟨n1, hn1⟩ := h1
  obtain ⟨n2, hn2⟩ := h2
  have a := handle_GenericTypeInstSig_mono recording_handler db n1 (max n1 n2)
    (le_max_left _ _) type [] e1 hn1
  have b := handle_GenericTypeInstSig_mono recording_handler db n2 (max n1 n2)
    (le_max_right _ _) type [] e2 hn2
  rw [a] at b
  cases b
  rfl

/-! ## Signature handler: balance and depth of the generic brackets -/

theorem generic_balance_append (a b : List handler_event) :
    ∀ depth, generic_balance (a ++ b) depth
      = (generic_balance a depth).bind (generic_balance b) := by
  induction a with
  | nil => intro depth; simp [generic_balance]
  | cons e rest ih =>
    intro depth
    rw [List.cons_append]
    cases e
    case handle_start_generic => exact ih _
    case handle_end_generic =>
      cases depth with
      | zero => rfl
      | succ d => exact ih _
    all_goals exact ih _

theorem le_generic_depth (events : List handler_event) :
    ∀ depth, depth ≤ generic_depth events depth := by
  induction events with
  | nil => intro depth; simp [generic_depth]
  | cons e rest ih =>
    intro depth
    cases e
    case handle_start_generic => exact le_max_left _ _
    case handle_end_generic => exact le_max_left _ _
    all_goals exact ih _

theorem generic_depth_append (a b : List handler_event) :
    ∀ depth depth2, generic_balance a depth = some depth2 →
      generic_depth (a ++ b) depth = max (generic_depth a depth) (generic_depth b depth2) := by
  induction a with
  | nil =>
    intro depth depth2 h
    simp only [generic_balance, Option.some.injEq] at h
    subst h
    simp only [List.nil_append, generic_depth]
    exact (max_eq_right (le_generic_depth b depth)).symm
  | cons e rest ih =>
    intro depth depth2 h
    rw [List.cons_append]
    cases e
    case handle_start_generic =>
      have h2 : generic_balance rest (depth + 1) = some depth2 := h
      show max depth (generic_depth (rest ++ b) (depth + 1))
        = max (max depth (generic_depth rest (depth + 1))) (generic_depth b depth2)
      rw [ih _ _ h2, max_assoc]
    case handle_end_generic =>
      cases depth with
      | zero => cases h
      | succ d =>
        have h2 : generic_balance rest d = some depth2 := h
        show max (d + 1) (generic_depth (rest ++ b) (d + 1 - 1))
          = max (max (d + 1) (generic_depth rest (d + 1 - 1))) (generic_depth b depth2)
        rw [Nat.add_sub_cancel, ih _ _ h2, max_assoc]
    all_goals exact ih _ _ h

theorem nested_to_nil : nested_to [] 0 :=
  ⟨fun _ => rfl, fun _ => rfl⟩

theorem nested_to_single (e : handler_event) (h1 : e ≠ .handle_start_generic)
    (h2 : e ≠ .handle_end_generic) : nested_to [e] 0 := by
  cases e <;> first
    | exact absurd rfl h1
    | exact absurd rfl h2
    | exact ⟨fun _ => rfl, fun _ => rfl⟩

theorem nested_to_append (a b : List handler_event) (k1 k2 : Nat) (ha : nested_to a k1)
    (hb : nested_to b k2) : nested_to (a ++ b) (max k1 k2) := by
  refine ⟨fun depth => ?_, fun depth => ?_⟩
  · rw [generic_balance_append, ha.1 depth]
    exact hb.1 depth
  · rw [generic_depth_append a b depth depth (ha.1 depth), ha.2, hb.2]
    omega

theorem nested_to_bracket (inner : List handler_event) (k : Nat) (h : nested_to inner k) :
    nested_to (handler_event.handle_start_generic :: (inner ++
      [handler_event.handle_end_generic])) (k + 1) := by
  refine ⟨fun depth => ?_, fun depth => ?_⟩
  · show generic_balance (inner ++ [handler_event.handle_end_generic]) (depth + 1) = some depth
    rw [generic_balance_append, h.1 (depth + 1)]
    rfl
  · show max depth (generic_depth (inner ++ [handler_event.handle_end_generic]) (depth + 1))
      = depth + (k + 1)
    rw [generic_depth_append inner _ (depth + 1) (depth + 1) (h.1 (depth + 1)), h.2]
    have : generic_depth [handler_event.handle_end_generic] (depth + 1)
        = max (depth + 1) (depth + 1 - 1) := rfl
    rw [this]
    omega

theorem nested_to_unique (events : List handler_event) (k1 k2 : Nat) (h1 : nested_to events k1)
    (h2 : nested_to events k2) : k1 = k2 := by
  have a := h1.2 0
  have b := h2.2 0
  omega

/-! ## Signature handler: nesting depth of the instantiations -/

theorem nesting_coded_index_with_mono (db : database)
    (f g : GenericTypeInstSig → Option Nat) (hfg : ∀ t k, f t = some k → g t = some k)
    (type : TypeDefOrRef) (k : Nat) (h : nesting_coded_index_with db f type = some k) :
    nesting_coded_index_with db g type = some k := by
  cases type with
  | TypeDef row => exact h
  | TypeRef row => exact h
  | TypeSpec row =>
    simp only [nesting_coded_index_with] at h ⊢
    cases hrow : db.TypeSpec_table[row]? with
    | none => rw [hrow] at h; cases h
    | some signature =>
      rw [hrow] at h
      exact hfg _ _ h

theorem nesting_TypeSig_with_mono (db : database)
    (f g : GenericTypeInstSig → Option Nat) (hfg : ∀ t k, f t = some k → g t = some k)
    (signature : TypeSig) (k : Nat) (h : nesting_TypeSig_with db f signature = some k) :
    nesting_TypeSig_with db g signature = some k := by
  cases signature with
  | ElementType a t => exact h
  | TypeDefOrRef a t => exact nesting_coded_index_with_mono db f g hfg t k h
  | GenericTypeIndex a i => exact h
  | GenericTypeInstSig a generic_type args => exact hfg _ _ h

theorem nesting_GenericArgs_mono (f g : TypeSig → Option Nat)
    (hfg : ∀ t k, f t = some k → g t = some k) (args : List TypeSig) :
    ∀ k, nesting_GenericArgs f args = some k → nesting_GenericArgs g args = some k := by
  induction args with
  | nil => intro k h; exact h
  | cons a rest ih =>
    intro k h
    simp only [nesting_GenericArgs] at h ⊢
    cases ha : f a with
    | none => rw [ha] at h; cases h
    | some x =>
      cases hr : nesting_GenericArgs f rest with
      | none => rw [ha, hr] at h; cases h
      | some y =>
        rw [ha, hr] at h
        rw [hfg _ _ ha, ih _ hr]
        exact h

theorem nesting_GenericTypeInstSig_succ (db : database) :
    ∀ fuel type k, nesting_GenericTypeInstSig db fuel type = some k →
      nesting_GenericTypeInstSig db (fuel + 1) type = some k := by
  intro fuel
  induction fuel with
  | zero => intro type k h; cases h
  | succ n ih =>
    intro type k h
    rw [nesting_GenericTypeInstSig] at h ⊢
    beta_reduce at h ⊢
    cases hg : nesting_coded_index_with db (nesting_GenericTypeInstSig db n) type.GenericType with
    | none => rw [hg] at h; cases h
    | some x =>
      cases ha : nesting_GenericArgs
          (nesting_TypeSig_with db (nesting_GenericTypeInstSig db n)) type.GenericArgs with
      | none => rw [hg, ha] at h; cases h
      | some y =>
        rw [hg, ha] at h
        rw [nesting_coded_index_with_mono db _ _ ih _ _ hg,
          nesting_GenericArgs_mono _ _
            (fun t k => nesting_TypeSig_with_mono db _ _ ih t k) _ _ ha]
        exact h

theorem nesting_GenericTypeInstSig_mono (db : database) (fuel fuel2 : Nat) (hle : fuel ≤ fuel2)
    (type : GenericTypeInstSig) (k : Nat) (h : nesting_GenericTypeInstSig db fuel type = some k) :
    nesting_GenericTypeInstSig db fuel2 type = some k := by
  induction hle with
  | refl => exact h
  | step _ ih => exact nesting_GenericTypeInstSig_succ db _ _ _ ih

theorem nesting_TypeSig_mono (db : database) (fuel fuel2 : Nat) (hle : fuel ≤ fuel2)
    (signature : TypeSig) (k : Nat) (h : nesting_TypeSig db fuel signature = some k) :
    nesting_TypeSig db fuel2 signature = some k :=
  nesting_TypeSig_with_mono db _ _
    (fun t k => nesting_GenericTypeInstSig_mono db fuel fuel2 hle t k) signature k h

theorem handle_coded_index_with_nested (db : database)
    (f : GenericTypeInstSig → List handler_event → Res (List handler_event))
    (nesting : GenericTypeInstSig → Option Nat)
    (hf : ∀ t s s2, f t s = .ok s2 →
      ∃ events k, s2 = s ++ events ∧ nesting t = some k ∧ nested_to events k)
    (type : TypeDefOrRef) (s s2 : List handler_event)
    (hs : handle_coded_index_with recording_handler db f type s = .ok s2) :
    ∃ events k, s2 = s ++ events ∧ nesting_coded_index_with db nesting type = some k ∧
      nested_to events k := by
  cases type with
  | TypeDef row =>
    obtain ⟨e, he, h1, h2⟩ := handle_TypeDef_recording db row
    simp only [handle_coded_index_with, he s, Res.ok.injEq] at hs
    exact ⟨[e], 0, hs.symm, rfl, nested_to_single e h1 h2⟩
  | TypeRef row =>
    rcases handle_TypeRef_recording db row with h | ⟨e, he, h1, h2⟩
    · exact absurd hs (h s s2)
    · simp only [handle_coded_index_with, he s, Res.ok.injEq] at hs
      exact ⟨[e], 0, hs.symm, rfl, nested_to_single e h1 h2⟩
  | TypeSpec row =>
    simp only [handle_coded_index_with] at hs
    simp only [nesting_coded_index_with]
    cases hrow : db.TypeSpec_table[row]? with
    | none => rw [hrow] at hs; cases hs
    | some signature =>
      rw [hrow] at hs
      exact hf signature s s2 hs

theorem handle_TypeSig_with_nested (db : database)
    (f : GenericTypeInstSig → List handler_event → Res (List handler_event))
    (nesting : GenericTypeInstSig → Option Nat)
    (hf : ∀ t s s2, f t s = .ok s2 →
      ∃ events k, s2 = s ++ events ∧ nesting t = some k ∧ nested_to events k)
    (signature : TypeSig) (s s2 : List handler_event)
    (hs : handle_TypeSig_with recording_handler db f signature s = .ok s2) :
    ∃ events k, s2 = s ++ events ∧ nesting_TypeSig_with db nesting signature = some k ∧
      nested_to events k := by
  cases signature with
  | ElementType a t =>
    have : handle_TypeSig_with recording_handler db f (.ElementType a t) s
        = .ok (s ++ [.handle_ElementType t]) := rfl
    rw [this] at hs
    cases hs
    exact ⟨_, 0, rfl, rfl, nested_to_single _ (by simp) (by simp)⟩
  | TypeDefOrRef a t => exact handle_coded_index_with_nested db f nesting hf t s s2 hs
  | GenericTypeIndex a i =>
    have : handle_TypeSig_with recording_handler db f (.GenericTypeIndex a i) s
        = .ok (s ++ [.handle_GenericTypeIndex i]) := rfl
    rw [this] at hs
    cases hs
    exact ⟨_, 0, rfl, rfl, nested_to_single _ (by simp) (by simp)⟩
  | GenericTypeInstSig a generic_type args => exact hf _ s s2 hs

theorem handle_GenericArgs_nested
    (g : TypeSig → List handler_event → Res (List handler_event))
    (nesting : TypeSig → Option Nat)
    (hg : ∀ t s s2, g t s = .ok s2 →
      ∃ events k, s2 = s ++ events ∧ nesting t = some k ∧ nested_to events k)
    (args : List TypeSig) :
    ∀ s s2, handle_GenericArgs g args s = .ok s2 →
      ∃ events k, s2 = s ++ events ∧ nesting_GenericArgs nesting args = some k ∧
        nested_to events k := by
  induction args with
  | nil =>
    intro s s2 hs
    simp only [handle_GenericArgs, Res.ok.injEq] at hs
    exact ⟨[], 0, by simp [hs], rfl, nested_to_nil⟩
  | cons a rest ih =>
    intro s s2 hs
    simp only [handle_GenericArgs] at hs
    obtain ⟨s1, h1, h2⟩ := (Res.bind_eq_ok _ _ _).mp hs
    obtain ⟨e1, k1, rfl, hk1, hn1⟩ := hg a s s1 h1
    obtain ⟨e2, k2, rfl, hk2, hn2⟩ := ih _ _ h2
    refine ⟨e1 ++ e2, max k1 k2, by simp, ?_, nested_to_append _ _ _ _ hn1 hn2⟩
    simp only [nesting_GenericArgs, hk1, hk2]

theorem handle_GenericTypeInstSig_nested (db : database) :
    ∀ fuel type s s2, handle_GenericTypeInstSig recording_handler db fuel type s = .ok s2 →
      ∃ events k, s2 = s ++ events ∧ nesting_GenericTypeInstSig db fuel type = some k ∧
        nested_to events k := by
  intro fuel
  induction fuel with
  | zero => intro type s s2 hs; cases hs
  | succ n ih =>
    intro type s s2 hs
    rw [handle_GenericTypeInstSig] at hs
    obtain ⟨s1, h1, h2⟩ := (Res.bind_eq_ok _ _ _).mp hs
    obtain ⟨s3, h3, h4⟩ := (Res.bind_eq_ok _ _ _).mp h2
    obtain ⟨s5, h5, h6⟩ := (Res.bind_eq_ok _ _ _).mp h4
    have h3b : s3 = s1 ++ [.handle_start_generic] := by
      have : recording_handler.call_start_generic s1
          = .ok (s1 ++ [.handle_start_generic]) := rfl
      rw [this] at h3
      cases h3; rfl
    have h6b : s2 = s5 ++ [.handle_end_generic] := by
      have : recording_handler.call_end_generic s5
          = .ok (s5 ++ [.handle_end_generic]) := rfl
      rw [this] at h6
      cases h6; rfl
    obtain ⟨eg, kg, rfl, hkg, hng⟩ :=
      handle_coded_index_with_nested db _ _ ih type.GenericType s s1 h1
    obtain ⟨ea, ka, rfl, hka, hna⟩ :=
      handle_GenericArgs_nested _ _
        (fun t => handle_TypeSig_with_nested db _ _ ih t) type.GenericArgs s3 s5 h5
    refine ⟨eg ++ (handler_event.handle_start_generic :: (ea ++
      [handler_event.handle_end_generic])), max kg (ka + 1), ?_, ?_,
      nested_to_append _ _ _ _ hng (nested_to_bracket ea ka hna)⟩
    · rw [h6b, h3b]; simp
    · rw [nesting_GenericTypeInstSig]
      beta_reduce
      rw [hkg, hka]

theorem handle_TypeSig_nested (db : database) (fuel : Nat) (signature : TypeSig)
    (s s2 : List handler_event)
    (hs : handle_TypeSig recording_handler db fuel signature s = .ok s2) :
    ∃ events k, s2 = s ++ events ∧ nesting_TypeSig db fuel signature = some k ∧
      nested_to events k :=
  handle_TypeSig_with_nested db _ _ (handle_GenericTypeInstSig_nested db fuel) signature s s2 hs

/-! ## Signature handler: claims -/

theorem events_of_TypeSig_unique (db : database) (signature : TypeSig)
    (e1 e2 : List handler_event) (h1 : events_of_TypeSig db signature e1)
    (h2 : events_of_TypeSig db signature e2) : e1 = e2 := by
  obtain ⟨n1, hn1⟩ := h1
  obtain ⟨n2, hn2⟩ := h2
  have a := handle_TypeSig_mono recording_handler db n1 (max n1 n2)
    (le_max_left _ _) signature [] e1 hn1
  have b := handle_TypeSig_mono recording_handler db n2 (max n1 n2)
    (le_max_right _ _) signature [] e2 hn2
  rw [a] at b
  cases b
  rfl

theorem events_of_TypeSig_nested (db : database) (signature : TypeSig)
    (events : List handler_event) (h : events_of_TypeSig db signature events) :
    ∃ fuel k, nesting_TypeSig db fuel signature = some k ∧ nested_to events k := by
  obtain ⟨fuel, hf⟩ := h
  obtain ⟨evs, k, he, hk, hn⟩ := handle_TypeSig_nested db fuel signature [] events hf
  simp only [List.nil_append] at he
  subst he
  exact ⟨fuel, k, hk, hn⟩

/-- C16 (generic-instantiation bracketing): the events of a generic
instantiation are exactly the events of its generic type, one start-generic
event, the events of its arguments in argument order, and one end-generic
event; the events of a signature are unique; and in the events of any type
signature the start-generic and end-generic events are balanced (the running
depth comes back to zero), properly nested (no end-generic event arrives
when no level is open, which is what `generic_balance` refuses), and the
greatest running depth is the nesting depth of the generic instantiations,
at every bound at which that depth is defined. -/
theorem generic_instantiation_bracketing (db : database) :
    (∀ type events, events_of_GenericTypeInstSig db type events ↔
      ∃ generic_type_events argument_events,
        events_of_coded_index db type.GenericType generic_type_events ∧
        List.Forall₂ (events_of_TypeSig db) type.GenericArgs argument_events ∧
        events = generic_type_events ++ [.handle_start_generic] ++ argument_events.flatten ++
          [.handle_end_generic]) ∧
    (∀ signature e1 e2, events_of_TypeSig db signature e1 → events_of_TypeSig db signature e2 →
      e1 = e2) ∧
    (∀ signature events, events_of_TypeSig db signature events →
      generic_balance events 0 = some 0 ∧
      (∃ fuel, nesting_TypeSig db fuel signature = some (generic_depth events 0)) ∧
      ∀ fuel k, nesting_TypeSig db fuel signature = some k → k = generic_depth events 0) := by
  refine ⟨events_of_GenericTypeInstSig_iff db, events_of_TypeSig_unique db, ?_⟩
  intro signature events h
  obtain ⟨fuel, k, hk, hn⟩ := events_of_TypeSig_nested db signature events h
  have hd : generic_depth events 0 = k := by rw [hn.2 0, Nat.zero_add]
  refine ⟨hn.1 0, ⟨fuel, by rw [hd]; exact hk⟩, ?_⟩
  intro fuel2 k2 hk2
  have a := nesting_TypeSig_mono db fuel (max fuel fuel2) (le_max_left _ _) signature k hk
  have b := nesting_TypeSig_mono db fuel2 (max fuel fuel2) (le_max_right _ _) signature k2 hk2
  rw [a] at b
  rw [hd]
  exact (Option.some.inj b).symm

/-- The sample instantiation IVector<IVector<Int32>, Guid> produces eight
events with brackets nested two deep, and its nesting depth is two. -/
theorem generic_instantiation_bracketing_witness :
    events_of_GenericTypeInstSig handler_db sample_inst
      [.handle_interface 3, .handle_start_generic,
        .handle_interface 3, .handle_start_generic, .handle_ElementType .I4,
        .handle_end_generic,
        .handle_guid 0, .handle_end_generic] ∧
    generic_balance
      [.handle_interface 3, .handle_start_generic,
        .handle_interface 3, .handle_start_generic, .handle_ElementType .I4,
        .handle_end_generic,
        .handle_guid 0, .handle_end_generic] 0 = some 0 ∧
    nesting_TypeSig handler_db 2
      (.GenericTypeInstSig false sample_inst.GenericType sample_inst.GenericArgs) = some 2 :=
  have hev : events_of_TypeSig handler_db
      (.GenericTypeInstSig false sample_inst.GenericType sample_inst.GenericArgs)
      [.handle_interface 3, .handle_start_generic,
        .handle_interface 3, .handle_start_generic, .handle_ElementType .I4,
        .handle_end_generic,
        .handle_guid 0, .handle_end_generic] := ⟨2, by decide⟩
  ⟨⟨2, by decide⟩,
    ((generic_instantiation_bracketing handler_db).2.2 _ _ hev).1,
    by decide⟩

/-! ## Termination of the closure: the graph reached from the type -/

theorem acyclic_from_of_acyclic (db : database) (type : TypeDef) (h : acyclic db) :
    acyclic_from db type :=
  fun d _ => h d

theorem acyclic_from_acc (db : database) (type : TypeDef) (h : acyclic_from db type) :
    ∀ d, Relation.ReflTransGen (implements db) type d →
      Acc (fun d2 d => implements db d d2) d := by
  let r : Fin db.TypeDef_table.length → Fin db.TypeDef_table.length → Prop :=
    fun a b => Relation.TransGen (implements db) b.1 a.1 ∧
      Relation.ReflTransGen (implements db) type b.1
  haveI : IsTrans _ r := ⟨fun a b c hab hbc => ⟨Relation.TransGen.trans hbc.1 hab.1, hbc.2⟩⟩
  haveI : IsIrrefl _ r := ⟨fun a ha => h a.1 ha.2 ha.1⟩
  have hwf : WellFounded r := Finite.wellFounded_of_trans_of_irrefl r
  have hacc : ∀ a : Fin db.TypeDef_table.length,
      Relation.ReflTransGen (implements db) type a.1 →
        Acc (fun d2 d => implements db d d2) a.1 := by
    intro a
    induction a using hwf.induction with
    | _ a ih =>
      intro ha
      refine Acc.intro _ (fun d2 hd2 => ?_)
      by_cases hlt : d2 < db.TypeDef_table.length
      · exact ih ⟨d2, hlt⟩ ⟨Relation.TransGen.single hd2, ha⟩ (Relation.ReflTransGen.tail ha hd2)
      · exact Acc.intro _ (fun d3 hd3 => absurd (implements_row db d2 d3 hd3) hlt)
  intro d hd
  by_cases hlt : d < db.TypeDef_table.length
  · exact hacc ⟨d, hlt⟩ hd
  · exact Acc.intro _ (fun d3 hd3 => absurd (implements_row db d d3 hd3) hlt)

theorem get_interfaces_impl_total_list (db : database) :
    ∀ l : List TypeDefOrRef,
      (∀ c ∈ l, ∀ d w w1 g, interface_definition db w c = .ok (d, w1, g) →
        ∃ n, ∀ w r n2, n ≤ n2 →
          get_interfaces_impl db n2 w r (db.InterfaceImpl d) ≠ .diverge) →
      ∃ n, ∀ w r n2, n ≤ n2 → get_interfaces_impl db n2 w r l ≠ .diverge := by
  intro l
  induction l with
  | nil =>
    intro _
    refine ⟨0, fun w r n2 _ => ?_⟩
    cases n2 <;> simp [get_interfaces_impl, get_interfaces_loop]
  | cons c rest ih =>
    intro hl
    obtain ⟨n1, hn1⟩ := ih (fun c2 hc2 => hl c2 (List.mem_cons_of_mem _ hc2))
    have hn2 : ∃ n2, ∀ d w w1 g, interface_definition db w c = .ok (d, w1, g) →
        ∀ w r n3, n2 ≤ n3 →
          get_interfaces_impl db n3 w r (db.InterfaceImpl d) ≠ .diverge := by
      by_cases hex : ∃ d w w1 g, interface_definition db w c = .ok (d, w1, g)
      · obtain ⟨d0, v, v1, g0, h0⟩ := hex
        obtain ⟨n2, h2⟩ := hl c (List.mem_cons_self _ _) d0 v v1 g0 h0
        refine ⟨n2, fun d w w1 g hd => ?_⟩
        obtain ⟨v2, g2, h3⟩ := interface_definition_writer db w w1 v c d g hd
        rw [h0] at h3
        cases h3
        exact h2
      · exact ⟨0, fun d w w1 g hd => absurd ⟨d, w, w1, g, hd⟩ hex⟩
    obtain ⟨n2, hn2⟩ := hn2
    refine ⟨max n1 (n2 + 1), fun w r n3 hle => ?_⟩
    obtain ⟨m, hm, hm1, hm2⟩ : ∃ m, n3 = m + 1 ∧ n1 ≤ m + 1 ∧ n2 ≤ m :=
      ⟨n3 - 1, by omega, by omega, by omega⟩
    subst hm
    have hrest : ∀ w3 r3, get_interfaces_loop db (get_interfaces_impl db m) w3 r3 rest
        ≠ .diverge := fun w3 r3 => hn1 w3 r3 (m + 1) hm1
    simp only [get_interfaces_impl, get_interfaces_loop]
    split
    · exact hrest _ _
    · split
      · rename_i d w1 g hd
        have hkid := hn2 d w w1 g hd w1 r m hm2
        split
        · exact hrest _ _
        · simp
        · simp
        · rename_i hdiv
          exact absurd hdiv hkid
      · simp
      · simp
      · rename_i hdiv
        exfalso
        unfold interface_definition at hdiv
        split at hdiv
        · cases hdiv
        · split at hdiv <;> cases hdiv
        · split at hdiv
          · cases hdiv
          · split at hdiv
            · split at hdiv <;> cases hdiv
            · cases hdiv

theorem get_interfaces_impl_total (db : database) (type : TypeDef)
    (hac : acyclic_from db type) :
    ∀ d, Relation.ReflTransGen (implements db) type d →
      ∃ n, ∀ w r n2, n ≤ n2 →
        get_interfaces_impl db n2 w r (db.InterfaceImpl d) ≠ .diverge := by
  intro d hd
  have hacc := acyclic_from_acc db type hac d hd
  induction hacc with
  | intro d _ ih =>
    apply get_interfaces_impl_total_list db
    intro c hc d2 w w1 g hdef
    have himp : implements db d d2 := ⟨c, hc, w, w1, g, hdef⟩
    exact ih d2 himp (Relation.ReflTransGen.tail hd himp)

theorem get_interfaces_total (db : database) (w : writer) (type : TypeDef)
    (hac : acyclic_from db type) :
    ∃ n, ∀ n2, n ≤ n2 → get_interfaces db n2 w type ≠ .diverge := by
  obtain ⟨n, hn⟩ := get_interfaces_impl_total db type hac type Relation.ReflTransGen.refl
  exact ⟨n, fun n2 hle => hn w [] n2 hle⟩

/-! ## Termination of the closure: a resolvable run returns or diverges -/

theorem get_interfaces_loop_returns_or_diverges (db : database) (w0 : writer) (type : TypeDef)
    (hres : resolvable db w0 type)
    (recurse : writer → std_map interface_info → List TypeDefOrRef →
      Res (writer × std_map interface_info))
    (hw : ∀ w r l w2 r2, recurse w r l = .ok (w2, r2) → w2 = w)
    (hrec : ∀ w r l, (∀ c ∈ l, reachable db w0 type (w, c)) →
      (∃ x, recurse w r l = .ok x) ∨ recurse w r l = .diverge) :
    ∀ l w r, (∀ c ∈ l, reachable db w0 type (w, c)) →
      (∃ x, get_interfaces_loop db recurse w r l = .ok x) ∨
        get_interfaces_loop db recurse w r l = .diverge := by
  intro l
  induction l with
  | nil => intro w r _; exact Or.inl ⟨(w, r), by simp [get_interfaces_loop]⟩
  | cons c rest ih =>
    intro w r hreach
    have hrest := fun r3 => ih w r3 (fun c2 hc2 => hreach c2 (List.mem_cons_of_mem _ hc2))
    simp only [get_interfaces_loop]
    split
    · exact hrest r
    · obtain ⟨⟨d, w1, g⟩, hd⟩ := hres (w, c) (hreach c (List.mem_cons_self _ _))
      simp only at hd
      simp only [hd]
      have hkids : ∀ c2 ∈ db.InterfaceImpl d, reachable db w0 type (w1, c2) := by
        intro c2 hc2
        exact reachable_step db w0 type (w, c) (w1, c2) (hreach c (List.mem_cons_self _ _))
          ⟨d, g, hd, hc2⟩
      rcases hrec w1 r (db.InterfaceImpl d) hkids with ⟨⟨w2, r2⟩, hx⟩ | hdiv
      · have hw2 := hw _ _ _ _ _ hx
        subst hw2
        simp only [hx, interface_definition_release db w w2 c d g hd]
        exact hrest _
      · simp only [hdiv]
        exact Or.inr trivial

theorem get_interfaces_impl_returns_or_diverges (db : database) (w0 : writer) (type : TypeDef)
    (hres : resolvable db w0 type) :
    ∀ fuel l w r, (∀ c ∈ l, reachable db w0 type (w, c)) →
      (∃ x, get_interfaces_impl db fuel w r l = .ok x) ∨
        get_interfaces_impl db fuel w r l = .diverge := by
  intro fuel
  induction fuel with
  | zero =>
    exact get_interfaces_loop_returns_or_diverges db w0 type hres _
      (fun _ _ _ _ _ h => by cases h) (fun _ _ _ _ => Or.inr rfl)
  | succ n ih =>
    exact get_interfaces_loop_returns_or_diverges db w0 type hres _
      (fun w r l w2 r2 h => get_interfaces_impl_writer db n l w r w2 r2 h)
      (fun w r l h => ih l w r h)

theorem get_interfaces_returns_from (db : database) (w : writer) (type : TypeDef)
    (hac : acyclic_from db type) (hres : resolvable db w type) :
    ∃ n r, ∀ n2, n ≤ n2 → get_interfaces db n2 w type = .ok (w, r) := by
  obtain ⟨n, hn⟩ := get_interfaces_total db w type hac
  have hreach : ∀ c ∈ db.InterfaceImpl type, reachable db w type (w, c) :=
    fun c hc => ⟨c, hc, Relation.ReflTransGen.refl⟩
  rcases get_interfaces_impl_returns_or_diverges db w type hres n _ w [] hreach with
    ⟨⟨w2, r⟩, hx⟩ | hdiv
  · have hw2 := get_interfaces_impl_writer db n _ w [] w2 r hx
    subst hw2
    exact ⟨n, r, fun n2 hle => get_interfaces_impl_mono db n n2 hle _ w2 [] _ hx⟩
  · exact absurd hdiv (hn n le_rfl)

/-! ## Termination of the closure: a cycle is never left -/

theorem reaches_cycle_step (db : database) (d : TypeDef) (h : reaches_cycle db d) :
    ∃ d2, implements db d d2 ∧ reaches_cycle db d2 := by
  obtain ⟨e, hde, hee⟩ := h
  rcases Relation.ReflTransGen.cases_head hde with rfl | ⟨d2, h1, h2⟩
  · obtain ⟨d2, h1, h2⟩ := Relation.TransGen.head'_iff.mp hee
    exact ⟨d2, h1, d, h2, hee⟩
  · exact ⟨d2, h1, e, h2, hee⟩

theorem not_acyclic_from_iff (db : database) (type : TypeDef) :
    ¬ acyclic_from db type ↔ reaches_cycle db type := by
  unfold acyclic_from reaches_cycle
  push_neg
  rfl

theorem get_interfaces_loop_cycle (db : database) (w0 : writer) (type : TypeDef)
    (hcan : canonical db w0 type)
    (recurse : writer → std_map interface_info → List TypeDefOrRef →
      Res (writer × std_map interface_info))
    (hrec : ∀ w r l w2 r2, recurse w r l = .ok (w2, r2) →
      (∀ c ∈ l, reachable db w0 type (w, c)) → cycle_free_keys db w0 type r →
        w2 = w ∧ (∀ c ∈ l, ¬ cyclic_occurrence db (w, c)) ∧ cycle_free_keys db w0 type r2) :
    ∀ l w r w2 r2, get_interfaces_loop db recurse w r l = .ok (w2, r2) →
      (∀ c ∈ l, reachable db w0 type (w, c)) → cycle_free_keys db w0 type r →
        w2 = w ∧ (∀ c ∈ l, ¬ cyclic_occurrence db (w, c)) ∧ cycle_free_keys db w0 type r2 := by
  intro l
  induction l with
  | nil =>
    intro w r w2 r2 h _ hfree
    simp only [get_interfaces_loop, Res.ok.injEq, Prod.mk.injEq] at h
    obtain ⟨rfl, rfl⟩ := h
    exact ⟨rfl, by simp, hfree⟩
  | cons c rest ih =>
    intro w r w2 r2 h hreach hfree
    have hc := hreach c (List.mem_cons_self _ _)
    have hreach2 : ∀ c2 ∈ rest, reachable db w0 type (w, c2) :=
      fun c2 hc2 => hreach c2 (List.mem_cons_of_mem _ hc2)
    simp only [get_interfaces_loop] at h
    split at h
    · rename_i v hfound
      obtain ⟨hw, hno, hfree2⟩ := ih _ _ _ _ h hreach2 hfree
      refine ⟨hw, ?_, hfree2⟩
      intro c2 hc2
      rcases List.mem_cons.mp hc2 with rfl | hc2
      · intro hcyc
        have := hfree (w, c2) hc hcyc
        simp only [canonical_name] at this
        rw [this] at hfound
        cases hfound
      · exact hno c2 hc2
    · split at h
      · rename_i d w1 g hd
        split at h
        · rename_i w3 r3 hr
          have hkids : ∀ c2 ∈ db.InterfaceImpl d, reachable db w0 type (w1, c2) := by
            intro c2 hc2
            exact reachable_step db w0 type (w, c) (w1, c2) hc ⟨d, g, hd, hc2⟩
          obtain ⟨hw3, hno3, hfree3⟩ := hrec _ _ _ _ _ hr hkids hfree
          subst hw3
          have hnoc : ¬ cyclic_occurrence db (w, c) := by
            rintro ⟨d2, v1, g2, hd2, hcyc⟩
            simp only at hd2
            rw [hd] at hd2
            cases hd2
            obtain ⟨d3, ⟨impl, hi, v, v2, g3, hdef⟩, hcyc3⟩ := reaches_cycle_step db d hcyc
            obtain ⟨v3, g4, hdef2⟩ := interface_definition_writer db v v2 w3 impl d3 g3 hdef
            exact hno3 impl hi ⟨d3, v3, g4, hdef2, hcyc3⟩
          have hfree4 : cycle_free_keys db w0 type
              (std_map.assign r3 (db.write_temp w c)
                { type := c, methods := db.MethodList d }) := by
            intro o ho hcyc
            have hne : canonical_name db o ≠ db.write_temp w c := by
              intro heq
              obtain ⟨d2, v1, g2, hd2, hcyc2⟩ := hcyc
              have := (hcan o (w, c) ho hc heq d2 v1 g2 d w3 g hd2 hd).1
              subst this
              exact hnoc ⟨d2, w3, g, hd, hcyc2⟩
            rw [std_map.find_assign_ne _ _ _ _ hne]
            exact hfree3 o ho hcyc
          rw [interface_definition_release db w w3 c d g hd] at h
          obtain ⟨hw, hno, hfree2⟩ := ih _ _ _ _ h hreach2 hfree4
          refine ⟨hw, ?_, hfree2⟩
          intro c2 hc2
          rcases List.mem_cons.mp hc2 with rfl | hc2
          · exact hnoc
          · exact hno c2 hc2
        all_goals cases h
      all_goals cases h

theorem get_interfaces_impl_cycle (db : database) (w0 : writer) (type : TypeDef)
    (hcan : canonical db w0 type) :
    ∀ fuel l w r w2 r2, get_interfaces_impl db fuel w r l = .ok (w2, r2) →
      (∀ c ∈ l, reachable db w0 type (w, c)) → cycle_free_keys db w0 type r →
        w2 = w ∧ (∀ c ∈ l, ¬ cyclic_occurrence db (w, c)) ∧ cycle_free_keys db w0 type r2 := by
  intro fuel
  induction fuel with
  | zero =>
    exact get_interfaces_loop_cycle db w0 type hcan _ (fun _ _ _ _ _ h => by cases h)
  | succ n ih =>
    exact get_interfaces_loop_cycle db w0 type hcan _ (fun w r l => ih l w r)

theorem get_interfaces_cycle_never_returns (db : database) (w : writer) (type : TypeDef)
    (hcan : canonical db w type) (hcyc : reaches_cycle db type) :
    ∀ fuel x, get_interfaces db fuel w type ≠ .ok x := by
  rintro fuel ⟨w2, r2⟩ h
  obtain ⟨_, hno, _⟩ := get_interfaces_impl_cycle db w type hcan fuel _ w [] w2 r2 h
    (fun c hc => ⟨c, hc, Relation.ReflTransGen.refl⟩) (fun _ _ _ => rfl)
  obtain ⟨d, ⟨impl, hi, v, v2, g, hdef⟩, hcyc2⟩ := reaches_cycle_step db type hcyc
  obtain ⟨v3, g4, hdef2⟩ := interface_definition_writer db v v2 w impl d g hdef
  exact hno impl hi ⟨d, v3, g4, hdef2, hcyc2⟩

theorem get_interfaces_cycle_diverges (db : database) (w : writer) (type : TypeDef)
    (hcan : canonical db w type) (hres : resolvable db w type) (hcyc : reaches_cycle db type) :
    ∀ fuel, get_interfaces db fuel w type = .diverge := by
  intro fuel
  rcases get_interfaces_impl_returns_or_diverges db w type hres fuel _ w []
    (fun c hc => ⟨c, hc, Relation.ReflTransGen.refl⟩) with ⟨x, hx⟩ | hdiv
  · exact absurd hx (get_interfaces_cycle_never_returns db w type hcan hcyc fuel x)
  · exact hdiv

/-! ## Termination of the closure: the cyclic sample -/

theorem cycle_InterfaceImpl (type : TypeDef) (impl : TypeDefOrRef)
    (h : impl ∈ cycle_db.InterfaceImpl type) :
    (type = 0 ∧ impl = .TypeDef 1) ∨ (type = 1 ∧ impl = .TypeDef 2) ∨
    (type = 2 ∧ impl = .TypeDef 1) := by
  rcases type with _ | _ | _ | n <;>
    simp [database.InterfaceImpl, cycle_db] at h ⊢ <;> exact h

theorem cycle_reachable (type : TypeDef) (o : occurrence)
    (h : reachable cycle_db {} type o) : o = ({}, .TypeDef 1) ∨ o = ({}, .TypeDef 2) := by
  obtain ⟨impl, hi, hchain⟩ := h
  induction hchain with
  | refl =>
    rcases cycle_InterfaceImpl type impl hi with ⟨_, rfl⟩ | ⟨_, rfl⟩ | ⟨_, rfl⟩ <;> simp
  | @tail b c _ hbc ih =>
    obtain ⟨cw, cc⟩ := c
    obtain ⟨d, g, hdef, hmem⟩ := hbc
    rcases ih with rfl | rfl <;>
    · simp [interface_definition] at hdef
      obtain ⟨rfl, rfl, _⟩ := hdef
      rcases cycle_InterfaceImpl _ cc hmem with ⟨_, rfl⟩ | ⟨_, rfl⟩ | ⟨_, rfl⟩ <;> simp

theorem cycle_resolvable (type : TypeDef) : resolvable cycle_db {} type := by
  intro o ho
  rcases cycle_reachable type o ho with rfl | rfl <;> simp [interface_definition]

theorem cycle_canonical (type : TypeDef) : canonical cycle_db {} type := by
  intro o1 o2 h1 h2 hname d1 w1 g1 d2 w2 g2 hd1 hd2
  rcases cycle_reachable type o1 h1 with rfl | rfl <;>
  rcases cycle_reachable type o2 h2 with rfl | rfl <;>
  first
    | (exfalso; revert hname; simp [canonical_name, cycle_db]; done)
    | (simp [interface_definition] at hd1 hd2
       obtain ⟨rfl, rfl, _⟩ := hd1
       obtain ⟨rfl, rfl, _⟩ := hd2
       exact ⟨rfl, fun impl hi => rfl⟩)

theorem cycle_not_acyclic : ¬ acyclic_from cycle_db 0 := by
  have h01 : implements cycle_db 0 1 :=
    ⟨.TypeDef 1, by simp [database.InterfaceImpl, cycle_db], {}, {}, {}, rfl⟩
  have h12 : implements cycle_db 1 2 :=
    ⟨.TypeDef 2, by simp [database.InterfaceImpl, cycle_db], {}, {}, {}, rfl⟩
  have h21 : implements cycle_db 2 1 :=
    ⟨.TypeDef 1, by simp [database.InterfaceImpl, cycle_db], {}, {}, {}, rfl⟩
  exact fun h => h 1 (Relation.ReflTransGen.single h01)
    (Relation.TransGen.tail (Relation.TransGen.single h12) h21)

/-! ## Termination of the closure: claims -/

theorem get_interfaces_impl_descent (db : database) (fuel : Nat) (w : writer)
    (result : std_map interface_info) (impl : TypeDefOrRef) (children : List TypeDefOrRef)
    (d : TypeDef) (w1 : writer) (g : generic_param_guard)
    (hkey : std_map.find result (db.write_temp w impl) = none)
    (hdef : interface_definition db w impl = .ok (d, w1, g)) :
    get_interfaces_impl db (fuel + 1) w result (impl :: children) =
      match get_interfaces_impl db fuel w1 result (db.InterfaceImpl d) with
      | .ok (w2, result2) =>
        get_interfaces_impl db (fuel + 1) (g.release w2)
          (std_map.assign result2 (db.write_temp w impl)
            { type := impl, methods := db.MethodList d }) children
      | .throw_invalid m => .throw_invalid m
      | .assert_failed => .assert_failed
      | .diverge => .diverge := by
  simp only [get_interfaces_impl, get_interfaces_loop, hkey, hdef]

/-- C19 (termination of the closure depends on acyclicity, not on the dedup
check). When the interface-implementation graph reached from the type has no
cycle, `get_interfaces` comes to an end at every sufficient depth bound, and
returns a map when in addition every reference resolves. The check for a key
that is already present guards no cycle: a call that meets an interface whose
key is absent passes the map unchanged, so still without the key, to the
nested call on the interfaces of that interface, and assigns the key only to
the map that call returns. Hence, when canonical names identify one interface
and the graph reached from the type has a cycle, `get_interfaces` returns at
no depth bound, and when every reference resolves it is `diverge` at every
depth bound. -/
theorem get_interfaces_terminates_iff_acyclic (db : database) (w : writer) (type : TypeDef) :
    (acyclic_from db type → ∃ n, ∀ n2, n ≤ n2 → get_interfaces db n2 w type ≠ .diverge) ∧
    (acyclic_from db type → resolvable db w type →
      ∃ n r, ∀ n2, n ≤ n2 → get_interfaces db n2 w type = .ok (w, r)) ∧
    (∀ fuel v result impl children d v1 g,
      std_map.find result (db.write_temp v impl) = none →
      interface_definition db v impl = .ok (d, v1, g) →
      get_interfaces_impl db (fuel + 1) v result (impl :: children) =
        match get_interfaces_impl db fuel v1 result (db.InterfaceImpl d) with
        | .ok (v2, result2) =>
          get_interfaces_impl db (fuel + 1) (g.release v2)
            (std_map.assign result2 (db.write_temp v impl)
              { type := impl, methods := db.MethodList d }) children
        | .throw_invalid m => .throw_invalid m
        | .assert_failed => .assert_failed
        | .diverge => .diverge) ∧
    (canonical db w type → ¬ acyclic_from db type →
      ∀ fuel x, get_interfaces db fuel w type ≠ .ok x) ∧
    (canonical db w type → resolvable db w type → ¬ acyclic_from db type →
      ∀ fuel, get_interfaces db fuel w type = .diverge) :=
  ⟨get_interfaces_total db w type,
    get_interfaces_returns_from db w type,
    get_interfaces_impl_descent db,
    fun hcan hcyc => get_interfaces_cycle_never_returns db w type hcan
      ((not_acyclic_from_iff db type).mp hcyc),
    fun hcan hres hcyc => get_interfaces_cycle_diverges db w type hcan hres
      ((not_acyclic_from_iff db type).mp hcyc)⟩

/-- On the acyclic sample the closure of Widget returns; on the cyclic
sample, whose names are canonical and whose references resolve, the closure
of Widget is `diverge` at every depth bound. -/
theorem get_interfaces_terminates_iff_acyclic_witness :
    (acyclic_from sample_db 0 ∧ resolvable sample_db {} 0 ∧
      ∃ n r, ∀ n2, n ≤ n2 → get_interfaces sample_db n2 {} 0 = .ok ({}, r)) ∧
    (canonical cycle_db {} 0 ∧ resolvable cycle_db {} 0 ∧ ¬ acyclic_from cycle_db 0 ∧
      ∀ fuel, get_interfaces cycle_db fuel {} 0 = .diverge) :=
  ⟨⟨acyclic_from_of_acyclic sample_db 0 sample_acyclic, sample_resolvable 0,
      (get_interfaces_terminates_iff_acyclic sample_db {} 0).2.1
        (acyclic_from_of_acyclic sample_db 0 sample_acyclic) (sample_resolvable 0)⟩,
    ⟨cycle_canonical 0, cycle_resolvable 0, cycle_not_acyclic,
      (get_interfaces_terminates_iff_acyclic cycle_db {} 0).2.2.2.2
        (cycle_canonical 0) (cycle_resolvable 0) cycle_not_acyclic⟩⟩

/-! ## Iteration order of the closure: the map stays ordered -/

theorem get_interfaces_loop_ordered (db : database)
    (recurse : writer → std_map interface_info → List TypeDefOrRef →
      Res (writer × std_map interface_info))
    (hrec : ∀ w r l w2 r2, recurse w r l = .ok (w2, r2) → std_map.ordered r →
      std_map.ordered r2) :
    ∀ l w r w2 r2, get_interfaces_loop db recurse w r l = .ok (w2, r2) → std_map.ordered r →
      std_map.ordered r2 := by
  intro l
  induction l with
  | nil =>
    intro w r w2 r2 h hr
    simp only [get_interfaces_loop, Res.ok.injEq, Prod.mk.injEq] at h
    rw [← h.2]
    exact hr
  | cons c rest ih =>
    intro w r w2 r2 h hr
    simp only [get_interfaces_loop] at h
    split at h
    · exact ih _ _ _ _ h hr
    · split at h
      · split at h
        · rename_i w3 r3 hx
          exact ih _ _ _ _ h (std_map.ordered_assign _ _ _ (hrec _ _ _ _ _ hx hr))
        all_goals cases h
      all_goals cases h

theorem get_interfaces_impl_ordered (db : database) :
    ∀ fuel l w r w2 r2, get_interfaces_impl db fuel w r l = .ok (w2, r2) → std_map.ordered r →
      std_map.ordered r2 := by
  intro fuel
  induction fuel with
  | zero => exact get_interfaces_loop_ordered db _ (fun _ _ _ _ _ h => by cases h)
  | succ n ih => exact get_interfaces_loop_ordered db _ (fun w r l => ih l w r)

theorem get_interfaces_ordered (db : database) (fuel : Nat) (w : writer) (type : TypeDef)
    (w2 : writer) (m : std_map interface_info)
    (h : get_interfaces db fuel w type = .ok (w2, m)) : std_map.ordered m :=
  get_interfaces_impl_ordered db fuel _ w [] w2 m h (by simp [std_map.ordered, std_map.keys])

/-! ## Iteration order of the closure: ordered maps are determined by their lookups -/

theorem std_map.find_eq_none_of_lt {V : Type} (m : std_map V) (k : String)
    (h : ∀ a ∈ std_map.keys m, k < a) : std_map.find m k = none := by
  rw [← std_map.not_mem_keys_iff]
  intro hk
  exact lt_irrefl _ (h k hk)

theorem std_map.ext_of_ordered {V : Type} :
    ∀ m m2 : std_map V, std_map.ordered m → std_map.ordered m2 →
      (∀ k, std_map.find m k = std_map.find m2 k) → m = m2 := by
  intro m
  induction m with
  | nil =>
    intro m2 _ _ h
    cases m2 with
    | nil => rfl
    | cons e rest =>
      have := h e.1
      simp [std_map.find] at this
  | cons e rest ih =>
    intro m2 ho ho2 h
    obtain ⟨k, v⟩ := e
    have hh : (∀ a ∈ std_map.keys rest, k < a) ∧ std_map.ordered rest := by
      simpa [std_map.ordered, std_map.keys] using ho
    cases m2 with
    | nil =>
      have := h k
      simp [std_map.find] at this
    | cons e2 rest2 =>
      obtain ⟨k2, v2⟩ := e2
      have hh2 : (∀ a ∈ std_map.keys rest2, k2 < a) ∧ std_map.ordered rest2 := by
        simpa [std_map.ordered, std_map.keys] using ho2
      have hk : k = k2 := by
        by_contra hne
        have h1 := h k
        have h2 := h k2
        simp only [std_map.find, if_true, if_neg hne, if_neg (Ne.symm hne)] at h1 h2
        have m1 : k ∈ std_map.keys rest2 := (std_map.mem_keys_iff _ _).mpr ⟨v, h1.symm⟩
        have m2 : k2 ∈ std_map.keys rest := (std_map.mem_keys_iff _ _).mpr ⟨v2, h2⟩
        exact lt_asymm (hh.1 _ m2) (hh2.1 _ m1)
      subst hk
      have hv : v = v2 := by
        have h1 := h k
        simpa [std_map.find] using h1
      subst hv
      have hrest : rest = rest2 := by
        apply ih rest2 hh.2 hh2.2
        intro k3
        by_cases h3 : k3 = k
        · subst h3
          rw [std_map.find_eq_none_of_lt _ _ hh.1, std_map.find_eq_none_of_lt _ _ hh2.1]
        · have := h k3
          simpa [std_map.find, h3] using this
      rw [hrest]

theorem method_ranges_keys (m : std_map interface_info) :
    std_map.keys (method_ranges m) = std_map.keys m := by
  simp [std_map.keys, method_ranges, List.map_map, Function.comp_def]

theorem method_ranges_find (m : std_map interface_info) (k : String) :
    std_map.find (method_ranges m) k = (std_map.find m k).map (fun info => info.methods) := by
  induction m with
  | nil => rfl
  | cons e rest ih =>
    obtain ⟨k2, v⟩ := e
    have ih2 : std_map.find (method_ranges rest) k
        = (std_map.find rest k).map (fun info => info.methods) := ih
    show std_map.find ((k2, v.methods) :: method_ranges rest) k = _
    simp only [std_map.find]
    split_ifs
    · rfl
    · exact ih2

theorem std_map.split_of_lt {V : Type} (m : std_map V) (h : std_map.ordered m)
    (e1 e2 : String × V) (h1 : e1 ∈ m) (h2 : e2 ∈ m) (hlt : e1.1 < e2.1) :
    ∃ a b c, m = a ++ e1 :: (b ++ e2 :: c) := by
  obtain ⟨a, rest, rfl⟩ := List.append_of_mem h1
  have hp : (a ++ e1 :: rest).Pairwise (fun x y => x.1 < y.1) :=
    List.pairwise_map.mp h
  rw [List.pairwise_append] at hp
  obtain ⟨_, hcons, hcross⟩ := hp
  rw [List.pairwise_cons] at hcons
  rcases List.mem_append.mp h2 with ha | hr
  · exact absurd (hcross e2 ha e1 (List.mem_cons_self _ _)) (lt_asymm hlt)
  · rcases List.mem_cons.mp hr with rfl | hr
    · exact absurd hlt (lt_irrefl _)
    · obtain ⟨b, c, rfl⟩ := List.append_of_mem hr
      exact ⟨a, b, c, rfl⟩

theorem closure_methods_append (a b : std_map interface_info) :
    closure_methods (a ++ b) = closure_methods a ++ closure_methods b := by
  simp [closure_methods]

theorem closure_methods_cons (e : String × interface_info) (b : std_map interface_info) :
    closure_methods (e :: b) = e.2.methods ++ closure_methods b := by
  simp [closure_methods]

/-! ## Iteration order of the closure: permuted edges -/

theorem edges_permuted_symm (db db2 : database) (h : edges_permuted db db2) :
    edges_permuted db2 db :=
  ⟨h.1.symm, h.2.1.symm, h.2.2.1.symm, fun d => (h.2.2.2.1 d).symm,
    fun d => (h.2.2.2.2 d).symm⟩

theorem interface_definition_permuted (db db2 : database) (h : edges_permuted db db2)
    (w : writer) (type : TypeDefOrRef) :
    interface_definition db2 w type = interface_definition db w type := by
  unfold interface_definition
  rw [h.1, h.2.1]

theorem requires_interface_permuted (db db2 : database) (h : edges_permuted db db2)
    (o o2 : occurrence) (hr : requires_interface db2 o o2) : requires_interface db o o2 := by
  obtain ⟨d, g, hdef, hmem⟩ := hr
  rw [interface_definition_permuted db db2 h] at hdef
  exact ⟨d, g, hdef, (h.2.2.2.2 d).mem_iff.mp hmem⟩

theorem reachable_permuted (db db2 : database) (h : edges_permuted db db2) (w : writer)
    (type : TypeDef) (o : occurrence) (hr : reachable db2 w type o) : reachable db w type o := by
  obtain ⟨impl, hi, hchain⟩ := hr
  exact ⟨impl, (h.2.2.2.2 type).mem_iff.mp hi,
    Relation.ReflTransGen.mono (requires_interface_permuted db db2 h) hchain⟩

theorem implements_permuted (db db2 : database) (h : edges_permuted db db2) (d d2 : TypeDef)
    (hi : implements db2 d d2) : implements db d d2 := by
  obtain ⟨impl, hmem, w, w1, g, hdef⟩ := hi
  rw [interface_definition_permuted db db2 h] at hdef
  exact ⟨impl, (h.2.2.2.2 d).mem_iff.mp hmem, w, w1, g, hdef⟩

theorem acyclic_permuted (db db2 : database) (h : edges_permuted db db2) (hac : acyclic db) :
    acyclic db2 :=
  fun d hd => hac d (Relation.TransGen.mono (implements_permuted db db2 h) hd)

theorem resolvable_permuted (db db2 : database) (h : edges_permuted db db2) (w : writer)
    (type : TypeDef) (hres : resolvable db w type) : resolvable db2 w type := by
  intro o ho
  rw [interface_definition_permuted db db2 h]
  exact hres o (reachable_permuted db db2 h w type o ho)

theorem canonical_permuted (db db2 : database) (h : edges_permuted db db2) (w : writer)
    (type : TypeDef) (hcan : canonical db w type) : canonical db2 w type := by
  intro o1 o2 h1 h2 hname d1 w1 g1 d2 w2 g2 hd1 hd2
  rw [interface_definition_permuted db db2 h] at hd1 hd2
  simp only [canonical_name, h.2.2.1] at hname
  obtain ⟨hd, hnames⟩ := hcan o1 o2 (reachable_permuted db db2 h w type o1 h1)
    (reachable_permuted db db2 h w type o2 h2) hname d1 w1 g1 d2 w2 g2 hd1 hd2
  refine ⟨hd, fun impl hi => ?_⟩
  rw [h.2.2.1]
  exact hnames impl ((h.2.2.2.2 d1).mem_iff.mp hi)

theorem get_interfaces_closure_facts (db : database) (w : writer) (type : TypeDef)
    (hac : acyclic db) (hcan : canonical db w type) (fuel : Nat) (w2 : writer)
    (m : std_map interface_info) (h : get_interfaces db fuel w type = .ok (w2, m)) :
    std_map.ordered m ∧
    (∀ k, k ∈ std_map.keys m ↔ ∃ o, reachable db w type o ∧ canonical_name db o = k) ∧
    (∀ k info, std_map.find m k = some info → ∃ o d w1 g, reachable db w type o ∧
      k = canonical_name db o ∧ info.type = o.2 ∧
      interface_definition db o.1 o.2 = .ok (d, w1, g) ∧ info.methods = db.MethodList d) := by
  obtain ⟨tr, htr⟩ := get_interfaces_impl_steps_of_ok db fuel _ w w2 [] m h
  obtain ⟨_, _, _, hord, hkeys, hfind⟩ :=
    get_interfaces_steps_sound db w type hac hcan fuel w2 m tr htr
  exact ⟨hord, hkeys, hfind⟩

theorem get_interfaces_permuted (db db2 : database) (h : edges_permuted db db2) (w : writer)
    (type : TypeDef) (hac : acyclic db) (hcan : canonical db w type) (fuel fuel2 : Nat)
    (w1 w2 : writer) (m m2 : std_map interface_info)
    (h1 : get_interfaces db fuel w type = .ok (w1, m))
    (h2 : get_interfaces db2 fuel2 w type = .ok (w2, m2)) :
    method_ranges m2 = method_ranges m := by
  obtain ⟨hord, hkeys, hfind⟩ := get_interfaces_closure_facts db w type hac hcan fuel w1 m h1
  obtain ⟨hord2, hkeys2, hfind2⟩ := get_interfaces_closure_facts db2 w type
    (acyclic_permuted db db2 h hac) (canonical_permuted db db2 h w type hcan) fuel2 w2 m2 h2
  have hsame : ∀ k, k ∈ std_map.keys m2 ↔ k ∈ std_map.keys m := by
    intro k
    rw [hkeys, hkeys2]
    constructor
    · rintro ⟨o, ho, hn⟩
      refine ⟨o, reachable_permuted db db2 h w type o ho, ?_⟩
      simpa only [canonical_name, h.2.2.1] using hn
    · rintro ⟨o, ho, hn⟩
      refine ⟨o, reachable_permuted db2 db (edges_permuted_symm db db2 h) w type o ho, ?_⟩
      simpa only [canonical_name, h.2.2.1] using hn
  apply std_map.ext_of_ordered
  · unfold std_map.ordered
    rw [method_ranges_keys]
    exact hord2
  · unfold std_map.ordered
    rw [method_ranges_keys]
    exact hord
  · intro k
    rw [method_ranges_find, method_ranges_find]
    cases hf2 : std_map.find m2 k with
    | none =>
      have hk : k ∉ std_map.keys m := fun hk =>
        (std_map.not_mem_keys_iff m2 k).mpr hf2 ((hsame k).mpr hk)
      rw [(std_map.not_mem_keys_iff m k).mp hk]
    | some info2 =>
      have hk : k ∈ std_map.keys m := (hsame k).mp ((std_map.mem_keys_iff m2 k).mpr ⟨info2, hf2⟩)
      obtain ⟨info, hf⟩ := (std_map.mem_keys_iff m k).mp hk
      rw [hf]
      obtain ⟨o, d, v1, g, ho, hn, _, hd, hmeth⟩ := hfind k info hf
      obtain ⟨o2, d2, v2, g2, ho2, hn2, _, hd2, hmeth2⟩ := hfind2 k info2 hf2
      rw [interface_definition_permuted db db2 h] at hd2
      simp only [canonical_name, h.2.2.1] at hn2
      have hdd := (hcan o o2 ho (reachable_permuted db db2 h w type o2 ho2)
        (by rw [← hn]; exact hn2) d v1 g d2 v2 g2 hd hd2).1
      subst hdd
      simp only [Option.map_some', hmeth, hmeth2, h.2.2.2.1]

/-! ## Iteration order of the closure: the sample -/

theorem order_InterfaceImpl (type : TypeDef) (impl : TypeDefOrRef)
    (h : impl ∈ order_db.InterfaceImpl type) :
    (type = 0 ∧ (impl = .TypeDef 2 ∨ impl = .TypeDef 1)) ∨ (type = 1 ∧ impl = .TypeDef 2) := by
  rcases type with _ | _ | _ | n <;>
    simp [database.InterfaceImpl, order_db] at h ⊢ <;> exact h

theorem order_acyclic : acyclic order_db := by
  apply acyclic_of_rank order_db (fun d => 2 - d)
  rintro d d2 ⟨impl, hi, w, w1, g, hdef⟩
  rcases order_InterfaceImpl d impl hi with ⟨rfl, rfl | rfl⟩ | ⟨rfl, rfl⟩ <;>
  · simp [interface_definition] at hdef
    obtain ⟨rfl, _⟩ := hdef
    decide

theorem order_reachable (type : TypeDef) (o : occurrence)
    (h : reachable order_db {} type o) : o = ({}, .TypeDef 1) ∨ o = ({}, .TypeDef 2) := by
  obtain ⟨impl, hi, hchain⟩ := h
  induction hchain with
  | refl =>
    rcases order_InterfaceImpl type impl hi with ⟨_, rfl | rfl⟩ | ⟨_, rfl⟩ <;> simp
  | @tail b c _ hbc ih =>
    obtain ⟨cw, cc⟩ := c
    obtain ⟨d, g, hdef, hmem⟩ := hbc
    rcases ih with rfl | rfl <;>
    · simp [interface_definition] at hdef
      obtain ⟨rfl, rfl, _⟩ := hdef
      rcases order_InterfaceImpl _ cc hmem with ⟨h0, _⟩ | ⟨h0, rfl⟩ <;>
      first
        | (exfalso; revert h0; decide)
        | simp

theorem order_resolvable (type : TypeDef) : resolvable order_db {} type := by
  intro o ho
  rcases order_reachable type o ho with rfl | rfl <;> simp [interface_definition]

theorem order_canonical (type : TypeDef) : canonical order_db {} type := by
  intro o1 o2 h1 h2 hname d1 w1 g1 d2 w2 g2 hd1 hd2
  rcases order_reachable type o1 h1 with rfl | rfl <;>
  rcases order_reachable type o2 h2 with rfl | rfl <;>
  first
    | (exfalso; revert hname; simp [canonical_name, order_db]; done)
    | (simp [interface_definition] at hd1 hd2
       obtain ⟨rfl, rfl, _⟩ := hd1
       obtain ⟨rfl, rfl, _⟩ := hd2
       exact ⟨rfl, fun impl hi => rfl⟩)

theorem order_edges_permuted : edges_permuted order_db order_db_swapped := by
  refine ⟨rfl, rfl, rfl, fun d => ?_, fun d => ?_⟩
  · rcases d with _ | _ | _ | n <;> rfl
  · rcases d with _ | _ | _ | n
    · exact List.Perm.swap _ _ _
    · exact List.Perm.refl _
    · exact List.Perm.refl _
    · exact List.Perm.refl _

/-! ## Iteration order of the closure: claims -/

/-- C20 (iteration order of the closure). The map that `get_interfaces`
returns has strictly ascending keys, whatever the metadata. Over an acyclic
interface-implementation graph in which a canonical name identifies one
interface, metadata that declares the same edges in another order gives the
same key-to-method-range mapping, and when the references resolve both runs
return. For an interface type `get_methods` lists the own methods and then
the methods of the closure entries in the order of the map, so that for two
entries the methods of the one with the smaller name come before those of
the one with the larger name. -/
theorem get_interfaces_iteration_order (db : database) (w : writer) (type : TypeDef) :
    (∀ fuel w2 m, get_interfaces db fuel w type = .ok (w2, m) → std_map.ordered m) ∧
    (∀ db2, edges_permuted db db2 → acyclic db → canonical db w type →
      ∀ fuel fuel2 w1 m w2 m2, get_interfaces db fuel w type = .ok (w1, m) →
        get_interfaces db2 fuel2 w type = .ok (w2, m2) → method_ranges m2 = method_ranges m) ∧
    (∀ db2, edges_permuted db db2 → acyclic db → resolvable db w type →
      (∃ n m, ∀ n2, n ≤ n2 → get_interfaces db n2 w type = .ok (w, m)) ∧
      (∃ n m2, ∀ n2, n ≤ n2 → get_interfaces db2 n2 w type = .ok (w, m2))) ∧
    (db.get_category type = .interface_type →
      ∀ fuel w2 m, get_interfaces db fuel w type = .ok (w2, m) →
        get_methods db fuel w type = .ok (own_methods db type ++ closure_methods m) ∧
        ∀ e1 ∈ m, ∀ e2 ∈ m, e1.1 < e2.1 →
          ∃ a b c, m = a ++ e1 :: (b ++ e2 :: c) ∧
            closure_methods m = closure_methods a ++ (e1.2.methods ++
              (closure_methods b ++ (e2.2.methods ++ closure_methods c)))) := by
  refine ⟨fun fuel w2 m h => get_interfaces_ordered db fuel w type w2 m h,
    fun db2 hp hac hcan fuel fuel2 w1 m w2 m2 h1 h2 =>
      get_interfaces_permuted db db2 hp w type hac hcan fuel fuel2 w1 w2 m m2 h1 h2,
    fun db2 hp hac hres => ⟨get_interfaces_returns db w type hac hres,
      get_interfaces_returns db2 w type (acyclic_permuted db db2 hp hac)
        (resolvable_permuted db db2 hp w type hres)⟩, ?_⟩
  intro hcat fuel w2 m h
  refine ⟨?_, ?_⟩
  · rw [get_methods_eq, if_pos hcat, h]
    rfl
  · intro e1 h1 e2 h2 hlt
    obtain ⟨a, b, c, rfl⟩ := std_map.split_of_lt m
      (get_interfaces_ordered db fuel w type w2 _ h) e1 e2 h1 h2 hlt
    refine ⟨a, b, c, rfl, ?_⟩
    rw [closure_methods_append, closure_methods_cons, closure_methods_append,
      closure_methods_cons]

/-- On the sample, IZeta is an ancestor of IAlpha and is stored first, in
either order of declaration, yet the map lists IAlpha before IZeta, the two
orders of declaration give the same method ranges, and `get_methods` lists
the method of IAlpha before that of IZeta. -/
theorem get_interfaces_iteration_order_witness :
    (∃ m tr, get_interfaces_steps order_db_swapped 2 {} 0 = .ok ({}, m, tr) ∧
      tr.map (fun e => match e with
        | .stored _ name _ _ => some name
        | .skipped _ _ _ _ => none) = [some "IZeta", some "IAlpha", none] ∧
      std_map.keys m = ["IAlpha", "IZeta"]) ∧
    (∀ fuel fuel2 w1 m w2 m2, get_interfaces order_db fuel {} 0 = .ok (w1, m) →
      get_interfaces order_db_swapped fuel2 {} 0 = .ok (w2, m2) →
      method_ranges m2 = method_ranges m) ∧
    get_methods order_db 2 {} 0
      = .ok [{ Name := "Top" }, { Name := "Alpha" }, { Name := "Zeta" }] ∧
    get_methods order_db_swapped 2 {} 0
      = .ok [{ Name := "Top" }, { Name := "Alpha" }, { Name := "Zeta" }] :=
  ⟨⟨_, _, rfl, rfl, rfl⟩,
    (get_interfaces_iteration_order order_db {} 0).2.1 order_db_swapped order_edges_permuted
      order_acyclic (order_canonical 0),
    by decide, by decide⟩

end xlang
